import Mathlib

/-!
# k8s-traffic-controller: weight calculation, backing-pod health and the weight reconcile loop

A shallow embedding of `pkg/controllers/ingress_controller.go`,
`pkg/controllers/endpoints_mapper.go`, `pkg/trafficweight/trafficweight.go` and
`pkg/trafficweight/dynamobackend.go`.

* Go `int` and `uint` are 64 bits wide; `int` values are `Int`, `uint` values are `Nat`, and the
  conversion `uint(i)` is reduction modulo `2^64`.
* `float64` is modelled exactly: `F64` holds the IEEE-754 binary64 values, and every arithmetic
  operation rounds the exact result to the nearest binary64, ties to even.
* A Go `map[string]string` is an association list with distinct keys. The order in which a
  `range` visits the keys of a map is chosen by the runtime at every `range`, and is a
  parameter (`GoRuntime`).
* `strconv.ParseFloat`, `strconv.ParseInt` and `dynamodbattribute.UnmarshalMap` are library
  functions; they are modelled by what they do on the values that reach them here.
* The package variable `trafficweight.Store` is passed explicitly.
* A result of type `Option` is `none` when the Go code stops with a runtime failure
  (dereference of a nil pointer).
* The API server is a `Cluster` of routes and records, the DynamoDB client a `DynamoDBAPI` over
  the state of the service; a call that ends in `log.Fatalf` has the outcome `exited`.
-/

namespace TrafficController

/-! ## binary64 arithmetic -/

/-- An IEEE-754 binary64 value. The finite value `fin neg m e` is `(-1)^neg * m * 2^e`. The
operations below write a zero as `fin neg 0 0` and any other finite value with `m < 2^53`,
`-1074 ≤ e ≤ 971`, and `2^52 ≤ m` unless `e = -1074`. -/
inductive F64 where
  | nan
  | inf (neg : Bool)
  | fin (neg : Bool) (m : Nat) (e : Int)
deriving DecidableEq, Repr

namespace F64

/-- Numerator and denominator of `(num / den) / 2^q`. -/
def scaled (num den : Nat) (q : Int) : Nat × Nat :=
  match q with
  | Int.ofNat k => (num, den * 2 ^ k)
  | Int.negSucc k => (num * 2 ^ (k + 1), den)

/-- Position of the highest set bit of `n` (`0` for `n < 2`), halving at most `fuel` times. -/
def log2Fuel : Nat → Nat → Nat
  | 0, _ => 0
  | fuel + 1, n => if n < 2 then 0 else log2Fuel fuel (n / 2) + 1

/-- Floor of the binary logarithm of `n`. -/
def ilog2 (n : Nat) : Nat := log2Fuel n n

/-- The exponent `k` with `2^k ≤ num / den < 2^(k+1)`, for `num, den > 0`. -/
def floorLog2 (num den : Nat) : Int :=
  let k0 : Int := (ilog2 num : Int) - (ilog2 den : Int)
  if (scaled num den k0).2 ≤ (scaled num den k0).1 then k0 else k0 - 1

/-- The integer nearest to `n / d`, ties to the even one. -/
def roundHalfEven (n d : Nat) : Nat :=
  let m0 := n / d
  let r := n % d
  if d < 2 * r ∨ (2 * r = d ∧ m0 % 2 = 1) then m0 + 1 else m0

/-- Mantissa and exponent of the binary64 nearest to `num / den` (ties to even); `none` when the
rounded value exceeds the largest finite binary64. -/
def roundPos (num den : Nat) : Option (Nat × Int) :=
  if num = 0 then some (0, 0) else
  let q : Int := max (floorLog2 num den - 52) (-1074)
  let m := roundHalfEven (scaled num den q).1 (scaled num den q).2
  let r : Nat × Int := if m = 0 then (0, 0) else if m = 2 ^ 53 then (2 ^ 52, q + 1) else (m, q)
  if 971 < r.2 then none else some r

/-- The binary64 nearest to `(-1)^neg * num / den`; an infinity on overflow. -/
def ofRat (neg : Bool) (num den : Nat) : F64 :=
  match roundPos num den with
  | some (m, e) => fin neg m e
  | none => inf neg

/-- The conversion `float64(i)` of a Go integer. -/
def ofInt (i : Int) : F64 := ofRat (decide (i < 0)) i.natAbs 1

/-- The product `x * y`, rounded. -/
def mul : F64 → F64 → F64
  | nan, _ => nan
  | _, nan => nan
  | inf a, inf b => inf (xor a b)
  | inf a, fin b n _ => if n = 0 then nan else inf (xor a b)
  | fin a m _, inf b => if m = 0 then nan else inf (xor a b)
  | fin a m e, fin b n f =>
    ofRat (xor a b) (scaled (m * n) 1 (-(e + f))).1 (scaled (m * n) 1 (-(e + f))).2

/-- The quotient `x / y`, rounded. -/
def div : F64 → F64 → F64
  | nan, _ => nan
  | _, nan => nan
  | inf _, inf _ => nan
  | inf a, fin b _ _ => inf (xor a b)
  | fin a _ _, inf b => fin (xor a b) 0 0
  | fin a m e, fin b n f =>
    if n = 0 then (if m = 0 then nan else inf (xor a b))
    else ofRat (xor a b) (scaled m n (f - e)).1 (scaled m n (f - e)).2

/-- The finite value `(-1)^neg * m * 2^e` as an integer multiple of `2^(min e f)`. -/
def signedAt (neg : Bool) (m : Nat) (e f : Int) : Int :=
  (if neg then -1 else 1) * ((m * 2 ^ (e - min e f).toNat : Nat) : Int)

/-- The comparison `x < y`; false when either side is NaN, and `-0 < 0` is false. -/
def lt : F64 → F64 → Bool
  | nan, _ => false
  | _, nan => false
  | inf a, inf b => a && !b
  | inf a, fin _ _ _ => a
  | fin _ _ _, inf b => !b
  | fin a m e, fin b n f => decide (signedAt a m e f < signedAt b n f e)

/-- Go `math.Ceil`: the least integral value not below `x`; NaN, infinities and zeros (with
their sign) are returned as they are. -/
def ceil : F64 → F64
  | nan => nan
  | inf a => inf a
  | fin a m (Int.ofNat k) => fin a m (Int.ofNat k)
  | fin a m (Int.negSucc k) =>
    if a then ofRat true (m / 2 ^ (k + 1)) 1
    else ofRat false ((m + 2 ^ (k + 1) - 1) / 2 ^ (k + 1)) 1

/-- The integer part of the magnitude of a finite value `m * 2^e`. -/
def truncMag (m : Nat) : Int → Nat
  | Int.ofNat k => m * 2 ^ k
  | Int.negSucc k => m / 2 ^ (k + 1)

/-- The conversion `uint(x)`: the fraction is discarded. When the truncated value is not a
`uint` (NaN, an infinity, a value `≤ -1` or `≥ 2^64`) Go leaves the result to the
implementation, and it is `undef x`. -/
def toUint (undef : F64 → Nat) : F64 → Nat
  | fin a m e =>
    if a && decide (truncMag m e ≠ 0) then undef (fin a m e)
    else if truncMag m e < 2 ^ 64 then truncMag m e else undef (fin a m e)
  | x => undef x

end F64

/-! ## `strconv.ParseFloat` -/

/-- The two errors of `strconv.ParseFloat`. -/
inductive NumError where
  | errSyntax
  | errRange
deriving DecidableEq, Repr

/-- ASCII lower-casing of one character. -/
def lowerChar (c : Char) : Char :=
  if 65 ≤ c.toNat ∧ c.toNat ≤ 90 then Char.ofNat (c.toNat + 32) else c

/-- Whether `c` is one of `0` .. `9`. -/
def isDigitChar (c : Char) : Bool := decide (48 ≤ c.toNat ∧ c.toNat ≤ 57)

/-- The number written by a list of decimal digits. -/
def digitsVal (ds : List Char) : Nat := ds.foldl (fun acc c => acc * 10 + (c.toNat - 48)) 0

/-- An optional leading sign: whether it is `-`, and the rest. -/
def readSign : List Char → Bool × List Char
  | '+' :: r => (false, r)
  | '-' :: r => (true, r)
  | s => (false, s)

/-- The special values accepted by `ParseFloat`: an optionally signed `inf` or `infinity`, and
`nan`, in any letter case. -/
def parseSpecial (s : List Char) : Option F64 :=
  let isInf := fun (r : List Char) =>
    r.map lowerChar == "inf".toList || r.map lowerChar == "infinity".toList
  match s with
  | '+' :: r => if isInf r then some (F64.inf false) else none
  | '-' :: r => if isInf r then some (F64.inf true) else none
  | r => if isInf r then some (F64.inf false)
         else if r.map lowerChar == "nan".toList then some F64.nan else none

/-- Whether `c` is one of `a` .. `f` or `A` .. `F`. -/
def isHexLetter (c : Char) : Bool :=
  decide (97 ≤ (lowerChar c).toNat ∧ (lowerChar c).toNat ≤ 102)

/-- The variables of the digit loop of `readFloat`; `mantissa` holds all the digits counted by
`nd` (the source keeps the first 19, or 16 hexadecimal ones, and a flag telling whether a
dropped digit was not zero, from which it rounds to the same value). -/
structure FloatDigits where
  sawdot : Bool
  sawdigits : Bool
  nd : Nat
  dp : Int
  mantissa : Nat
  underscores : Bool
deriving DecidableEq, Repr

/-- The digit loop of `readFloat` in base `base` (10 or 16): the variables when the loop ends,
and the input not yet read. -/
def readDigits (base : Nat) : List Char → FloatDigits → FloatDigits × List Char
  | [], st => (st, [])
  | c :: cs, st =>
    if c = '_' then readDigits base cs { st with underscores := true }
    else if c = '.' then
      if st.sawdot then (st, c :: cs)
      else readDigits base cs { st with sawdot := true, dp := st.nd }
    else if isDigitChar c then
      if c = '0' ∧ st.nd = 0 then
        readDigits base cs { st with sawdigits := true, dp := st.dp - 1 }
      else
        readDigits base cs
          { st with sawdigits := true, nd := st.nd + 1,
                    mantissa := st.mantissa * base + (c.toNat - 48) }
    else if base = 16 ∧ isHexLetter c = true then
      readDigits base cs
        { st with sawdigits := true, nd := st.nd + 1,
                  mantissa := st.mantissa * 16 + ((lowerChar c).toNat - 97 + 10) }
    else (st, c :: cs)

/-- The loop over the digits of the exponent in `readFloat`: the exponent read so far (it stops
growing once it has reached 10000), whether an underscore was seen, and the input not yet
read. -/
def readExponentDigits : List Char → Nat → Bool → Nat × Bool × List Char
  | [], e, underscores => (e, underscores, [])
  | c :: cs, e, underscores =>
    if c = '_' then readExponentDigits cs e true
    else if isDigitChar c then
      readExponentDigits cs (if e < 10000 then e * 10 + (c.toNat - 48) else e) underscores
    else (e, underscores, c :: cs)

/-- The loop of `underscoreOK` over the number proper; `saw` is the last character seen:
`0` for a digit or base prefix, `_` for an underscore, `!` for anything else, `^` at the
beginning. -/
def underscoreLoop (hex : Bool) : List Char → Char → Bool
  | [], saw => saw != '_'
  | c :: cs, saw =>
    if isDigitChar c || (hex && isHexLetter c) then underscoreLoop hex cs '0'
    else if c = '_' then
      if saw != '0' then false else underscoreLoop hex cs '_'
    else if saw = '_' then false
    else underscoreLoop hex cs '!'

/-- Go `underscoreOK`: whether every underscore of `s` stands between two digits, or between a
base prefix and a digit. -/
def underscoreOK (s : List Char) : Bool :=
  let s := match s with
    | '-' :: r => r
    | '+' :: r => r
    | r => r
  match s with
  | '0' :: p :: r =>
    if lowerChar p = 'b' ∨ lowerChar p = 'o' ∨ lowerChar p = 'x' then
      underscoreLoop (lowerChar p = 'x') r '0'
    else underscoreLoop false s '^'
  | _ => underscoreLoop false s '^'

/-- Go `readFloat` on input that it reads to the end: the sign, whether the number is
hexadecimal, the digits as a number, and the exponent of the base (10, or 2 for a hexadecimal
number) by which that number is scaled. `none` when `readFloat` reports a malformed number or
stops before the end of the input; `ParseFloat` returns a syntax error in both cases. -/
def readFloat (s : List Char) : Option (Bool × Bool × Nat × Int) :=
  if s.isEmpty then none else
  let sign := readSign s
  let hex : Bool := match sign.2 with
    | '0' :: x :: _ :: _ => lowerChar x = 'x'
    | _ => false
  let base : Nat := if hex then 16 else 10
  let digits := readDigits base (if hex then sign.2.drop 2 else sign.2)
    { sawdot := false, sawdigits := false, nd := 0, dp := 0, mantissa := 0,
      underscores := false }
  let st := digits.1
  if !st.sawdigits then none else
  let dp : Int := if st.sawdot then st.dp else st.nd
  let dp : Int := if hex then dp * 4 else dp
  let ndMant : Int := if hex then (st.nd : Int) * 4 else st.nd
  let finish := fun (dp : Int) (underscores : Bool) =>
    if underscores && !underscoreOK s then none
    else some (sign.1, hex, st.mantissa, if st.mantissa ≠ 0 then dp - ndMant else 0)
  match digits.2 with
  | [] => if hex then none else finish dp st.underscores
  | c :: cs =>
    if lowerChar c = (if hex then 'p' else 'e') then
      let esign := readSign cs
      match esign.2 with
      | [] => none
      | d :: _ =>
        if !isDigitChar d then none
        else
          let ex := readExponentDigits esign.2 0 st.underscores
          match ex.2.2 with
          | [] =>
            finish (dp + (if esign.1 then -(ex.1 : Int) else (ex.1 : Int))) ex.2.1
          | _ :: _ => none
    else none

/-- Go `strconv.ParseFloat(s, 64)`: the special values, and the decimal and hexadecimal
floating-point numbers of the Go syntax as `readFloat` reads them, underscores included. A
well-formed number yields the nearest binary64 (ties to even), a number that rounds beyond the
largest finite value yields a range error, anything else a syntax error. The conversion of the
source (exact arithmetic, Eisel-Lemire, and the multi-precision fallback) is taken by its
contract, correct rounding. -/
def ParseFloat (s : String) : Except NumError F64 :=
  match parseSpecial s.toList with
  | some v => .ok v
  | none =>
    match readFloat s.toList with
    | none => .error .errSyntax
    | some (neg, hex, mantissa, exp) =>
      let base : Nat := if hex then 2 else 10
      let v := match exp with
        | Int.ofNat k => F64.ofRat neg (mantissa * base ^ k) 1
        | Int.negSucc k => F64.ofRat neg mantissa (base ^ (k + 1))
      match v with
      | F64.inf _ => .error .errRange
      | w => .ok w

/-! ## Data model -/

/-- A Go `map[string]string`: `none` is the nil map, `some l` a map holding the pairs of `l`
(keys distinct). -/
abbrev StrMap := Option (List (String × String))

/-- Indexing `m[key]`: the empty string when the key is absent (also for the nil map). -/
def StrMap.get (m : StrMap) (key : String) : String :=
  ((m.getD []).lookup key).getD ""

/-- The number of entries `len(m)`. -/
def StrMap.len (m : StrMap) : Nat := (m.getD []).length

/-- An instant, counted from the zero time of Go `time.Time`. -/
abbrev Time := Nat

/-- The method `IsZero` of a `*metav1.Time`: true for the nil pointer and for the zero time. -/
def Time.IsZero : Option Time → Bool
  | none => true
  | some t => t == 0

/-- Modelled from the spec: the declaration of `trafficweight.StoreConfig` is not among the
sources; the spec gives it two `int` weights and a health-check identifier, which the code
reads as `AWSHealthCheckID`. -/
structure StoreConfig where
  DesiredWeight : Int
  CurrentWeight : Int
  AWSHealthCheckID : String
deriving DecidableEq, Repr

structure OwnerReference where
  APIVersion : String
  Kind : String
  Name : String
  UID : String
  Controller : Option Bool
deriving DecidableEq, Repr

structure ObjectMeta where
  Name : String
  Namespace : String
  UID : String
  Annotations : StrMap
  DeletionTimestamp : Option Time
  OwnerReferences : List OwnerReference
deriving DecidableEq, Repr

structure NamespacedName where
  Namespace : String
  Name : String
deriving DecidableEq, Repr

structure IngressServiceBackend where
  Name : String
deriving DecidableEq, Repr

/-- The backend of a path: `Service` is a pointer, nil for a resource backend. -/
structure IngressBackend where
  Service : Option IngressServiceBackend
deriving DecidableEq, Repr

structure HTTPIngressPath where
  Path : String
  Backend : IngressBackend
deriving DecidableEq, Repr

structure HTTPIngressRuleValue where
  Paths : List HTTPIngressPath
deriving DecidableEq, Repr

/-- One rule of an Ingress; `HTTP` is a pointer and may be nil. -/
structure IngressRule where
  Host : String
  HTTP : Option HTTPIngressRuleValue
deriving DecidableEq, Repr

structure IngressSpec where
  Rules : List IngressRule
deriving DecidableEq, Repr

structure IngressLoadBalancerIngress where
  Hostname : String
deriving DecidableEq, Repr

structure IngressLoadBalancerStatus where
  Ingress : List IngressLoadBalancerIngress
deriving DecidableEq, Repr

structure IngressStatus where
  LoadBalancer : IngressLoadBalancerStatus
deriving DecidableEq, Repr

structure Ingress where
  APIVersion : String
  Kind : String
  ObjectMeta : ObjectMeta
  Spec : IngressSpec
  Status : IngressStatus
deriving DecidableEq, Repr

structure EndpointAddress where
  IP : String
deriving DecidableEq, Repr

structure EndpointSubset where
  Addresses : List EndpointAddress
deriving DecidableEq, Repr

/-- A `v1.Endpoints` object: the addresses behind one service. -/
structure Endpoints where
  ObjectMeta : ObjectMeta
  Subsets : List EndpointSubset
deriving DecidableEq, Repr

structure ProviderSpecificProperty where
  Name : String
  Value : String
deriving DecidableEq, Repr

/-- One record of a `DNSEndpoint`. -/
structure Endpoint where
  DNSName : String
  Targets : List String
  RecordType : String
  SetIdentifier : String
  ProviderSpecific : List ProviderSpecificProperty
deriving DecidableEq, Repr

structure DNSEndpointSpec where
  Endpoints : List Endpoint
deriving DecidableEq, Repr

structure DNSEndpoint where
  ObjectMeta : ObjectMeta
  Spec : DNSEndpointSpec
deriving DecidableEq, Repr

/-- The error of an API read: not-found, or anything else. -/
inductive ApiError where
  | notFound
  | other (msg : String)
deriving DecidableEq, Repr

/-- Go `apierrors.IsNotFound`. -/
def ApiError.IsNotFound : ApiError → Bool
  | .notFound => true
  | .other _ => false

/-- The part of `client.Client` read by the health check: `Get` of a `v1.Endpoints`. -/
structure Client where
  getEndpoints : NamespacedName → Except ApiError Endpoints

structure annotationFilter where
  key : String
  value : String
deriving DecidableEq, Repr

structure IngressReconciler where
  Client : Client
  ClusterName : String
  BindingDomain : String
  AWSRegion : String
  AnnotationFilter : annotationFilter
  DevMode : Bool
  AnnotationPrefix : String

/-- What the Go language leaves to the implementation, as it turns out in what remains of
one run. -/
structure GoRuntime where
  /-- The result of `uint(x)` for a float whose integer part is not a `uint`. -/
  uintOfFloat : F64 → Nat
  /-- The order in which the `range` over the map of services visits its keys in the `n`-th of
  the calls of `ingressRuleHasPods` that are still to come (`0` for the next one); a call has at
  most one such `range`. Go chooses the order afresh at every `range`, also over the same
  map. -/
  rangeOrder : Nat → List String → List String

/-- The runtime as it is once the next call of `ingressRuleHasPods` has been made. -/
def GoRuntime.next (rt : GoRuntime) : GoRuntime :=
  { rt with rangeOrder := fun n => rt.rangeOrder (n + 1) }

/-- The runtime as it is once `k` calls of `ingressRuleHasPods` have been made. -/
def GoRuntime.after (rt : GoRuntime) : Nat → GoRuntime
  | 0 => rt
  | k + 1 => rt.next.after k

/-- Every `range` visits every key of its map exactly once. -/
def GoRuntime.WellFormed (rt : GoRuntime) : Prop :=
  ∀ (n : Nat) (keys : List String), keys.Nodup → (rt.rangeOrder n keys).Perm keys

/-! ## `pkg/controllers/ingress_controller.go` -/

def IngressReconciler.annotationKey (r : IngressReconciler) (key : String) : String :=
  r.AnnotationPrefix ++ "/" ++ key

def IngressReconciler.ingressHasAnnotationKeyValue (_r : IngressReconciler) (ingress : Ingress)
    (key value : String) : Bool :=
  (ingress.ObjectMeta.Annotations.getD []).any (fun kv => kv.1 == key && kv.2 == value)

def IngressReconciler.ingressHasAnnotationKey (_r : IngressReconciler) (ingress : Ingress)
    (key : String) : Bool :=
  (ingress.ObjectMeta.Annotations.getD []).any (fun kv => kv.1 == key)

def IngressReconciler.filterIngressRulesByHost (r : IngressReconciler)
    (rules : List IngressRule) : List IngressRule :=
  rules.filter (fun rule => r.BindingDomain.toList.isSuffixOf rule.Host.toList)

def IngressReconciler.isIngressWeighted (r : IngressReconciler) (ingress : Ingress) : Bool :=
  r.ingressHasAnnotationKey ingress (r.annotationKey "traffic-weight")

/-- The errors built by `calculateIngressWeight`. -/
inductive WeightError where
  | negativeBackendWeight
  | cannotParse (key value : String)
  | negativeTrafficWeight
deriving DecidableEq, Repr

/-- The pair `(uint, error)` returned by `calculateIngressWeight`. -/
def IngressReconciler.calculateIngressWeight (r : IngressReconciler) (rt : GoRuntime)
    (Store : StoreConfig) (ingress : Ingress) : Nat × Option WeightError :=
  let backendPercentage := F64.ofInt Store.DesiredWeight
  if F64.lt backendPercentage (F64.ofInt 0) then (0, some .negativeBackendWeight) else
  let backendPercentage :=
    if F64.lt (F64.ofInt 100) backendPercentage then F64.ofInt 100 else backendPercentage
  let backendPercentage := F64.div backendPercentage (F64.ofInt 100)
  match ParseFloat (ingress.ObjectMeta.Annotations.get (r.annotationKey "traffic-weight")) with
  | .error _ =>
    (0, some (.cannotParse (r.annotationKey "traffic-weight")
      (ingress.ObjectMeta.Annotations.get (r.annotationKey "traffic-weight"))))
  | .ok userDesiredWeight =>
    if F64.lt userDesiredWeight (F64.ofInt 0) then (0, some .negativeTrafficWeight) else
    let userDesiredWeight :=
      if F64.lt (F64.ofInt 100) userDesiredWeight then F64.ofInt 100 else userDesiredWeight
    let calculatedWeight := F64.mul backendPercentage userDesiredWeight
    let desiredWeight := F64.toUint rt.uintOfFloat (F64.ceil calculatedWeight)
    (desiredWeight, none)

def IngressReconciler.endpointsHasPods (_r : IngressReconciler) (endpoints : Endpoints) : Bool :=
  if endpoints.Subsets.length = 0 then false
  else endpoints.Subsets.all (fun subset => !(subset.Addresses.length == 0))

/-- The keys of the map `servicesName` once the first loop of `ingressRuleHasPods` has run over
the paths, starting from the keys `keys`; `none` when a path has no service backend, where
`path.Backend.Service.Name` dereferences a nil pointer. -/
def servicesName : List HTTPIngressPath → List String → Option (List String)
  | [], keys => some keys
  | path :: rest, keys =>
    match path.Backend.Service with
    | none => none
    | some svc => servicesName rest (if svc.Name ∈ keys then keys else keys ++ [svc.Name])

/-- The second loop of `ingressRuleHasPods`, over the services in the order given. -/
def IngressReconciler.servicesHavePods (r : IngressReconciler) (ns : String) :
    List String → Bool
  | [] => true
  | name :: rest =>
    match r.Client.getEndpoints ⟨ns, name⟩ with
    | .error err => if err.IsNotFound then false else true
    | .ok endpoints =>
      if !Time.IsZero endpoints.ObjectMeta.DeletionTimestamp then false
      else if !r.endpointsHasPods endpoints then false
      else r.servicesHavePods ns rest

/-- The result of `ingressRuleHasPods`, `none` when it stops with a runtime failure; its
`range` over the map `servicesName` visits the keys in the order `rt.rangeOrder 0`. -/
def IngressReconciler.ingressRuleHasPods (r : IngressReconciler) (rt : GoRuntime)
    (ns : String) (rule : IngressRule) : Option Bool :=
  match rule.HTTP with
  | none => some false
  | some http =>
    match servicesName http.Paths [] with
    | none => none
    | some keys => some (r.servicesHavePods ns (rt.rangeOrder 0 keys))

/-- The conversion `uint(i)` of a Go `int`. -/
def uintOfInt (i : Int) : Nat := (i % 2 ^ 64).toNat

/-- Go `strconv.FormatUint(n, 10)`. -/
def FormatUint (n : Nat) : String := Nat.repr n

/-- The record appended by one iteration of the loop of `newDnsEndpoint`. -/
def IngressReconciler.ruleEndpoint (r : IngressReconciler) (target : String)
    (healthCheckProperty : Option ProviderSpecificProperty) (rule : IngressRule)
    (desiredWeight : Nat) : Endpoint :=
  { DNSName := rule.Host
    Targets := [target]
    RecordType := "CNAME"
    SetIdentifier := r.ClusterName
    ProviderSpecific :=
      match healthCheckProperty with
      | none => [⟨"aws/weight", FormatUint desiredWeight⟩]
      | some p => [⟨"aws/weight", FormatUint desiredWeight⟩, p] }

/-- The loop of `newDnsEndpoint` over the bound rules: `desiredWeight` is the variable declared
before the loop, `acc` the records appended so far. Every call of `ingressRuleHasPods` has an
order of its own for its `range`: the call for the next rule is made with the runtime moved
on by one. -/
def IngressReconciler.endpointsLoop (r : IngressReconciler)
    (ns target : String) (healthCheckProperty : Option ProviderSpecificProperty) :
    GoRuntime → List IngressRule → Nat → List Endpoint → Option (List Endpoint)
  | _, [], _, acc => some acc
  | rt, rule :: rest, desiredWeight, acc =>
    match r.ingressRuleHasPods rt ns rule with
    | none => none
    | some hasPods =>
      let desiredWeight := if !hasPods then 0 else desiredWeight
      r.endpointsLoop ns target healthCheckProperty rt.next rest desiredWeight
        (acc ++ [r.ruleEndpoint target healthCheckProperty rule desiredWeight])

/-- The object `newDnsEndpoint` leaves in `dnsEndpoint`. -/
def IngressReconciler.newDnsEndpoint (r : IngressReconciler) (rt : GoRuntime)
    (Store : StoreConfig) (dnsEndpoint : DNSEndpoint) (target : String) (ingress : Ingress)
    (owner : OwnerReference) : Option DNSEndpoint :=
  let dnsEndpoint : DNSEndpoint :=
    { dnsEndpoint with
      ObjectMeta :=
        { dnsEndpoint.ObjectMeta with
          Name := ingress.ObjectMeta.Name
          Namespace := ingress.ObjectMeta.Namespace
          OwnerReferences := [owner] } }
  let healthCheckProperty : Option ProviderSpecificProperty :=
    if Store.AWSHealthCheckID ≠ "" then some ⟨"aws/health-check-id", Store.AWSHealthCheckID⟩
    else none
  let build := fun (dnsEndpoint : DNSEndpoint) (desiredWeight : Nat) =>
    (r.endpointsLoop ingress.ObjectMeta.Namespace target healthCheckProperty rt
      (r.filterIngressRulesByHost ingress.Spec.Rules) desiredWeight []).map
      (fun eps => { dnsEndpoint with Spec := { Endpoints := eps } })
  if r.isIngressWeighted ingress then
    match r.calculateIngressWeight rt Store ingress with
    | (_, some _) => some dnsEndpoint
    | (desiredWeight, none) =>
      if dnsEndpoint.ObjectMeta.Annotations.len = 0 then
        build { dnsEndpoint with
                ObjectMeta := { dnsEndpoint.ObjectMeta with Annotations := some [] } }
          desiredWeight
      else build dnsEndpoint desiredWeight
  else build dnsEndpoint (uintOfInt Store.DesiredWeight)

/-- The value of the `aws/weight` property of a record. -/
def Endpoint.awsWeight (e : Endpoint) : Option String :=
  (e.ProviderSpecific.find? (fun p => p.Name == "aws/weight")).map (fun p => p.Value)

/-! ## `pkg/trafficweight/trafficweight.go` -/

/-- A Go `error` value, by its message. -/
abbrev Error := String

/-- The interface `TrafficWeightBackend`, implemented over a backend state `σ`. `ReadWeight`
returns the pair `(int, error)` and `OnWeightUpdate` the error (`none` is nil); both may read
the package variable `Store` and change the state of the backend. -/
structure TrafficWeightBackend (σ : Type) where
  ReadWeight : σ → StoreConfig → (Int × Option Error) × σ
  OnWeightUpdate : σ → StoreConfig → Option Error × σ

/-- The type `FakeBackend`: it has no state. -/
def FakeBackend : TrafficWeightBackend Unit :=
  { ReadWeight := fun st Store => ((Store.DesiredWeight, none), st)
    OnWeightUpdate := fun st _ => (none, st) }

/-- The state of the `testBackend` of `trafficweight_test.go`. -/
structure TestBackendState where
  weight : Int
  updated : Int
  err : Option Error
deriving DecidableEq, Repr

/-- The `testBackend` of `trafficweight_test.go`. -/
def testBackend : TrafficWeightBackend TestBackendState :=
  { ReadWeight := fun st _ => ((st.weight, none), st)
    OnWeightUpdate := fun st _ => (st.err, { st with updated := st.updated + 1 }) }

/-- The cache at the time of a call: what `List` yields for an `IngressList`. -/
structure Cache where
  List : Except Error (List Ingress)

/-- An `event.GenericEvent`; `Object` is the object it points to. -/
structure GenericEvent where
  Object : Ingress
deriving DecidableEq, Repr

/-- The loop of `enqueueReconcileEvents`: for each item, in order, an event pointing to a fresh
`Ingress` that holds a copy of the item's `ObjectMeta` is sent on the channel. `events` lists
what has been sent on the channel, oldest first; every send is taken to complete. -/
def sendEvents : List Ingress → List GenericEvent → List GenericEvent
  | [], events => events
  | item :: rest, events =>
    let genEvent : GenericEvent :=
      { Object :=
          { APIVersion := "", Kind := "", ObjectMeta := item.ObjectMeta, Spec := ⟨[]⟩,
            Status := ⟨⟨[]⟩⟩ } }
    sendEvents rest (events ++ [genEvent])

/-- The returned error, and the events sent on the channel after the call. -/
def enqueueReconcileEvents (events : List GenericEvent) (c : Cache) :
    Option Error × List GenericEvent :=
  match c.List with
  | .error err => (some err, events)
  | .ok ingresses => (none, sendEvents ingresses events)

/-- What `doReconcile` reads and writes: the package variable `Store`, the state of the
backend, the events sent on the channel so far, and the arguments of the calls of
`OnWeightUpdate` so far. -/
structure LoopState (σ : Type) where
  Store : StoreConfig
  backend : σ
  events : List GenericEvent
  updates : List StoreConfig

/-- The returned error and the state after one call of `doReconcile`. -/
def doReconcile {σ : Type} (backend : TrafficWeightBackend σ) (c : Cache) (s : LoopState σ) :
    Option Error × LoopState σ :=
  match backend.ReadWeight s.backend s.Store with
  | ((_, some err), st) => (some err, { s with backend := st })
  | ((desiredWeight, none), st) =>
    if s.Store.CurrentWeight ≠ desiredWeight then
      let Store : StoreConfig := { s.Store with DesiredWeight := desiredWeight }
      match enqueueReconcileEvents s.events c with
      | (some err, events) =>
        (some err, { s with Store := Store, backend := st, events := events })
      | (none, events) =>
        let Store : StoreConfig := { Store with CurrentWeight := desiredWeight }
        match backend.OnWeightUpdate st Store with
        | (err, st) =>
          (err, { Store := Store, backend := st, events := events,
                  updates := s.updates ++ [Store] })
    else (none, { s with backend := st })

/-! ## The API server -/

/-- The key `(namespace, name)` of an object. -/
def ObjectMeta.key (m : ObjectMeta) : NamespacedName := ⟨m.Namespace, m.Name⟩

/-- The kinds of call made on the API server for `Ingress` and `DNSEndpoint` objects. -/
inductive ApiCall where
  | getIngress
  | listIngresses
  | getDNSEndpoint
  | createDNSEndpoint
  | updateDNSEndpoint
  | deleteDNSEndpoint
deriving DecidableEq, Repr

/-- The `Ingress` and `DNSEndpoint` objects held by the API server (the `v1.Endpoints` objects
are read through `Client.getEndpoints`). `fault` gives, per kind of call, the message of a
failure that does not come from the objects (the call then fails and changes nothing);
`writes` lists the create, update and delete calls the server has carried out, oldest first.
An object is removed as soon as it is deleted: finalizers are not modelled. -/
structure Cluster where
  ingresses : List Ingress
  dnsEndpoints : List DNSEndpoint
  fault : ApiCall → Option String
  writes : List (ApiCall × NamespacedName)

/-- The call `Get` for an `Ingress`. -/
def Cluster.getIngress (c : Cluster) (key : NamespacedName) : Except ApiError Ingress :=
  match c.fault .getIngress with
  | some msg => .error (.other msg)
  | none =>
    match c.ingresses.find? (fun ing => ing.ObjectMeta.key = key) with
    | some ing => .ok ing
    | none => .error .notFound

/-- The call `List` for `Ingress` objects with the option `Namespace: ns`: the objects of that
namespace, and those of every namespace when `ns` is empty. -/
def Cluster.listIngresses (c : Cluster) (ns : String) : Except ApiError (List Ingress) :=
  match c.fault .listIngresses with
  | some msg => .error (.other msg)
  | none =>
    .ok (if ns = "" then c.ingresses
      else c.ingresses.filter (fun ing => ing.ObjectMeta.Namespace = ns))

/-- The call `Get` for a `DNSEndpoint`. -/
def Cluster.getDNSEndpoint (c : Cluster) (key : NamespacedName) : Except ApiError DNSEndpoint :=
  match c.fault .getDNSEndpoint with
  | some msg => .error (.other msg)
  | none =>
    match c.dnsEndpoints.find? (fun ep => ep.ObjectMeta.key = key) with
    | some ep => .ok ep
    | none => .error .notFound

/-- The call `Delete` for the `DNSEndpoint` with the given key: the error, and the server
afterwards. -/
def Cluster.deleteDNSEndpoint (c : Cluster) (key : NamespacedName) : Option ApiError × Cluster :=
  match c.fault .deleteDNSEndpoint with
  | some msg => (some (.other msg), c)
  | none =>
    if c.dnsEndpoints.any (fun ep => ep.ObjectMeta.key = key) then
      (none, { c with
        dnsEndpoints := c.dnsEndpoints.filter (fun ep => !decide (ep.ObjectMeta.key = key))
        writes := c.writes ++ [(.deleteDNSEndpoint, key)] })
    else (some .notFound, c)

/-- The call `Create` for a `DNSEndpoint`. -/
def Cluster.createDNSEndpoint (c : Cluster) (obj : DNSEndpoint) : Option ApiError × Cluster :=
  match c.fault .createDNSEndpoint with
  | some msg => (some (.other msg), c)
  | none =>
    if c.dnsEndpoints.any (fun ep => ep.ObjectMeta.key = obj.ObjectMeta.key) then
      (some (.other "already exists"), c)
    else
      (none, { c with
        dnsEndpoints := c.dnsEndpoints ++ [obj]
        writes := c.writes ++ [(.createDNSEndpoint, obj.ObjectMeta.key)] })

/-- The call `Update` for a `DNSEndpoint`: the stored object with the same key is replaced. -/
def Cluster.updateDNSEndpoint (c : Cluster) (obj : DNSEndpoint) : Option ApiError × Cluster :=
  match c.fault .updateDNSEndpoint with
  | some msg => (some (.other msg), c)
  | none =>
    if c.dnsEndpoints.any (fun ep => ep.ObjectMeta.key = obj.ObjectMeta.key) then
      (none, { c with
        dnsEndpoints := c.dnsEndpoints.map
          (fun ep => if ep.ObjectMeta.key = obj.ObjectMeta.key then obj else ep)
        writes := c.writes ++ [(.updateDNSEndpoint, obj.ObjectMeta.key)] })
    else (some .notFound, c)

/-- Go `client.IgnoreNotFound`. -/
def IgnoreNotFound : Option ApiError → Option ApiError
  | some err => if err.IsNotFound then none else some err
  | none => none

/-- An object as `equality.Semantic.DeepEqual` sees it: an empty map is the nil map. -/
def DNSEndpoint.semantic (ep : DNSEndpoint) : DNSEndpoint :=
  { ep with
    ObjectMeta :=
      { ep.ObjectMeta with
        Annotations := if ep.ObjectMeta.Annotations.len = 0 then none
                       else ep.ObjectMeta.Annotations } }

/-- Go `controllerutil.CreateOrUpdate` for a `DNSEndpoint`, by its source: the object is read;
when it is not found it is mutated and created, otherwise the stored object is mutated and
updated unless the mutation left it semantically equal. `f` is the mutate function applied to
the object (`none` when it stops with a runtime failure); a mutation that changes the key is an
error. The result is the error and the server afterwards. -/
def CreateOrUpdate (c : Cluster) (obj : DNSEndpoint) (f : DNSEndpoint → Option DNSEndpoint) :
    Option (Option ApiError × Cluster) :=
  match c.getDNSEndpoint obj.ObjectMeta.key with
  | .error err =>
    if !err.IsNotFound then some (some err, c)
    else
      match f obj with
      | none => none
      | some mutated =>
        if mutated.ObjectMeta.key ≠ obj.ObjectMeta.key then
          some (some (.other "MutateFn cannot mutate object name and/or object namespace"), c)
        else some (c.createDNSEndpoint mutated)
  | .ok existing =>
    match f existing with
    | none => none
    | some mutated =>
      if mutated.ObjectMeta.key ≠ obj.ObjectMeta.key then
        some (some (.other "MutateFn cannot mutate object name and/or object namespace"), c)
      else if existing.semantic = mutated.semantic then some (none, c)
      else some (c.updateDNSEndpoint mutated)

/-! ## `pkg/controllers/ingress_controller.go`: reconciliation -/

def IngressReconciler.ingressAnnotationMatchFilter (r : IngressReconciler) (ingress : Ingress) :
    Bool :=
  if (⟨"", ""⟩ : annotationFilter) = r.AnnotationFilter then true
  else r.ingressHasAnnotationKeyValue ingress r.AnnotationFilter.key r.AnnotationFilter.value

/-- The pair `(string, error)` returned by `getTargetFromIngress`. -/
def IngressReconciler.getTargetFromIngress (r : IngressReconciler) (ingress : Ingress) :
    String × Option Error :=
  if r.DevMode then ("devmode", none)
  else
    match ingress.Status.LoadBalancer.Ingress with
    | [] => ("", some "Ingress has no status")
    | first :: _ => (first.Hostname, none)

/-- The error returned by `reconcileDNSEntries` and the server afterwards; `none` when the
mutate function stops with a runtime failure. -/
def IngressReconciler.reconcileDNSEntries (r : IngressReconciler) (rt : GoRuntime)
    (Store : StoreConfig) (c : Cluster) (ingress : Ingress) (ownerRef : OwnerReference) :
    Option (Option ApiError × Cluster) :=
  if !r.ingressAnnotationMatchFilter ingress then some (none, c)
  else
    match r.getTargetFromIngress ingress with
    | (_, some _) => some (none, c)
    | (target, none) =>
      let dnsEndpoint : DNSEndpoint :=
        { ObjectMeta :=
            { Name := ingress.ObjectMeta.Name, Namespace := ingress.ObjectMeta.Namespace,
              UID := "", Annotations := none, DeletionTimestamp := none,
              OwnerReferences := [] }
          Spec := ⟨[]⟩ }
      CreateOrUpdate c dnsEndpoint
        (fun dnsEndpoint => r.newDnsEndpoint rt Store dnsEndpoint target ingress ownerRef)

def IngressReconciler.endpointBeingDeleted (_r : IngressReconciler) (c : Cluster)
    (obj : NamespacedName) : Bool :=
  match c.getDNSEndpoint obj with
  | .error _ => false
  | .ok endpoint => !Time.IsZero endpoint.ObjectMeta.DeletionTimestamp

/-- A `ctrl.Result`; `RequeueAfter` is a duration in nanoseconds. -/
structure Result where
  Requeue : Bool
  RequeueAfter : Nat
deriving DecidableEq, Repr

/-- Go `time.Second`, in nanoseconds. -/
def Second : Nat := 1000000000

/-- The pair `(ctrl.Result, error)` returned by `Reconcile` and the server afterwards; `none`
when the run stops with a runtime failure. -/
def IngressReconciler.Reconcile (r : IngressReconciler) (rt : GoRuntime) (Store : StoreConfig)
    (c : Cluster) (req : NamespacedName) : Option ((Result × Option ApiError) × Cluster) :=
  match c.getIngress req with
  | .error err =>
    if err.IsNotFound then
      match c.deleteDNSEndpoint ⟨req.Namespace, req.Name⟩ with
      | (err, c) => some ((⟨false, 0⟩, IgnoreNotFound err), c)
    else some ((⟨false, 0⟩, IgnoreNotFound (some err)), c)
  | .ok ingress =>
    let ownerRef : OwnerReference :=
      { APIVersion := ingress.APIVersion, Kind := ingress.Kind, Name := ingress.ObjectMeta.Name,
        UID := ingress.ObjectMeta.UID, Controller := some true }
    if Time.IsZero ingress.ObjectMeta.DeletionTimestamp then
      if r.endpointBeingDeleted c ⟨ingress.ObjectMeta.Namespace, ingress.ObjectMeta.Name⟩ then
        some ((⟨true, 5 * Second⟩, none), c)
      else
        match r.reconcileDNSEntries rt Store c ingress ownerRef with
        | none => none
        | some (some err, c) => some ((⟨false, 0⟩, some err), c)
        | some (none, c) => some ((⟨false, 0⟩, none), c)
    else some ((⟨false, 0⟩, none), c)

/-! ## `pkg/trafficweight/dynamobackend.go` -/

/-- A `dynamodb.AttributeValue`, with its string member `S` and its number member `N`; the
backend sets no other member. -/
structure AttributeValue where
  S : Option String
  N : Option String
deriving DecidableEq, Repr

/-- A `map[string]*dynamodb.AttributeValue`, as the list of its entries. -/
abbrev AttributeMap := List (String × AttributeValue)

structure GetItemInput where
  TableName : String
  Key : AttributeMap
deriving DecidableEq, Repr

structure GetItemOutput where
  Item : AttributeMap
deriving DecidableEq, Repr

/-- A `dynamodb.Update`; the backend leaves `ConditionExpression`, `ExpressionAttributeNames`
and `ReturnValuesOnConditionCheckFailure` nil. -/
structure Update where
  TableName : String
  ExpressionAttributeValues : AttributeMap
  Key : AttributeMap
  UpdateExpression : String
deriving DecidableEq, Repr

/-- A `dynamodb.TransactWriteItem`; the backend leaves `ConditionCheck`, `Delete` and `Put`
nil. -/
structure TransactWriteItem where
  Update : Option Update
deriving DecidableEq, Repr

structure TransactWriteItemsInput where
  TransactItems : List TransactWriteItem
deriving DecidableEq, Repr

/-- The errors of the DynamoDB client, by the cases of the type switch of `write`. -/
inductive AwsError where
  | TableAlreadyExistsException (msg : String)
  | TransactionCanceledException (msg : String)
  | other (msg : String)
deriving DecidableEq, Repr

/-- The two methods of `dynamodbiface.DynamoDBAPI` the backend calls, over the state `σ` of the
service. -/
structure DynamoDBAPI (σ : Type) where
  GetItem : σ → GetItemInput → Except AwsError GetItemOutput × σ
  TransactWriteItems : σ → TransactWriteItemsInput → Option AwsError × σ

structure dynamodbBackend (σ : Type) where
  clusterName : String
  awsRegion : String
  service : DynamoDBAPI σ
  tableName : String

structure Item where
  ClusterName : String
  DesiredWeight : Int
  CurrentWeight : Int
  HealthCheckID : String
deriving DecidableEq, Repr

/-- The `error` values `ReadItem` returns: the error of the client, a `*DynamoNoResultsError`
with its message, or the error of `dynamodbattribute.UnmarshalMap`. -/
inductive ReadError where
  | client (err : AwsError)
  | DynamoNoResultsError (msg : String)
  | unmarshal (err : Error)
deriving DecidableEq, Repr

/-- How a call ends: it returns `a`, or `log.Fatalf` ends the process; `st` is the state of the
service at that point. -/
inductive Outcome (α σ : Type) where
  | returned (a : α) (st : σ)
  | exited (st : σ)

/-- The state of the service when the call has ended. -/
def Outcome.state {α σ : Type} : Outcome α σ → σ
  | .returned _ st => st
  | .exited st => st

/-- The verb `%d` of `fmt.Sprintf` on an `int`. -/
def FormatInt (i : Int) : String :=
  if i < 0 then "-" ++ Nat.repr i.natAbs else Nat.repr i.natAbs

/-- The pair `(*Item, error)` and the state of the service after the call; `UnmarshalMap` is
the decoder `dynamodbattribute.UnmarshalMap` into an `Item`. -/
def dynamodbBackend.ReadItem {σ : Type} (b : dynamodbBackend σ)
    (UnmarshalMap : AttributeMap → Except Error Item) (s : σ) : Except ReadError Item × σ :=
  match b.service.GetItem s
      { TableName := b.tableName, Key := [("ClusterName", ⟨some b.clusterName, none⟩)] } with
  | (.error err, st) => (.error (.client err), st)
  | (.ok result, st) =>
    if result.Item.length = 0 then (.error (.DynamoNoResultsError "Item not found"), st)
    else
      match UnmarshalMap result.Item with
      | .error err => (.error (.unmarshal err), st)
      | .ok item => (.ok item, st)

def dynamodbBackend.ReadWeight {σ : Type} (b : dynamodbBackend σ)
    (UnmarshalMap : AttributeMap → Except Error Item) (s : σ) : (Int × Option ReadError) × σ :=
  match b.ReadItem UnmarshalMap s with
  | (.error err, st) => ((0, some err), st)
  | (.ok item, st) => ((item.DesiredWeight, none), st)

def dynamodbBackend.write {σ : Type} (b : dynamodbBackend σ) (update : Update) (s : σ) :
    Outcome (Option AwsError) σ :=
  let input : TransactWriteItemsInput := { TransactItems := [{ Update := some update }] }
  match b.service.TransactWriteItems s input with
  | (some err, st) =>
    match err with
    | .TableAlreadyExistsException _ => .returned (some err) st
    | .TransactionCanceledException _ => .returned (some err) st
    | .other _ => .exited st
  | (none, st) => .returned none st

def dynamodbBackend.OnWeightUpdate {σ : Type} (b : dynamodbBackend σ) (store : StoreConfig)
    (s : σ) : Outcome (Option AwsError) σ :=
  let currentWeight := FormatInt store.CurrentWeight
  b.write
    { TableName := b.tableName
      ExpressionAttributeValues := [(":c", ⟨none, some currentWeight⟩)]
      Key := [("ClusterName", ⟨some b.clusterName, none⟩)]
      UpdateExpression := "SET CurrentWeight = :c" } s

def dynamodbBackend.initializeClusterRow {σ : Type} (b : dynamodbBackend σ)
    (store : StoreConfig) (s : σ) : Outcome (Option AwsError) σ :=
  let desiredWeight := FormatInt store.DesiredWeight
  let currentWeight := FormatInt store.CurrentWeight
  b.write
    { TableName := b.tableName
      ExpressionAttributeValues :=
        [(":d", ⟨none, some desiredWeight⟩), (":c", ⟨none, some currentWeight⟩)]
      Key := [("ClusterName", ⟨some b.clusterName, none⟩)]
      UpdateExpression := "SET DesiredWeight = :d, CurrentWeight = :c" } s

/-- The body of `initializeRowIfNotExist`: `Store` is the package variable, which is what is
passed on to `initializeClusterRow`; the parameter `store` is not read. -/
def dynamodbBackend.initializeRowIfNotExist {σ : Type} (b : dynamodbBackend σ)
    (UnmarshalMap : AttributeMap → Except Error Item) (Store : StoreConfig)
    (_store : StoreConfig) (s : σ) : Outcome Unit σ :=
  match b.ReadWeight UnmarshalMap s with
  | ((_, some (.DynamoNoResultsError _)), st) =>
    match b.initializeClusterRow Store st with
    | .returned _ st2 => .returned () st2
    | .exited st2 => .exited st2
  | (_, st) => .returned () st

/-! ## `dynamodbattribute.UnmarshalMap` into an `Item` -/

/-- The digit loop of `strconv.ParseUint(s, 10, 64)`, `n` being the value read so far: a byte
that is no decimal digit is a syntax error, a value of `2^64` or more a range error. -/
def parseUintLoop : List Char → Nat → Except NumError Nat
  | [], n => .ok n
  | c :: cs, n =>
    if !isDigitChar c then .error .errSyntax
    else if 1844674407370955162 ≤ n then .error .errRange
    else if 2 ^ 64 ≤ n * 10 + (c.toNat - 48) then .error .errRange
    else parseUintLoop cs (n * 10 + (c.toNat - 48))

/-- The call `strconv.ParseUint(s, 10, 64)`. -/
def ParseUint (s : List Char) : Except NumError Nat :=
  if s.isEmpty then .error .errSyntax else parseUintLoop s 0

/-- The call `strconv.ParseInt(s, 10, 64)`: an optional sign and decimal digits; a value
outside `[-2^63, 2^63 - 1]` is a range error. -/
def ParseInt (s : String) : Except NumError Int :=
  if s.isEmpty then .error .errSyntax else
  let sign := readSign s.toList
  match ParseUint sign.2 with
  | .error err => .error err
  | .ok un =>
    if !sign.1 && decide (2 ^ 63 ≤ un) then .error .errRange
    else if sign.1 && decide (2 ^ 63 < un) then .error .errRange
    else .ok (if sign.1 then -(un : Int) else (un : Int))

/-- The fields of the struct `Item`. -/
inductive ItemField where
  | ClusterName
  | DesiredWeight
  | CurrentWeight
  | HealthCheckID
deriving DecidableEq, Repr

/-- The name of a field; `Item` has no struct tags. -/
def ItemField.Name : ItemField → String
  | .ClusterName => "ClusterName"
  | .DesiredWeight => "DesiredWeight"
  | .CurrentWeight => "CurrentWeight"
  | .HealthCheckID => "HealthCheckID"

/-- The fields of `Item` as the decoder enumerates them. No two of the names are equal up to
letter case, so the order has no influence on `fieldByName`. -/
def itemFields : List ItemField :=
  [.ClusterName, .DesiredWeight, .CurrentWeight, .HealthCheckID]

/-- The representative of a character under Unicode simple case folding, for the characters
that fold to an ASCII letter: the upper-case ASCII letters, the Kelvin sign `U+212A` (folds to
`k`) and the long s `U+017F` (folds to `s`). -/
def foldRune (c : Char) : Char :=
  if c.toNat = 0x212A then 'k' else if c.toNat = 0x17F then 's' else lowerChar c

/-- The comparison `strings.EqualFold(s, t)` for an ASCII string `s`. -/
def EqualFold (s t : String) : Bool := s.toList.map foldRune == t.toList.map foldRune

/-- The field an attribute name is decoded into: the field of that name, or else the first
field whose name equals it under `strings.EqualFold`. -/
def fieldByName (fields : List ItemField) (name : String) : Option ItemField :=
  match fields.find? (fun f => f.Name == name) with
  | some f => some f
  | none => fields.find? (fun f => EqualFold f.Name name)

/-- The errors of the decoder on an `Item`: the `*strconv.NumError` of `strconv.ParseInt` on
the number `num`, or the `*UnmarshalTypeError` for a value of the kind `value` that cannot be
stored into a field of the Go type `goType`. -/
inductive UnmarshalError where
  | numError (num : String) (err : NumError)
  | unmarshalTypeError (value : String) (goType : String)
deriving DecidableEq, Repr

/-- The method `Decoder.decode` on the field `f` of `item`: an attribute with the number member
`N` goes through `decodeNumber`, which stores the text into a string field and the result of
`strconv.ParseInt` into an `int` field; otherwise an attribute with the string member `S` goes
through `decodeString`, which stores it into a string field and rejects an `int` field; an
attribute with neither member leaves the field as it is. -/
def Decoder.decode (f : ItemField) (av : AttributeValue) (item : Item) :
    Except UnmarshalError Item :=
  match av.N with
  | some n =>
    match f with
    | .ClusterName => .ok { item with ClusterName := n }
    | .HealthCheckID => .ok { item with HealthCheckID := n }
    | .DesiredWeight =>
      match ParseInt n with
      | .error err => .error (.numError n err)
      | .ok i => .ok { item with DesiredWeight := i }
    | .CurrentWeight =>
      match ParseInt n with
      | .error err => .error (.numError n err)
      | .ok i => .ok { item with CurrentWeight := i }
  | none =>
    match av.S with
    | some s =>
      match f with
      | .ClusterName => .ok { item with ClusterName := s }
      | .HealthCheckID => .ok { item with HealthCheckID := s }
      | .DesiredWeight => .error (.unmarshalTypeError "string" "int")
      | .CurrentWeight => .error (.unmarshalTypeError "string" "int")
    | none => .ok item

/-- The loop of `Decoder.decodeMap` over the entries of the map, in the order in which the
range visits them, which is the order of the list: an entry whose name matches no field is
skipped, and the first entry that fails to decode ends the loop with its error. -/
def Decoder.decodeMap : AttributeMap → Item → Except UnmarshalError Item
  | [], item => .ok item
  | (k, av) :: rest, item =>
    match fieldByName itemFields k with
    | none => Decoder.decodeMap rest item
    | some f =>
      match Decoder.decode f av item with
      | .error err => .error err
      | .ok item => Decoder.decodeMap rest item

/-- The call `dynamodbattribute.UnmarshalMap(m, &item)` on `item := Item{}`; `errorText` gives
the `error` value of a failure. -/
def dynamodbattribute.UnmarshalMap (errorText : UnmarshalError → Error) (m : AttributeMap) :
    Except Error Item :=
  match Decoder.decodeMap m ⟨"", 0, 0, ""⟩ with
  | .error err => .error (errorText err)
  | .ok item => .ok item

/-! ## `pkg/controllers/endpoints_mapper.go` -/

/-- The loop over the paths of one rule of `ing`: `reqs` with a request for `ing` appended for
every path whose service backend is named `name`; `none` when a path has no service backend,
where `path.Backend.Service.Name` dereferences a nil pointer. -/
def pathRequests (ing : Ingress) (name : String) :
    List HTTPIngressPath → List NamespacedName → Option (List NamespacedName)
  | [], reqs => some reqs
  | path :: rest, reqs =>
    match path.Backend.Service with
    | none => none
    | some svc =>
      pathRequests ing name rest
        (if svc.Name = name then reqs ++ [⟨ing.ObjectMeta.Namespace, ing.ObjectMeta.Name⟩]
         else reqs)

/-- The loop over the rules of `ing`; a rule with a nil `HTTP` is passed over. -/
def ruleRequests (ing : Ingress) (name : String) :
    List IngressRule → List NamespacedName → Option (List NamespacedName)
  | [], reqs => some reqs
  | rule :: rest, reqs =>
    match rule.HTTP with
    | none => ruleRequests ing name rest reqs
    | some http =>
      match pathRequests ing name http.Paths reqs with
      | none => none
      | some reqs2 => ruleRequests ing name rest reqs2

/-- The loop over the listed items. -/
def ingressRequests (name : String) :
    List Ingress → List NamespacedName → Option (List NamespacedName)
  | [], reqs => some reqs
  | ing :: rest, reqs =>
    match ruleRequests ing name ing.Spec.Rules reqs with
    | none => none
    | some reqs2 => ingressRequests name rest reqs2

/-- The requests returned by `mapToIngressRequests` (a `reconcile.Request` is its
`NamespacedName`) for the object `object` on the server `c`; `none` is a nil-pointer panic. -/
def mapToIngressRequests (c : Cluster) (object : Endpoints) : Option (List NamespacedName) :=
  match c.listIngresses object.ObjectMeta.Namespace with
  | .error _ => some []
  | .ok items => ingressRequests object.ObjectMeta.Name items []

/-! ## `pkg/controllers/ingress_controller.go`: the annotation filter -/

/-- Go `strings.Split(s, sep)` for a separator `sep` of one character, on the characters of
`s`: the pieces between the occurrences of the separator, one more than there are
occurrences. -/
def splitChar (sep : Char) : List Char → List (List Char)
  | [] => [[]]
  | c :: cs =>
    if c = sep then [] :: splitChar sep cs
    else
      match splitChar sep cs with
      | [] => [[c]]
      | piece :: pieces => (c :: piece) :: pieces

def NewAnnotationFilter (filter : String) : annotationFilter :=
  match splitChar '=' filter.toList with
  | [key, value] => { key := String.mk key, value := String.mk value }
  | _ => { key := "", value := "" }

/-! ## Auxiliary definitions for the statements -/

/-- The values taken by the loop variable `desiredWeight` of `newDnsEndpoint`, one per bound
rule, when it starts at `w` and `hs` lists whether each rule has pods. -/
def runningWeights : Nat → List Bool → List Nat
  | _, [] => []
  | w, h :: hs => (if h then w else 0) :: runningWeights (if h then w else 0) hs

/-- The results of the calls of `ingressRuleHasPods` that the loop of `newDnsEndpoint` makes
for the rules `rules`, in order: the call for the rule at position `i` is made with the
runtime `rt.after i`. -/
def IngressReconciler.healthChecks (r : IngressReconciler) (ns : String) :
    GoRuntime → List IngressRule → List (Option Bool)
  | _, [] => []
  | rt, rule :: rest => r.ingressRuleHasPods rt ns rule :: r.healthChecks ns rt.next rest

/-- The health conditions `ingressRuleHasPods` checks on a fetched `Endpoints` object. -/
def Endpoints.Healthy (e : Endpoints) : Prop :=
  Time.IsZero e.ObjectMeta.DeletionTimestamp = true ∧ 1 ≤ e.Subsets.length
    ∧ ∀ s ∈ e.Subsets, 1 ≤ s.Addresses.length

/-! ## Auxiliary definitions for the order of the computed weights -/

/-- The rational number `m * 2^e`. -/
def F64.dyadic (m : Nat) (e : Int) : ℚ := (m : ℚ) * (2 : ℚ) ^ e

/-- The order `x ≤ y` of the non-negative values, the positive infinity above all of them. -/
def F64.le : F64 → F64 → Prop
  | F64.fin false m e, F64.fin false n f => F64.dyadic m e ≤ F64.dyadic n f
  | F64.fin false _ _, F64.inf false => True
  | F64.inf false, F64.inf false => True
  | _, _ => False

/-- The exponent at which `roundPos` rounds `num / den`. -/
def F64.rawExp (num den : Nat) : Int := max (F64.floorLog2 num den - 52) (-1074)

/-- The mantissa `roundPos` obtains for `num / den` before it is normalised. -/
def F64.rawMant (num den : Nat) : Nat :=
  F64.roundHalfEven (F64.scaled num den (F64.rawExp num den)).1
    (F64.scaled num den (F64.rawExp num den)).2

/-- The product `(d / 100) * o` as `calculateIngressWeight` computes it in binary64 before the
ceiling, for a backend weight `d` and an override `o` that need no clamping. -/
def weightProduct (d o : Nat) : F64 :=
  F64.mul (F64.div (F64.ofInt d) (F64.ofInt 100)) (F64.ofInt o)

/-- The value of `calculatedWeight` in `calculateIngressWeight` for a backend weight `d` that
is not negative and a parsed override `f` that is not below zero: the binary64 product of
`d`, clamped to 100 and divided by 100, and `f`, clamped to 100. -/
def calculatedWeight (d : Int) (f : F64) : F64 :=
  F64.mul
    (F64.div (if F64.lt (F64.ofInt 100) (F64.ofInt d) then F64.ofInt 100 else F64.ofInt d)
      (F64.ofInt 100))
    (if F64.lt (F64.ofInt 100) f then F64.ofInt 100 else f)

/-- A call of the DynamoDB client. -/
inductive DynamoCall where
  | GetItem (input : GetItemInput)
  | TransactWriteItems (input : TransactWriteItemsInput)
deriving DecidableEq, Repr

/-- The service `svc` with a record of the calls made to it, oldest first. -/
def DynamoDBAPI.recorded {σ : Type} (svc : DynamoDBAPI σ) : DynamoDBAPI (σ × List DynamoCall) :=
  { GetItem := fun s input =>
      ((svc.GetItem s.1 input).1, ((svc.GetItem s.1 input).2, s.2 ++ [.GetItem input]))
    TransactWriteItems := fun s input =>
      ((svc.TransactWriteItems s.1 input).1,
        ((svc.TransactWriteItems s.1 input).2, s.2 ++ [.TransactWriteItems input])) }

/-- The backend `b` talking to its service through the record of calls. -/
def dynamodbBackend.recorded {σ : Type} (b : dynamodbBackend σ) :
    dynamodbBackend (σ × List DynamoCall) :=
  { clusterName := b.clusterName, awsRegion := b.awsRegion, service := b.service.recorded,
    tableName := b.tableName }

/-! ## Sample objects -/

/-- A runtime in which every `range` visits the map keys in insertion order. -/
def sampleRuntime : GoRuntime :=
  { uintOfFloat := fun _ => 0, rangeOrder := fun _ keys => keys }

/-- A runtime in which every `range` visits the map keys in reverse insertion order. -/
def reverseRuntime : GoRuntime :=
  { uintOfFloat := fun _ => 0, rangeOrder := fun _ keys => keys.reverse }

/-- A runtime whose ranges visit the keys of a map alternately in the stored order and in the
reverse order. -/
def alternatingRuntime : GoRuntime :=
  { uintOfFloat := fun _ => 0
    rangeOrder := fun n keys => if n % 2 = 0 then keys else keys.reverse }

/-- An `Endpoints` object with the given subsets. -/
def sampleEndpoints (name : String) (subsets : List EndpointSubset) : Endpoints :=
  { ObjectMeta :=
      { Name := name, Namespace := "tests", UID := "", Annotations := none,
        DeletionTimestamp := none, OwnerReferences := [] }
    Subsets := subsets }

/-- A cluster where service `web` has one address, service `empty` has no subset, reading
service `flaky` fails with a server error, and no other service exists. -/
def sampleClient : Client :=
  { getEndpoints := fun key =>
      if key.Name = "web" then .ok (sampleEndpoints "web" [⟨[⟨"10.0.0.1"⟩]⟩])
      else if key.Name = "empty" then .ok (sampleEndpoints "empty" [])
      else if key.Name = "flaky" then .error (.other "etcdserver: request timed out")
      else .error .notFound }

def sampleReconciler : IngressReconciler :=
  { Client := sampleClient, ClusterName := "foolanito", BindingDomain := "foo.io",
    AWSRegion := "eu-west-1", AnnotationFilter := ⟨"", ""⟩, DevMode := false,
    AnnotationPrefix := "dns.adevinta.com" }

/-- A rule for `host` with one path per service name. -/
def sampleRule (host : String) (services : List String) : IngressRule :=
  { Host := host
    HTTP := some ⟨services.map (fun svc => ⟨"/" ++ svc, ⟨some ⟨svc⟩⟩⟩)⟩ }

/-- An Ingress `tests/bar` with the given annotations and rules. -/
def sampleIngress (annotations : StrMap) (rules : List IngressRule) : Ingress :=
  { APIVersion := "networking.k8s.io/v1", Kind := "Ingress"
    ObjectMeta :=
      { Name := "bar", Namespace := "tests", UID := "uid-1", Annotations := annotations,
        DeletionTimestamp := none, OwnerReferences := [] }
    Spec := ⟨rules⟩
    Status := ⟨⟨[⟨"bar-celona"⟩]⟩⟩ }

/-- The annotation map holding only the traffic-weight override `v`. -/
def weightOverride (v : String) : StrMap := some [("dns.adevinta.com/traffic-weight", v)]

def sampleOwner : OwnerReference :=
  { APIVersion := "networking.k8s.io/v1", Kind := "Ingress", Name := "bar", UID := "uid-1",
    Controller := some true }

/-- A `DNSEndpoint` with every field at its zero value. -/
def emptyDNSEndpoint : DNSEndpoint :=
  { ObjectMeta :=
      { Name := "", Namespace := "", UID := "", Annotations := none, DeletionTimestamp := none,
        OwnerReferences := [] }
    Spec := ⟨[]⟩ }

/-- A route `ns/name` with one rule. -/
def namedIngress (ns name : String) : Ingress :=
  { APIVersion := "networking.k8s.io/v1", Kind := "Ingress"
    ObjectMeta :=
      { Name := name, Namespace := ns, UID := "", Annotations := none,
        DeletionTimestamp := none, OwnerReferences := [] }
    Spec := ⟨[⟨"foo.cheap.io", none⟩]⟩
    Status := ⟨⟨[]⟩⟩ }

/-- A cache listing two routes. -/
def sampleCache : Cache := { List := .ok [namedIngress "bar" "foo", namedIngress "baz" "qux"] }

/-- A cache whose `List` fails. -/
def failingCache : Cache := { List := .error "cache not started" }

/-- A loop state with current weight 50 over a `testBackend` whose store holds `weight`. -/
def sampleLoopState (weight : Int) : LoopState TestBackendState :=
  { Store := ⟨50, 50, ""⟩, backend := ⟨weight, 0, none⟩, events := [], updates := [] }

/-- The state left by `doReconcile` when the current weight is 50 and the store holds 80. -/
def afterChange : LoopState TestBackendState :=
  (doReconcile testBackend sampleCache (sampleLoopState 80)).2

/-- Two records named `ingress-name`, in `namespace1` and in `namespace2`. -/
def recordIn (ns : String) : DNSEndpoint :=
  { ObjectMeta :=
      { Name := "ingress-name", Namespace := ns, UID := "", Annotations := none,
        DeletionTimestamp := none, OwnerReferences := [] }
    Spec := ⟨[]⟩ }

/-- A server without routes that holds `namespace1/ingress-name` and
`namespace2/ingress-name`. -/
def twoRecordCluster : Cluster :=
  { ingresses := [], dnsEndpoints := [recordIn "namespace1", recordIn "namespace2"],
    fault := fun _ => none, writes := [] }

/-- A server holding the route `tests/bar` and its record, the record marked for deletion. -/
def deletingRecordCluster : Cluster :=
  { ingresses := [sampleIngress none [sampleRule "b.foo.io" ["web"]]]
    dnsEndpoints :=
      [{ ObjectMeta :=
           { Name := "bar", Namespace := "tests", UID := "", Annotations := none,
             DeletionTimestamp := some 1700000000, OwnerReferences := [sampleOwner] }
         Spec := ⟨[]⟩ }]
    fault := fun _ => none, writes := [] }

/-- A reconciler that only accepts routes annotated `foo=notbar`. -/
def filteringReconciler : IngressReconciler :=
  { sampleReconciler with AnnotationFilter := ⟨"foo", "notbar"⟩ }

/-- The fields of the `mockDynamoDBClient` of `dynamobackend_test.go`. -/
structure MockDynamoState where
  written : Option TransactWriteItemsInput
  currentWeight : Option String
  desiredWeight : Option String
deriving DecidableEq, Repr

/-- The `mockDynamoDBClient` of `dynamobackend_test.go`, on inputs with at least one item that
is an update. -/
def mockDynamoDBClient : DynamoDBAPI MockDynamoState :=
  { GetItem := fun m _ =>
      match m.written with
      | none => (.ok ⟨[]⟩, m)
      | some _ =>
        (.ok ⟨[("ClusterName", ⟨some "lolo", none⟩), ("DesiredWeight", ⟨none, m.desiredWeight⟩),
          ("CurrentWeight", ⟨none, m.currentWeight⟩), ("foo", ⟨none, m.currentWeight⟩)]⟩, m)
    TransactWriteItems := fun m input =>
      let values : AttributeMap :=
        match input.TransactItems with
        | ⟨some update⟩ :: _ => update.ExpressionAttributeValues
        | _ => []
      (none,
        { written := some input
          currentWeight := match values.lookup ":c" with
            | some v => v.N
            | none => m.currentWeight
          desiredWeight := match values.lookup ":d" with
            | some v => v.N
            | none => m.desiredWeight }) }

/-- A decoder for the samples: the number members of `DesiredWeight` and `CurrentWeight` as
decimal integers, the string members of `ClusterName` and `HealthCheckID`; an absent entry
leaves the zero value, a number that is no decimal integer is an error. -/
def sampleUnmarshalMap (item : AttributeMap) : Except Error Item :=
  let num := fun (key : String) =>
    match (item.lookup key).bind (fun v => v.N) with
    | none => some (0 : Int)
    | some n =>
      if (readSign n.toList).2.isEmpty || !(readSign n.toList).2.all isDigitChar then none
      else some (if (readSign n.toList).1 then -(digitsVal (readSign n.toList).2 : Int)
        else (digitsVal (readSign n.toList).2 : Int))
  let str := fun (key : String) => ((item.lookup key).bind (fun v => v.S)).getD ""
  match num "DesiredWeight", num "CurrentWeight" with
  | some d, some c => .ok ⟨str "ClusterName", d, c, str "HealthCheckID"⟩
  | _, _ => .error "cannot unmarshal number"

/-- A backend on the mock client. -/
def sampleDynamoBackend : dynamodbBackend MockDynamoState :=
  { clusterName := "lolo", awsRegion := "eu-west-1", service := mockDynamoDBClient,
    tableName := "traffic-controller" }

/-- The mock client after the row has been written with `DesiredWeight = 50` and
`CurrentWeight = 35`. -/
def seededMock : MockDynamoState :=
  (sampleDynamoBackend.initializeClusterRow ⟨50, 35, ""⟩ ⟨none, none, none⟩).state

/-- A route `ns/name` with the given rules. -/
def routeIn (ns name : String) (rules : List IngressRule) : Ingress :=
  { APIVersion := "networking.k8s.io/v1", Kind := "Ingress"
    ObjectMeta :=
      { Name := name, Namespace := ns, UID := "", Annotations := none,
        DeletionTimestamp := none, OwnerReferences := [] }
    Spec := ⟨rules⟩
    Status := ⟨⟨[]⟩⟩ }

/-- A server that holds, in namespace `tests`, a route to service `web`, a route to another
service and a route whose rule has no HTTP section, and in namespace `other` a route to
`web`. -/
def mapperCluster : Cluster :=
  { ingresses :=
      [routeIn "tests" "my-ingress" [sampleRule "a.foo.io" ["web"]],
       routeIn "tests" "elsewhere" [sampleRule "b.foo.io" ["other-service"]],
       routeIn "tests" "no-http" [⟨"c.foo.io", none⟩],
       routeIn "other" "my-ingress" [sampleRule "a.foo.io" ["web"]]]
    dnsEndpoints := [], fault := fun _ => none, writes := [] }

/-- A loop state with current weight 50 over a `testBackend` whose store holds 80 and whose
`OnWeightUpdate` fails. -/
def failingUpdateState : LoopState TestBackendState :=
  { Store := ⟨50, 50, ""⟩, backend := ⟨80, 0, some "assert.AnError"⟩, events := [],
    updates := [] }

/-- A rule for `host` whose only path has a resource backend: its `Service` is nil. -/
def resourceRule (host : String) : IngressRule :=
  { Host := host, HTTP := some ⟨[⟨"/", ⟨none⟩⟩]⟩ }

/-- A server that holds the given routes and no record. -/
def routesOnly (routes : List Ingress) : Cluster :=
  { ingresses := routes, dnsEndpoints := [], fault := fun _ => none, writes := [] }

/-- A client without rows whose `TransactWriteItems` fails with `err`. -/
def failingDynamoDBClient (err : AwsError) : DynamoDBAPI Unit :=
  { GetItem := fun st _ => (.ok ⟨[]⟩, st)
    TransactWriteItems := fun st _ => (some err, st) }

/-- A backend on a client whose writes fail with `err`. -/
def failingDynamoBackend (err : AwsError) : dynamodbBackend Unit :=
  { clusterName := "lolo", awsRegion := "eu-west-1", service := failingDynamoDBClient err,
    tableName := "traffic-controller" }

/-! # Theorems -/

set_option maxRecDepth 100000

/-! ## Lemmas on binary64 conversion -/

theorem F64.two_pow_log2Fuel_le (fuel n : Nat) (hn : 1 ≤ n) : 2 ^ F64.log2Fuel fuel n ≤ n := by
  induction fuel generalizing n with
  | zero => simpa [F64.log2Fuel] using hn
  | succ k ih =>
    unfold F64.log2Fuel
    split
    · simpa using hn
    · have h2 : 1 ≤ n / 2 := by omega
      have := ih (n / 2) h2
      rw [pow_succ]
      omega

theorem F64.roundHalfEven_ge (n d : Nat) : n / d ≤ F64.roundHalfEven n d := by
  unfold F64.roundHalfEven
  dsimp only
  split <;> omega

theorem F64.floorLog2_one_le (n : Nat) : F64.floorLog2 n 1 ≤ (F64.ilog2 n : Int) := by
  have h1 : F64.ilog2 1 = 0 := by decide
  unfold F64.floorLog2
  simp only [h1]
  split <;> omega

theorem F64.scaled_one_le (n : Nat) (q : Int) (hn : 1 ≤ n) (hq : q ≤ (F64.ilog2 n : Int)) :
    0 < (F64.scaled n 1 q).2 ∧ (F64.scaled n 1 q).2 ≤ (F64.scaled n 1 q).1 := by
  cases q with
  | ofNat j =>
    have hj : j ≤ F64.ilog2 n := Int.ofNat_le.mp hq
    have h1 : 2 ^ j ≤ 2 ^ F64.ilog2 n := Nat.pow_le_pow_right (by decide) hj
    have h2 : 2 ^ F64.ilog2 n ≤ n := F64.two_pow_log2Fuel_le n n hn
    have h3 : 0 < 2 ^ j := Nat.pow_pos (by decide)
    simp only [F64.scaled, one_mul]
    omega
  | negSucc k =>
    have h3 : 0 < 2 ^ (k + 1) := Nat.pow_pos (by decide)
    simp only [F64.scaled]
    exact ⟨by decide, Nat.mul_pos hn h3⟩

theorem F64.roundPos_int_mantissa_ne_zero (n m : Nat) (e : Int) (hn : 1 ≤ n)
    (h : F64.roundPos n 1 = some (m, e)) : m ≠ 0 := by
  have hq : max (F64.floorLog2 n 1 - 52) (-1074) ≤ (F64.ilog2 n : Int) := by
    have := F64.floorLog2_one_le n
    omega
  obtain ⟨hpos, hle⟩ := F64.scaled_one_le n _ hn hq
  have hm := F64.roundHalfEven_ge (F64.scaled n 1 (max (F64.floorLog2 n 1 - 52) (-1074))).1
    (F64.scaled n 1 (max (F64.floorLog2 n 1 - 52) (-1074))).2
  have hdiv : 1 ≤ (F64.scaled n 1 (max (F64.floorLog2 n 1 - 52) (-1074))).1 /
      (F64.scaled n 1 (max (F64.floorLog2 n 1 - 52) (-1074))).2 :=
    (Nat.one_le_div_iff hpos).2 hle
  have hn0 : n ≠ 0 := by omega
  unfold F64.roundPos at h
  simp only [hn0, if_false] at h
  generalize F64.roundHalfEven (F64.scaled n 1 (max (F64.floorLog2 n 1 - 52) (-1074))).1
    (F64.scaled n 1 (max (F64.floorLog2 n 1 - 52) (-1074))).2 = m' at h hm
  have hm' : m' ≠ 0 := by omega
  simp only [hm', if_false] at h
  by_cases h53 : m' = 2 ^ 53
  · simp only [h53, if_true] at h
    split at h
    · exact absurd h (by simp)
    · simp only [Option.some.injEq, Prod.mk.injEq] at h
      rw [← h.1]; decide
  · simp only [h53, if_false] at h
    split at h
    · exact absurd h (by simp)
    · simp only [Option.some.injEq, Prod.mk.injEq] at h
      rw [← h.1]; exact hm'

theorem F64.ofInt_zero : F64.ofInt 0 = F64.fin false 0 0 := by decide

theorem F64.ofInt_lt_zero (d : Int) : F64.lt (F64.ofInt d) (F64.ofInt 0) = decide (d < 0) := by
  rw [F64.ofInt_zero]
  unfold F64.ofInt F64.ofRat
  cases hr : F64.roundPos d.natAbs 1 with
  | none => simp [F64.lt]
  | some p =>
    obtain ⟨m, e⟩ := p
    simp only [F64.lt, F64.signedAt]
    by_cases hd : d < 0
    · have hn : 1 ≤ d.natAbs := by omega
      have hm := F64.roundPos_int_mantissa_ne_zero _ _ _ hn hr
      have hpow : 0 < m * 2 ^ (e - min e 0).toNat := Nat.mul_pos (by omega) (Nat.pow_pos (by decide))
      simp only [hd, decide_True, if_true, zero_mul, Nat.cast_zero, mul_zero]
      simp only [decide_eq_true_eq]
      omega
    · simp only [hd, decide_False, zero_mul, Nat.cast_zero, mul_zero]
      simp only [decide_eq_false_iff_not, not_lt]
      simp only [Bool.false_eq_true, if_false, one_mul]
      exact Int.ofNat_nonneg _

/-! ## `calculateIngressWeight` -/

/-- C1: with `DesiredWeight = 7` and the annotation `"100"` the code returns weight 8 and no
error, whereas `ceil(7 * 100 / 100) = 7`: the quotient `7 / 100` is rounded to a binary64
slightly above `0.07`, and its product with `100` is rounded to the binary64 just above `7`. -/
theorem calculateIngressWeight_seven_hundred :
    sampleReconciler.calculateIngressWeight sampleRuntime ⟨7, 7, ""⟩
        (sampleIngress (weightOverride "100") []) = (8, none)
    ∧ F64.div (F64.ofInt 7) (F64.ofInt 100) = F64.fin false 5044031582654956 (-56)
    ∧ F64.mul (F64.fin false 5044031582654956 (-56)) (F64.ofInt 100)
        = F64.fin false 7881299347898369 (-50)
    ∧ (7 * 100 + 99) / 100 = 7 := by
  refine ⟨?_, ?_, ?_, ?_⟩
  · decide
  · decide
  · decide
  · decide

/-! ## `ingressRuleHasPods` -/

theorem endpointsHasPods_iff (r : IngressReconciler) (e : Endpoints) :
    r.endpointsHasPods e = true ↔
      (1 ≤ e.Subsets.length ∧ ∀ s ∈ e.Subsets, 1 ≤ s.Addresses.length) := by
  unfold IngressReconciler.endpointsHasPods
  by_cases h : e.Subsets.length = 0
  · simp [h]
  · simp only [h, if_false, List.all_eq_true, Bool.not_eq_true', beq_eq_false_iff_ne, ne_eq]
    constructor
    · intro hs
      exact ⟨by omega, fun s hm => by have := hs s hm; omega⟩
    · intro hs s hm
      have := hs.2 s hm
      omega

theorem servicesName_spec (paths : List HTTPIngressPath) :
    ∀ keys ks, servicesName paths keys = some ks →
      (∀ p ∈ paths, ∃ svc, p.Backend.Service = some svc)
      ∧ (∀ name, name ∈ ks ↔
          (name ∈ keys ∨ ∃ p ∈ paths, ∃ svc, p.Backend.Service = some svc ∧ svc.Name = name))
      ∧ (keys.Nodup → ks.Nodup) := by
  induction paths with
  | nil =>
    intro keys ks h
    simp only [servicesName, Option.some.injEq] at h
    subst h
    simp
  | cons p rest ih =>
    intro keys ks h
    unfold servicesName at h
    cases hs : p.Backend.Service with
    | none => simp [hs] at h
    | some svc =>
      simp only [hs] at h
      obtain ⟨h1, h2, h3⟩ := ih _ _ h
      refine ⟨?_, ?_, ?_⟩
      · intro q hq
        rcases List.mem_cons.1 hq with rfl | hq
        · exact ⟨svc, hs⟩
        · exact h1 q hq
      · intro name
        rw [h2 name]
        constructor
        · rintro (hk | ⟨q, hq, s, hqs, hn⟩)
          · by_cases hmem : svc.Name ∈ keys
            · simp only [hmem, if_true] at hk
              exact Or.inl hk
            · simp only [hmem, if_false, List.mem_append, List.mem_singleton] at hk
              rcases hk with hk | hk
              · exact Or.inl hk
              · exact Or.inr ⟨p, List.mem_cons_self _ _, svc, hs, hk.symm⟩
          · exact Or.inr ⟨q, List.mem_cons_of_mem _ hq, s, hqs, hn⟩
        · rintro (hk | ⟨q, hq, s, hqs, hn⟩)
          · left
            by_cases hmem : svc.Name ∈ keys
            · simpa [hmem] using hk
            · simp only [hmem, if_false, List.mem_append, List.mem_singleton]
              exact Or.inl hk
          · rcases List.mem_cons.1 hq with rfl | hq
            · left
              rw [hs] at hqs
              cases hqs
              by_cases hmem : svc.Name ∈ keys
              · simp [hmem, ← hn]
              · simp only [hmem, if_false, List.mem_append, List.mem_singleton]
                exact Or.inr hn.symm
            · exact Or.inr ⟨q, hq, s, hqs, hn⟩
      · intro hnd
        apply h3
        by_cases hmem : svc.Name ∈ keys
        · simpa [hmem] using hnd
        · simp only [hmem, if_false]
          exact List.Nodup.append hnd (List.nodup_singleton _) (by simpa using hmem)

theorem servicesName_isSome (paths : List HTTPIngressPath) :
    ∀ keys, (∀ p ∈ paths, ∃ svc, p.Backend.Service = some svc) →
      ∃ ks, servicesName paths keys = some ks := by
  induction paths with
  | nil => intro keys _; exact ⟨keys, rfl⟩
  | cons p rest ih =>
    intro keys h
    obtain ⟨svc, hs⟩ := h p (List.mem_cons_self _ _)
    unfold servicesName
    simp only [hs]
    exact ih _ (fun q hq => h q (List.mem_cons_of_mem _ hq))

theorem servicesHavePods_of_fetched (r : IngressReconciler) (ns : String) (names : List String)
    (hf : ∀ name ∈ names, ∃ e, r.Client.getEndpoints ⟨ns, name⟩ = .ok e) :
    r.servicesHavePods ns names = true ↔
      ∀ name ∈ names, ∃ e, r.Client.getEndpoints ⟨ns, name⟩ = .ok e ∧ e.Healthy := by
  induction names with
  | nil => simp [IngressReconciler.servicesHavePods]
  | cons name rest ih =>
    obtain ⟨e, he⟩ := hf name (List.mem_cons_self _ _)
    have ih' := ih (fun n hn => hf n (List.mem_cons_of_mem _ hn))
    unfold IngressReconciler.servicesHavePods
    simp only [he, List.mem_cons, forall_eq_or_imp, Except.ok.injEq, exists_eq_left']
    by_cases hz : Time.IsZero e.ObjectMeta.DeletionTimestamp = true
    · by_cases hp : r.endpointsHasPods e = true
      · have hh : e.Healthy := ⟨hz, (endpointsHasPods_iff r e).1 hp⟩
        simp [hz, hp, ih', hh]
      · have hh : ¬ e.Healthy := fun hh => hp ((endpointsHasPods_iff r e).2 hh.2)
        simp [hz, hp, hh]
    · have hh : ¬ e.Healthy := fun hh => hz hh.1
      simp [hz, hh]

/-- C4: a rule whose paths reference `flaky` (its fetch fails with an error other than
not-found) and `empty` (fetched, zero subsets) is reported healthy when the map is visited
`flaky` first, although `empty` is unhealthy; visited `empty` first, it is reported
unhealthy. -/
theorem ingressRuleHasPods_flaky_then_empty :
    sampleReconciler.ingressRuleHasPods sampleRuntime "tests"
        (sampleRule "a.foo.io" ["flaky", "empty"]) = some true
    ∧ sampleRuntime.rangeOrder 0 ["flaky", "empty"] = ["flaky", "empty"]
    ∧ sampleReconciler.Client.getEndpoints ⟨"tests", "flaky"⟩
        = .error (.other "etcdserver: request timed out")
    ∧ (∃ e, sampleReconciler.Client.getEndpoints ⟨"tests", "empty"⟩ = .ok e ∧ e.Subsets = [])
    ∧ sampleReconciler.ingressRuleHasPods reverseRuntime "tests"
        (sampleRule "a.foo.io" ["flaky", "empty"]) = some false := by
  refine ⟨by decide, by decide, by rfl, ⟨_, rfl, rfl⟩, by decide⟩

/-- C5: when every path of the rule references a service whose `Endpoints` object is fetched
successfully, `ingressRuleHasPods` returns, and it returns true exactly when the rule has an
HTTP section and every referenced object is not marked for deletion, has at least one subset
and has at least one address in every subset. A rule without HTTP section is unhealthy, and
`endpointsHasPods` holds exactly for at least one subset with at least one address in each. -/
theorem ingressRuleHasPods_iff_all_healthy (r : IngressReconciler) (rt : GoRuntime)
    (ns : String) (rule : IngressRule) (hrt : rt.WellFormed)
    (hfetch : ∀ http, rule.HTTP = some http → ∀ p ∈ http.Paths,
      ∃ svc e, p.Backend.Service = some svc ∧ r.Client.getEndpoints ⟨ns, svc.Name⟩ = .ok e) :
    (∃ b, r.ingressRuleHasPods rt ns rule = some b ∧
      (b = true ↔ ∃ http, rule.HTTP = some http ∧ ∀ p ∈ http.Paths,
        ∃ svc e, p.Backend.Service = some svc
          ∧ r.Client.getEndpoints ⟨ns, svc.Name⟩ = .ok e
          ∧ Time.IsZero e.ObjectMeta.DeletionTimestamp = true
          ∧ 1 ≤ e.Subsets.length ∧ ∀ s ∈ e.Subsets, 1 ≤ s.Addresses.length))
    ∧ (rule.HTTP = none → r.ingressRuleHasPods rt ns rule = some false)
    ∧ (∀ e : Endpoints, r.endpointsHasPods e = true ↔
        (1 ≤ e.Subsets.length ∧ ∀ s ∈ e.Subsets, 1 ≤ s.Addresses.length)) := by
  refine ⟨?_, ?_, endpointsHasPods_iff r⟩
  · unfold IngressReconciler.ingressRuleHasPods
    cases hh : rule.HTTP with
    | none => exact ⟨false, rfl, by simp⟩
    | some http =>
      have hf := hfetch http hh
      obtain ⟨ks, hks⟩ := servicesName_isSome http.Paths []
        (fun p hp => by obtain ⟨svc, _, hs, _⟩ := hf p hp; exact ⟨svc, hs⟩)
      obtain ⟨_, hmem, hnd⟩ := servicesName_spec http.Paths [] ks hks
      have hperm := hrt 0 ks (hnd List.nodup_nil)
      have hfetched : ∀ name ∈ rt.rangeOrder 0 ks,
          ∃ e, r.Client.getEndpoints ⟨ns, name⟩ = .ok e := by
        intro name hn
        rcases (hmem name).1 (hperm.mem_iff.1 hn) with hk | ⟨p, hp, svc, hs, rfl⟩
        · cases hk
        · obtain ⟨svc', e, hs', he⟩ := hf p hp
          rw [hs] at hs'
          cases hs'
          exact ⟨e, he⟩
      simp only [hks]
      refine ⟨_, rfl, ?_⟩
      rw [servicesHavePods_of_fetched r ns _ hfetched]
      constructor
      · intro hall
        refine ⟨http, rfl, fun p hp => ?_⟩
        obtain ⟨svc, e, hs, he⟩ := hf p hp
        have hin : svc.Name ∈ rt.rangeOrder 0 ks :=
          hperm.mem_iff.2 ((hmem _).2 (Or.inr ⟨p, hp, svc, hs, rfl⟩))
        obtain ⟨e', he', hz, h1, h2⟩ := hall _ hin
        exact ⟨svc, e', hs, he', hz, h1, h2⟩
      · rintro ⟨http', hh', hall⟩
        cases hh'
        intro name hn
        rcases (hmem name).1 (hperm.mem_iff.1 hn) with hk | ⟨p, hp, svc, hs, rfl⟩
        · cases hk
        · obtain ⟨svc', e, hs', he, hz, h1, h2⟩ := hall p hp
          rw [hs] at hs'
          cases hs'
          exact ⟨e, he, hz, h1, h2⟩
  · intro hh
    unfold IngressReconciler.ingressRuleHasPods
    simp [hh]

theorem sampleRuntime_wellFormed : sampleRuntime.WellFormed :=
  fun _ keys _ => List.Perm.refl keys

/-- C5 at the rule `a.foo.io` whose only path references the service `web`. -/
theorem ingressRuleHasPods_iff_all_healthy_witness :
    (∃ b, sampleReconciler.ingressRuleHasPods sampleRuntime "tests"
        (sampleRule "a.foo.io" ["web"]) = some b ∧
      (b = true ↔ ∃ http, (sampleRule "a.foo.io" ["web"]).HTTP = some http ∧ ∀ p ∈ http.Paths,
        ∃ svc e, p.Backend.Service = some svc
          ∧ sampleReconciler.Client.getEndpoints ⟨"tests", svc.Name⟩ = .ok e
          ∧ Time.IsZero e.ObjectMeta.DeletionTimestamp = true
          ∧ 1 ≤ e.Subsets.length ∧ ∀ s ∈ e.Subsets, 1 ≤ s.Addresses.length))
    ∧ ((sampleRule "a.foo.io" ["web"]).HTTP = none →
        sampleReconciler.ingressRuleHasPods sampleRuntime "tests"
          (sampleRule "a.foo.io" ["web"]) = some false)
    ∧ (∀ e : Endpoints, sampleReconciler.endpointsHasPods e = true ↔
        (1 ≤ e.Subsets.length ∧ ∀ s ∈ e.Subsets, 1 ≤ s.Addresses.length)) :=
  ingressRuleHasPods_iff_all_healthy sampleReconciler sampleRuntime "tests"
    (sampleRule "a.foo.io" ["web"]) sampleRuntime_wellFormed
    (by
      intro http hh p hp
      simp only [sampleRule, List.map, Option.some.injEq] at hh
      subst hh
      simp only [List.mem_singleton] at hp
      subst hp
      exact ⟨⟨"web"⟩, sampleEndpoints "web" [⟨[⟨"10.0.0.1"⟩]⟩], rfl, rfl⟩)

/-! ## `newDnsEndpoint` -/

theorem healthChecks_getElem? (r : IngressReconciler) (ns : String) (rules : List IngressRule) :
    ∀ (rt : GoRuntime) (i : Nat),
      (r.healthChecks ns rt rules)[i]?
        = rules[i]?.map (fun rule => r.ingressRuleHasPods (rt.after i) ns rule) := by
  induction rules with
  | nil => intro rt i; simp [IngressReconciler.healthChecks]
  | cons rule rest ih =>
    intro rt i
    cases i with
    | zero => simp [IngressReconciler.healthChecks, GoRuntime.after]
    | succ j =>
      simp only [IngressReconciler.healthChecks, List.getElem?_cons_succ, GoRuntime.after]
      exact ih rt.next j

theorem healthChecks_length (r : IngressReconciler) (ns : String) (rules : List IngressRule) :
    ∀ rt : GoRuntime, (r.healthChecks ns rt rules).length = rules.length := by
  induction rules with
  | nil => intro rt; rfl
  | cons rule rest ih => intro rt; simp [IngressReconciler.healthChecks, ih]

theorem endpointsLoop_eq (r : IngressReconciler) (ns target : String)
    (hc : Option ProviderSpecificProperty) (rules : List IngressRule) :
    ∀ (rt : GoRuntime) (hs : List Bool) (w : Nat) (acc : List Endpoint),
      r.healthChecks ns rt rules = hs.map some →
      r.endpointsLoop ns target hc rt rules w acc
        = some (acc ++ List.zipWith (r.ruleEndpoint target hc) rules (runningWeights w hs)) := by
  induction rules with
  | nil =>
    intro rt hs w acc _
    simp [IngressReconciler.endpointsLoop]
  | cons rule rest ih =>
    intro rt hs w acc h
    cases hs with
    | nil => simp [IngressReconciler.healthChecks] at h
    | cons b bs =>
      simp only [IngressReconciler.healthChecks, List.map_cons, List.cons.injEq] at h
      unfold IngressReconciler.endpointsLoop
      simp only [h.1]
      rw [ih rt.next bs _ _ h.2]
      cases b <;> simp [runningWeights]

theorem endpointsLoop_some (r : IngressReconciler) (ns target : String)
    (hc : Option ProviderSpecificProperty) (rules : List IngressRule) :
    ∀ (rt : GoRuntime) (w : Nat) (acc res : List Endpoint),
      r.endpointsLoop ns target hc rt rules w acc = some res →
      ∃ hs : List Bool, r.healthChecks ns rt rules = hs.map some := by
  induction rules with
  | nil => intro _ _ _ _ _; exact ⟨[], rfl⟩
  | cons rule rest ih =>
    intro rt w acc res h
    unfold IngressReconciler.endpointsLoop at h
    cases hp : r.ingressRuleHasPods rt ns rule with
    | none => simp [hp] at h
    | some b =>
      simp only [hp] at h
      obtain ⟨bs, hbs⟩ := ih _ _ _ _ h
      exact ⟨b :: bs, by simp [IngressReconciler.healthChecks, hp, hbs]⟩

theorem runningWeights_length (hs : List Bool) : ∀ w, (runningWeights w hs).length = hs.length := by
  induction hs with
  | nil => intro w; rfl
  | cons b bs ih => intro w; simp [runningWeights, ih]

theorem runningWeights_false (hs : List Bool) :
    ∀ (w i : Nat), hs[i]? = some false → (runningWeights w hs)[i]? = some 0 := by
  induction hs with
  | nil => intro w i h; simp at h
  | cons b bs ih =>
    intro w i h
    cases i with
    | zero =>
      simp only [List.getElem?_cons_zero, Option.some.injEq] at h
      simp [runningWeights, h]
    | succ j =>
      simp only [List.getElem?_cons_succ] at h
      simp only [runningWeights, List.getElem?_cons_succ]
      exact ih _ _ h

theorem runningWeights_all_true (hs : List Bool) (hall : ∀ b ∈ hs, b = true) :
    ∀ w, runningWeights w hs = List.replicate hs.length w := by
  induction hs with
  | nil => intro w; rfl
  | cons b bs ih =>
    intro w
    have hb : b = true := hall b (List.mem_cons_self _ _)
    subst hb
    simp [runningWeights, List.replicate_succ, ih (fun b hb => hall b (List.mem_cons_of_mem _ hb))]

theorem awsWeight_ruleEndpoint (r : IngressReconciler) (target : String)
    (hc : Option ProviderSpecificProperty) (rule : IngressRule) (w : Nat) :
    (r.ruleEndpoint target hc rule w).awsWeight = some (FormatUint w) := by
  cases hc <;> simp [IngressReconciler.ruleEndpoint, Endpoint.awsWeight, List.find?]

/-- The records of the object returned by `newDnsEndpoint`, when the weight calculation does
not fail: one per bound rule, carrying the running value of `desiredWeight`. -/
theorem newDnsEndpoint_endpoints (r : IngressReconciler) (rt : GoRuntime) (Store : StoreConfig)
    (dnsEndpoint : DNSEndpoint) (target : String) (ingress : Ingress) (owner : OwnerReference)
    (hs : List Bool)
    (hcalc : r.isIngressWeighted ingress = true →
      (r.calculateIngressWeight rt Store ingress).2 = none)
    (hhs : r.healthChecks ingress.ObjectMeta.Namespace rt
      (r.filterIngressRulesByHost ingress.Spec.Rules) = hs.map some) :
    ∃ ep, r.newDnsEndpoint rt Store dnsEndpoint target ingress owner = some ep ∧
      ep.Spec.Endpoints = List.zipWith
        (r.ruleEndpoint target (if Store.AWSHealthCheckID ≠ "" then
          some ⟨"aws/health-check-id", Store.AWSHealthCheckID⟩ else none))
        (r.filterIngressRulesByHost ingress.Spec.Rules)
        (runningWeights
          (if r.isIngressWeighted ingress = true then
            (r.calculateIngressWeight rt Store ingress).1
           else uintOfInt Store.DesiredWeight) hs) := by
  unfold IngressReconciler.newDnsEndpoint
  by_cases hw : r.isIngressWeighted ingress = true
  · have hc := hcalc hw
    simp only [hw, if_true]
    rcases hcw : r.calculateIngressWeight rt Store ingress with ⟨w, err⟩
    rw [hcw] at hc
    simp only at hc
    subst hc
    simp only
    split <;> simp [endpointsLoop_eq r _ target _ _ rt hs _ [] hhs]
  · simp only [hw, Bool.false_eq_true, if_false]
    simp [endpointsLoop_eq r _ target _ _ rt hs _ [] hhs]

/-- Whether `ingressRuleHasPods` returns does not depend on the runtime. -/
theorem ingressRuleHasPods_isSome (r : IngressReconciler) (rt1 rt2 : GoRuntime) (ns : String)
    (rule : IngressRule) :
    (r.ingressRuleHasPods rt1 ns rule).isSome = (r.ingressRuleHasPods rt2 ns rule).isSome := by
  unfold IngressReconciler.ingressRuleHasPods
  cases rule.HTTP with
  | none => rfl
  | some http =>
    simp only
    cases servicesName http.Paths [] <;> rfl

theorem exists_healths_of_isSome (r : IngressReconciler) (ns : String)
    (rules : List IngressRule) :
    ∀ rt : GoRuntime,
      (∀ (i : Nat) (rule : IngressRule), rules[i]? = some rule →
        (r.ingressRuleHasPods (rt.after i) ns rule).isSome = true) →
      ∃ hs : List Bool, r.healthChecks ns rt rules = hs.map some := by
  induction rules with
  | nil => intro _ _; exact ⟨[], rfl⟩
  | cons rule rest ih =>
    intro rt h
    obtain ⟨bs, hbs⟩ := ih rt.next (fun i x hx => h (i + 1) x (by simpa using hx))
    obtain ⟨b, hb⟩ := Option.isSome_iff_exists.1 (h 0 rule (List.getElem?_cons_zero ..))
    have hb' : r.ingressRuleHasPods rt ns rule = some b := hb
    exact ⟨b :: bs, by simp [IngressReconciler.healthChecks, hb', hbs]⟩

/-- C2: when the weight calculation does not fail and the health check returns for every bound
rule, `newDnsEndpoint` returns an object whose record at the position of a bound rule that
`ingressRuleHasPods` reports unhealthy is the record of that rule and carries `aws/weight`
`"0"`, whatever the store and the annotations hold. The health check of the bound rule at
position `i` is the call made with the runtime `rt.after i`. -/
theorem newDnsEndpoint_unhealthy_rule_zero (r : IngressReconciler) (rt : GoRuntime)
    (Store : StoreConfig) (dnsEndpoint : DNSEndpoint) (target : String) (ingress : Ingress)
    (owner : OwnerReference) (i : Nat) (rule : IngressRule)
    (hcalc : r.isIngressWeighted ingress = true →
      (r.calculateIngressWeight rt Store ingress).2 = none)
    (hreturns : ∀ bound ∈ r.filterIngressRulesByHost ingress.Spec.Rules,
      (r.ingressRuleHasPods rt ingress.ObjectMeta.Namespace bound).isSome = true)
    (hrule : (r.filterIngressRulesByHost ingress.Spec.Rules)[i]? = some rule)
    (hbad : r.ingressRuleHasPods (rt.after i) ingress.ObjectMeta.Namespace rule = some false) :
    ∃ ep e, r.newDnsEndpoint rt Store dnsEndpoint target ingress owner = some ep
      ∧ ep.Spec.Endpoints[i]? = some e ∧ e.DNSName = rule.Host
      ∧ e.awsWeight = some "0" := by
  obtain ⟨hs, hhs⟩ := exists_healths_of_isSome r _ _ rt (fun j bound hj => by
    rw [ingressRuleHasPods_isSome r (rt.after j) rt]
    exact hreturns bound (List.mem_iff_getElem?.2 ⟨j, hj⟩))
  obtain ⟨ep, hep, heps⟩ := newDnsEndpoint_endpoints r rt Store dnsEndpoint target ingress
    owner hs hcalc hhs
  have hi : hs[i]? = some false := by
    have h1 := congrArg (fun l => l[i]?) hhs
    simp only [healthChecks_getElem?, List.getElem?_map, hrule, Option.map_some', hbad] at h1
    cases hb : hs[i]? with
    | none => simp [hb] at h1
    | some b => simp only [hb, Option.map_some', Option.some.injEq] at h1; rw [← h1]
  have hw := runningWeights_false hs
    (if r.isIngressWeighted ingress = true then (r.calculateIngressWeight rt Store ingress).1
      else uintOfInt Store.DesiredWeight) i hi
  refine ⟨ep, r.ruleEndpoint target (if Store.AWSHealthCheckID ≠ "" then
    some ⟨"aws/health-check-id", Store.AWSHealthCheckID⟩ else none) rule 0, hep, ?_, ?_, ?_⟩
  · rw [heps, List.getElem?_zipWith_eq_some]
    exact ⟨rule, 0, hrule, hw, rfl⟩
  · rfl
  · rw [awsWeight_ruleEndpoint]; rfl

/-- C2 at a route with override `100`, desired weight 80 and one rule whose service has no
subset. -/
theorem newDnsEndpoint_unhealthy_rule_zero_witness :
    ∃ ep e, sampleReconciler.newDnsEndpoint sampleRuntime ⟨80, 80, ""⟩ emptyDNSEndpoint
        "bar-celona" (sampleIngress (weightOverride "100") [sampleRule "a.foo.io" ["empty"]])
        sampleOwner = some ep
      ∧ ep.Spec.Endpoints[0]? = some e
      ∧ e.DNSName = (sampleRule "a.foo.io" ["empty"]).Host ∧ e.awsWeight = some "0" :=
  newDnsEndpoint_unhealthy_rule_zero sampleReconciler sampleRuntime ⟨80, 80, ""⟩
    emptyDNSEndpoint "bar-celona"
    (sampleIngress (weightOverride "100") [sampleRule "a.foo.io" ["empty"]]) sampleOwner
    0 (sampleRule "a.foo.io" ["empty"])
    (by intro _; decide) (by decide) (by decide) (by decide)

/-- C3: for a route without override whose first bound rule is unhealthy and whose second
bound rule is healthy, with desired weight 50, both records carry `aws/weight` `"0"`: the
assignment `desiredWeight = 0` made for the first rule is still in force for the second,
whose own weight is `"50"`. -/
theorem newDnsEndpoint_zero_is_sticky :
    (sampleReconciler.newDnsEndpoint sampleRuntime ⟨50, 50, ""⟩ emptyDNSEndpoint "bar-celona"
        (sampleIngress none [sampleRule "a.foo.io" ["empty"], sampleRule "b.foo.io" ["web"]])
        sampleOwner).map (fun ep => ep.Spec.Endpoints.map
          (fun e => (e.DNSName, e.awsWeight)))
      = some [("a.foo.io", some "0"), ("b.foo.io", some "0")]
    ∧ sampleReconciler.ingressRuleHasPods sampleRuntime "tests"
        (sampleRule "a.foo.io" ["empty"]) = some false
    ∧ sampleReconciler.ingressRuleHasPods sampleRuntime "tests"
        (sampleRule "b.foo.io" ["web"]) = some true
    ∧ (sampleReconciler.newDnsEndpoint sampleRuntime ⟨50, 50, ""⟩ emptyDNSEndpoint "bar-celona"
        (sampleIngress none [sampleRule "b.foo.io" ["web"]])
        sampleOwner).map (fun ep => ep.Spec.Endpoints.map
          (fun e => (e.DNSName, e.awsWeight)))
      = some [("b.foo.io", some "50")] := by
  refine ⟨by decide, by decide, by decide, by decide⟩

theorem uintOfInt_of_nonneg (d : Int) (h0 : 0 ≤ d) (h1 : d < 2 ^ 63) :
    uintOfInt d = d.toNat := by
  unfold uintOfInt
  rw [Int.emod_eq_of_lt h0 (by omega)]

/-- C7: for a route without the traffic-weight annotation, a desired weight `d` with
`0 ≤ d` (any non-negative Go `int`, also above 100) and all bound rules healthy,
`newDnsEndpoint` returns one record per bound rule and each carries as `aws/weight` the
decimal string of `d` itself. The health check of the bound rule at position `i` is the call
made with the runtime `rt.after i`. -/
theorem newDnsEndpoint_unweighted_raw (r : IngressReconciler) (rt : GoRuntime)
    (Store : StoreConfig) (dnsEndpoint : DNSEndpoint) (target : String) (ingress : Ingress)
    (owner : OwnerReference)
    (hnoann : r.isIngressWeighted ingress = false)
    (h0 : 0 ≤ Store.DesiredWeight) (h1 : Store.DesiredWeight < 2 ^ 63)
    (hhealthy : ∀ (i : Nat) (rule : IngressRule),
      (r.filterIngressRulesByHost ingress.Spec.Rules)[i]? = some rule →
      r.ingressRuleHasPods (rt.after i) ingress.ObjectMeta.Namespace rule = some true) :
    ∃ ep, r.newDnsEndpoint rt Store dnsEndpoint target ingress owner = some ep
      ∧ ep.Spec.Endpoints.length = (r.filterIngressRulesByHost ingress.Spec.Rules).length
      ∧ ∀ e ∈ ep.Spec.Endpoints,
          e.awsWeight = some (FormatUint Store.DesiredWeight.toNat) := by
  have hhs : r.healthChecks ingress.ObjectMeta.Namespace rt
      (r.filterIngressRulesByHost ingress.Spec.Rules)
      = (List.replicate (r.filterIngressRulesByHost ingress.Spec.Rules).length true).map some := by
    apply List.ext_getElem?
    intro i
    rw [healthChecks_getElem?]
    by_cases hlt : i < (r.filterIngressRulesByHost ingress.Spec.Rules).length
    · have hr := List.getElem?_eq_getElem hlt
      rw [hr]
      simp [hhealthy i _ hr, List.getElem?_replicate, hlt]
    · have hr : (r.filterIngressRulesByHost ingress.Spec.Rules)[i]? = none :=
        List.getElem?_eq_none (by omega)
      rw [hr]
      simp [List.getElem?_replicate, hlt]
  obtain ⟨ep, hep, heps⟩ := newDnsEndpoint_endpoints r rt Store dnsEndpoint target ingress owner
    _ (by simp [hnoann]) hhs
  refine ⟨ep, hep, ?_, ?_⟩
  · rw [heps, List.length_zipWith, runningWeights_length]
    simp
  · intro e he
    rw [heps, runningWeights_all_true _ (by simp)] at he
    obtain ⟨i, hi⟩ := List.mem_iff_getElem?.1 he
    obtain ⟨rule, w, _, hw, rfl⟩ := List.getElem?_zipWith_eq_some.1 hi
    rw [awsWeight_ruleEndpoint]
    have hw' : w = uintOfInt Store.DesiredWeight := by
      rw [List.getElem?_replicate] at hw
      split at hw
      · simpa [hnoann] using hw.symm
      · cases hw
    rw [hw', uintOfInt_of_nonneg _ h0 h1]

/-- C7 at a route without override, desired weight 150 and one healthy rule. -/
theorem newDnsEndpoint_unweighted_raw_witness :
    ∃ ep, sampleReconciler.newDnsEndpoint sampleRuntime ⟨150, 150, ""⟩ emptyDNSEndpoint
        "bar-celona" (sampleIngress none [sampleRule "b.foo.io" ["web"]]) sampleOwner = some ep
      ∧ ep.Spec.Endpoints.length = (sampleReconciler.filterIngressRulesByHost
          (sampleIngress none [sampleRule "b.foo.io" ["web"]]).Spec.Rules).length
      ∧ ∀ e ∈ ep.Spec.Endpoints,
          e.awsWeight = some (FormatUint (StoreConfig.mk 150 150 "").DesiredWeight.toNat) :=
  newDnsEndpoint_unweighted_raw sampleReconciler sampleRuntime ⟨150, 150, ""⟩ emptyDNSEndpoint
    "bar-celona" (sampleIngress none [sampleRule "b.foo.io" ["web"]]) sampleOwner
    (by decide) (by decide) (by decide)
    (by
      intro i rule hi
      cases i with
      | zero =>
        simp only [IngressReconciler.filterIngressRulesByHost, sampleIngress] at hi
        cases hi
        decide
      | succ k => cases hi)

/-! ## The weight reconcile loop -/

theorem sendEvents_spec (items : List Ingress) :
    ∀ events, ∃ sent, sendEvents items events = events ++ sent ∧ sent.length = items.length
      ∧ ∀ (i : Nat) (ing : Ingress), items[i]? = some ing → ∃ ev, sent[i]? = some ev
          ∧ ev.Object.ObjectMeta.Namespace = ing.ObjectMeta.Namespace
          ∧ ev.Object.ObjectMeta.Name = ing.ObjectMeta.Name := by
  induction items with
  | nil => intro events; exact ⟨[], by simp [sendEvents], rfl, by simp⟩
  | cons item rest ih =>
    intro events
    obtain ⟨sent, hs, hl, hi⟩ := ih (events ++ [⟨⟨"", "", item.ObjectMeta, ⟨[]⟩, ⟨⟨[]⟩⟩⟩⟩])
    refine ⟨⟨⟨"", "", item.ObjectMeta, ⟨[]⟩, ⟨⟨[]⟩⟩⟩⟩ :: sent, ?_, by simp [hl], ?_⟩
    · simp only [sendEvents]
      rw [hs]
      simp
    · intro i ing h
      cases i with
      | zero =>
        simp only [List.getElem?_cons_zero, Option.some.injEq] at h
        subst h
        exact ⟨⟨⟨"", "", item.ObjectMeta, ⟨[]⟩, ⟨⟨[]⟩⟩⟩⟩, List.getElem?_cons_zero, rfl, rfl⟩
      | succ j =>
        simp only [List.getElem?_cons_succ] at h
        simpa using hi j ing h

theorem enqueueReconcileEvents_ok (events : List GenericEvent) (c : Cache)
    (items : List Ingress) (h : c.List = .ok items) :
    ∃ sent, enqueueReconcileEvents events c = (none, events ++ sent)
      ∧ sent.length = items.length
      ∧ ∀ (i : Nat) (ing : Ingress), items[i]? = some ing → ∃ ev, sent[i]? = some ev
          ∧ ev.Object.ObjectMeta.Namespace = ing.ObjectMeta.Namespace
          ∧ ev.Object.ObjectMeta.Name = ing.ObjectMeta.Name := by
  obtain ⟨sent, hs, hl, hi⟩ := sendEvents_spec items events
  exact ⟨sent, by simp [enqueueReconcileEvents, h, hs], hl, hi⟩

/-- C10: when the cache lists `items`, `enqueueReconcileEvents` returns nil and sends exactly
`items.length` events, the `i`-th carrying the namespace and the name of the `i`-th item; when
listing fails it sends nothing and returns the error. -/
theorem enqueueReconcileEvents_one_per_route (events : List GenericEvent) (c : Cache) :
    (∀ items, c.List = .ok items →
      ∃ sent, enqueueReconcileEvents events c = (none, events ++ sent)
        ∧ sent.length = items.length
        ∧ ∀ (i : Nat) (ing : Ingress), items[i]? = some ing → ∃ ev, sent[i]? = some ev
            ∧ ev.Object.ObjectMeta.Namespace = ing.ObjectMeta.Namespace
            ∧ ev.Object.ObjectMeta.Name = ing.ObjectMeta.Name)
    ∧ (∀ err, c.List = .error err → enqueueReconcileEvents events c = (some err, events)) := by
  constructor
  · intro items h
    exact enqueueReconcileEvents_ok events c items h
  · intro err h
    simp [enqueueReconcileEvents, h]

/-- C10 at a cache listing two routes. -/
theorem enqueueReconcileEvents_one_per_route_witness :
    (∀ items, sampleCache.List = .ok items →
      ∃ sent, enqueueReconcileEvents [] sampleCache = (none, [] ++ sent)
        ∧ sent.length = items.length
        ∧ ∀ (i : Nat) (ing : Ingress), items[i]? = some ing → ∃ ev, sent[i]? = some ev
            ∧ ev.Object.ObjectMeta.Namespace = ing.ObjectMeta.Namespace
            ∧ ev.Object.ObjectMeta.Name = ing.ObjectMeta.Name)
    ∧ (∀ err, sampleCache.List = .error err →
        enqueueReconcileEvents [] sampleCache = (some err, [])) :=
  enqueueReconcileEvents_one_per_route [] sampleCache

/-- C8: when `ReadWeight` returns a weight `w` different from `Store.CurrentWeight`, the cache
lists `items` and `OnWeightUpdate` succeeds, `doReconcile` returns nil, leaves
`Store.DesiredWeight = Store.CurrentWeight = w`, has sent exactly one event per item, in
order, and has called `OnWeightUpdate` exactly once, with a config whose `CurrentWeight` is
`w`. -/
theorem doReconcile_weight_change {σ : Type} (backend : TrafficWeightBackend σ) (c : Cache)
    (s : LoopState σ) (w : Int) (items : List Ingress) (st : σ)
    (hread : backend.ReadWeight s.backend s.Store = ((w, none), st))
    (hne : w ≠ s.Store.CurrentWeight)
    (hlist : c.List = .ok items)
    (hupd : (backend.OnWeightUpdate st
      { s.Store with DesiredWeight := w, CurrentWeight := w }).1 = none) :
    ∃ s', doReconcile backend c s = (none, s')
      ∧ s'.Store.DesiredWeight = w ∧ s'.Store.CurrentWeight = w
      ∧ (∃ sent, s'.events = s.events ++ sent ∧ sent.length = items.length
          ∧ ∀ (i : Nat) (ing : Ingress), items[i]? = some ing → ∃ ev, sent[i]? = some ev
              ∧ ev.Object.ObjectMeta.Namespace = ing.ObjectMeta.Namespace
              ∧ ev.Object.ObjectMeta.Name = ing.ObjectMeta.Name)
      ∧ (∃ cfg, s'.updates = s.updates ++ [cfg] ∧ cfg.CurrentWeight = w) := by
  obtain ⟨sent, hs, hl, hi⟩ := enqueueReconcileEvents_ok s.events c items hlist
  have hne' : s.Store.CurrentWeight ≠ w := fun h => hne h.symm
  rcases hu : backend.OnWeightUpdate st { s.Store with DesiredWeight := w, CurrentWeight := w }
    with ⟨err, st2⟩
  rw [hu] at hupd
  simp only at hupd
  subst hupd
  refine ⟨⟨{ s.Store with DesiredWeight := w, CurrentWeight := w }, st2, s.events ++ sent,
    s.updates ++ [{ s.Store with DesiredWeight := w, CurrentWeight := w }]⟩,
    ?_, ?_, ?_, ⟨sent, ?_, hl, hi⟩,
    ⟨{ s.Store with DesiredWeight := w, CurrentWeight := w }, ?_, rfl⟩⟩
  · unfold doReconcile
    simp only [hread, hne', ne_eq, not_false_eq_true, if_true, hs, hu]
  · rfl
  · rfl
  · rfl
  · rfl

/-- C8 at current weight 50 and a store holding 80. -/
theorem doReconcile_weight_change_witness :
    ∃ s', doReconcile testBackend sampleCache (sampleLoopState 80) = (none, s')
      ∧ s'.Store.DesiredWeight = 80 ∧ s'.Store.CurrentWeight = 80
      ∧ (∃ sent, s'.events = (sampleLoopState 80).events ++ sent
          ∧ sent.length = [namedIngress "bar" "foo", namedIngress "baz" "qux"].length
          ∧ ∀ (i : Nat) (ing : Ingress), [namedIngress "bar" "foo", namedIngress "baz" "qux"][i]? = some ing →
              ∃ ev, sent[i]? = some ev
              ∧ ev.Object.ObjectMeta.Namespace = ing.ObjectMeta.Namespace
              ∧ ev.Object.ObjectMeta.Name = ing.ObjectMeta.Name)
      ∧ (∃ cfg, s'.updates = (sampleLoopState 80).updates ++ [cfg] ∧ cfg.CurrentWeight = 80) :=
  doReconcile_weight_change testBackend sampleCache (sampleLoopState 80) 80
    [namedIngress "bar" "foo", namedIngress "baz" "qux"] ⟨80, 0, none⟩ rfl (by decide) rfl rfl

theorem doReconcile_nil_current {σ : Type} (backend : TrafficWeightBackend σ) (c : Cache)
    (s s1 : LoopState σ) (v : Int) (st : σ)
    (hread : backend.ReadWeight s.backend s.Store = ((v, none), st))
    (hnil : doReconcile backend c s = (none, s1)) : s1.Store.CurrentWeight = v := by
  unfold doReconcile at hnil
  simp only [hread] at hnil
  by_cases hcur : s.Store.CurrentWeight = v
  · simp only [hcur, ne_eq, not_true_eq_false, if_false, Prod.mk.injEq, true_and] at hnil
    rw [← hnil]
    exact hcur
  · simp only [hcur, ne_eq, not_false_eq_true, if_true] at hnil
    rcases he : enqueueReconcileEvents s.events c with ⟨err, events⟩
    rw [he] at hnil
    cases err with
    | some e => simp at hnil
    | none =>
      simp only [Prod.mk.injEq] at hnil
      rw [← hnil.2]

/-- C9: when `ReadWeight` fails, or returns the value of `Store.CurrentWeight`, `doReconcile`
returns the read error (nil in the second case) and changes neither `Store` nor the events
sent nor the calls of `OnWeightUpdate`. The same holds when the call comes right after a
`doReconcile` that returned nil and `ReadWeight` returns the weight it returned then. -/
theorem doReconcile_idle {σ : Type} (backend : TrafficWeightBackend σ) (c : Cache)
    (s : LoopState σ) (v : Int) (err : Option Error) (st : σ)
    (hread : backend.ReadWeight s.backend s.Store = ((v, err), st))
    (hidle : err ≠ none ∨ v = s.Store.CurrentWeight
      ∨ (err = none ∧ ∃ (c0 : Cache) (s0 : LoopState σ) (st0 : σ),
          backend.ReadWeight s0.backend s0.Store = ((v, none), st0)
          ∧ doReconcile backend c0 s0 = (none, s))) :
    doReconcile backend c s = (err, { s with backend := st }) := by
  cases err with
  | some e =>
    unfold doReconcile
    simp only [hread]
  | none =>
    have hv : s.Store.CurrentWeight = v := by
      rcases hidle with h | h | ⟨_, c0, s0, st0, h0, h1⟩
      · exact absurd rfl h
      · exact h.symm
      · exact doReconcile_nil_current backend c0 s0 s v st0 h0 h1
    unfold doReconcile
    simp only [hread, hv, ne_eq, not_true_eq_false, if_false]

/-- C9 at the state left by a `doReconcile` that moved the current weight from 50 to 80, the
store still holding 80. -/
theorem doReconcile_idle_witness :
    doReconcile testBackend sampleCache afterChange
      = (none, { afterChange with backend := ⟨80, 1, none⟩ }) :=
  doReconcile_idle testBackend sampleCache afterChange 80 none ⟨80, 1, none⟩ rfl
    (Or.inr (Or.inr ⟨rfl, sampleCache, sampleLoopState 80, ⟨80, 0, none⟩, rfl, rfl⟩))

/-! ## `Reconcile` and `reconcileDNSEntries` -/

theorem deleteDNSEndpoint_spec (c : Cluster) (key : NamespacedName)
    (hfault : c.fault .deleteDNSEndpoint = none) :
    IgnoreNotFound (c.deleteDNSEndpoint key).1 = none
    ∧ (c.deleteDNSEndpoint key).2.dnsEndpoints
        = c.dnsEndpoints.filter (fun ep => !decide (ep.ObjectMeta.key = key))
    ∧ (c.deleteDNSEndpoint key).2.ingresses = c.ingresses := by
  unfold Cluster.deleteDNSEndpoint
  simp only [hfault]
  split
  · exact ⟨rfl, rfl, rfl⟩
  · rename_i hany
    refine ⟨rfl, ?_, rfl⟩
    simp only
    symm
    apply List.filter_eq_self.2
    intro ep hep
    simp only [Bool.not_eq_true, List.any_eq_true, decide_eq_true_eq, not_exists, not_and] at hany
    simpa using hany ep hep

/-- C11: when the route of a request no longer exists (its `Get` reports not-found) and the
server carries out the delete call, `Reconcile` returns an empty result and no error, whether
or not a record with the key of the request exists; afterwards the records are those of
before without the ones having exactly that namespace and name, in the same order and
unchanged, and the routes are as before. -/
theorem Reconcile_route_gone (r : IngressReconciler) (rt : GoRuntime) (Store : StoreConfig)
    (c : Cluster) (req : NamespacedName)
    (hgone : c.getIngress req = .error .notFound)
    (hfault : c.fault .deleteDNSEndpoint = none) :
    ∃ c', r.Reconcile rt Store c req = some ((⟨false, 0⟩, none), c')
      ∧ c'.dnsEndpoints = c.dnsEndpoints.filter (fun ep => !decide (ep.ObjectMeta.key = req))
      ∧ (∀ ep ∈ c.dnsEndpoints,
          (ep.ObjectMeta.Namespace ≠ req.Namespace ∨ ep.ObjectMeta.Name ≠ req.Name) →
          ep ∈ c'.dnsEndpoints)
      ∧ (∀ ep ∈ c'.dnsEndpoints, ep ∈ c.dnsEndpoints ∧ ep.ObjectMeta.key ≠ req)
      ∧ c'.ingresses = c.ingresses := by
  obtain ⟨h1, h2, h3⟩ := deleteDNSEndpoint_spec c req hfault
  refine ⟨(c.deleteDNSEndpoint req).2, ?_, h2, ?_, ?_, h3⟩
  · unfold IngressReconciler.Reconcile
    simp only [hgone, ApiError.IsNotFound, if_true]
    rw [h1]
  · intro ep hep hne
    rw [h2]
    apply List.mem_filter.2
    refine ⟨hep, ?_⟩
    simp only [Bool.not_eq_true', decide_eq_false_iff_not]
    intro hk
    rcases hne with hne | hne
    · exact hne (by rw [← hk]; rfl)
    · exact hne (by rw [← hk]; rfl)
  · intro ep hep
    rw [h2] at hep
    obtain ⟨hm, hk⟩ := List.mem_filter.1 hep
    exact ⟨hm, by simpa using hk⟩

/-- C11 at a server holding `namespace1/ingress-name` and `namespace2/ingress-name`, for the
request `namespace1/ingress-name`. -/
theorem Reconcile_route_gone_witness :
    ∃ c', sampleReconciler.Reconcile sampleRuntime ⟨50, 50, ""⟩ twoRecordCluster
        ⟨"namespace1", "ingress-name"⟩ = some ((⟨false, 0⟩, none), c')
      ∧ c'.dnsEndpoints = twoRecordCluster.dnsEndpoints.filter
          (fun ep => !decide (ep.ObjectMeta.key = ⟨"namespace1", "ingress-name"⟩))
      ∧ (∀ ep ∈ twoRecordCluster.dnsEndpoints,
          (ep.ObjectMeta.Namespace ≠ "namespace1" ∨ ep.ObjectMeta.Name ≠ "ingress-name") →
          ep ∈ c'.dnsEndpoints)
      ∧ (∀ ep ∈ c'.dnsEndpoints, ep ∈ twoRecordCluster.dnsEndpoints
          ∧ ep.ObjectMeta.key ≠ ⟨"namespace1", "ingress-name"⟩)
      ∧ c'.ingresses = twoRecordCluster.ingresses :=
  Reconcile_route_gone sampleReconciler sampleRuntime ⟨50, 50, ""⟩ twoRecordCluster
    ⟨"namespace1", "ingress-name"⟩ rfl rfl

/-- C12: when the route of the request exists and is not being deleted, and the record with
the route's namespace and name is read and is marked for deletion, `Reconcile` returns
`Requeue` with `RequeueAfter` of five seconds and no error, and the server is left as it was:
no record is created, updated or deleted. -/
theorem Reconcile_record_being_deleted (r : IngressReconciler) (rt : GoRuntime)
    (Store : StoreConfig) (c : Cluster) (req : NamespacedName) (ingress : Ingress)
    (ep : DNSEndpoint)
    (hroute : c.getIngress req = .ok ingress)
    (hlive : Time.IsZero ingress.ObjectMeta.DeletionTimestamp = true)
    (hrecord : c.getDNSEndpoint ⟨ingress.ObjectMeta.Namespace, ingress.ObjectMeta.Name⟩ = .ok ep)
    (hdeleting : Time.IsZero ep.ObjectMeta.DeletionTimestamp = false) :
    r.Reconcile rt Store c req = some ((⟨true, 5 * 1000000000⟩, none), c) := by
  unfold IngressReconciler.Reconcile
  simp only [hroute, hlive, if_true, IngressReconciler.endpointBeingDeleted, hrecord, hdeleting,
    Bool.not_false, Second]

/-- C12 at a server holding the route `tests/bar` and its record marked for deletion. -/
theorem Reconcile_record_being_deleted_witness :
    sampleReconciler.Reconcile sampleRuntime ⟨50, 50, ""⟩ deletingRecordCluster ⟨"tests", "bar"⟩
      = some ((⟨true, 5 * 1000000000⟩, none), deletingRecordCluster) :=
  Reconcile_record_being_deleted sampleReconciler sampleRuntime ⟨50, 50, ""⟩
    deletingRecordCluster ⟨"tests", "bar"⟩ (sampleIngress none [sampleRule "b.foo.io" ["web"]])
    _ rfl rfl rfl rfl

/-- C13: `getTargetFromIngress` returns `"devmode"` in dev mode, else fails exactly when the
load-balancer status lists no address and otherwise returns the hostname of the first one.
When the route lacks the pair of a non-empty annotation filter, or when it has no target,
`reconcileDNSEntries` returns nil and leaves the server as it was: no record is created,
updated or deleted. -/
theorem reconcileDNSEntries_skips (r : IngressReconciler) (rt : GoRuntime) (Store : StoreConfig)
    (c : Cluster) (ingress : Ingress) (ownerRef : OwnerReference) :
    (r.DevMode = true → r.getTargetFromIngress ingress = ("devmode", none))
    ∧ (r.DevMode = false →
        (((r.getTargetFromIngress ingress).2.isSome = true
            ↔ ingress.Status.LoadBalancer.Ingress = [])
          ∧ ∀ first rest, ingress.Status.LoadBalancer.Ingress = first :: rest →
              r.getTargetFromIngress ingress = (first.Hostname, none)))
    ∧ (((r.AnnotationFilter ≠ ⟨"", ""⟩
            ∧ (r.AnnotationFilter.key, r.AnnotationFilter.value)
                ∉ ingress.ObjectMeta.Annotations.getD [])
          ∨ (r.DevMode = false ∧ ingress.Status.LoadBalancer.Ingress = [])) →
        r.reconcileDNSEntries rt Store c ingress ownerRef = some (none, c)) := by
  refine ⟨?_, ?_, ?_⟩
  · intro hd
    simp [IngressReconciler.getTargetFromIngress, hd]
  · intro hd
    unfold IngressReconciler.getTargetFromIngress
    simp only [hd, Bool.false_eq_true, if_false]
    cases hl : ingress.Status.LoadBalancer.Ingress with
    | nil => simp
    | cons first rest => simp
  · intro h
    unfold IngressReconciler.reconcileDNSEntries
    by_cases hm : r.ingressAnnotationMatchFilter ingress = true
    · rcases h with ⟨hne, hnot⟩ | ⟨hd, hl⟩
      · exfalso
        unfold IngressReconciler.ingressAnnotationMatchFilter at hm
        have hne' : ¬ ((⟨"", ""⟩ : annotationFilter) = r.AnnotationFilter) := fun h => hne h.symm
        simp only [hne', if_false, IngressReconciler.ingressHasAnnotationKeyValue,
          List.any_eq_true, Bool.and_eq_true, beq_iff_eq] at hm
        obtain ⟨kv, hkv, hk, hv⟩ := hm
        apply hnot
        have : kv = (r.AnnotationFilter.key, r.AnnotationFilter.value) := by
          rw [← hk, ← hv]
        rw [← this]
        exact hkv
      · simp [hm, IngressReconciler.getTargetFromIngress, hd, hl]
    · simp [hm]

/-- C13 at the route `tests/bar` without annotations and a reconciler filtering on
`foo=notbar`. -/
theorem reconcileDNSEntries_skips_witness :
    filteringReconciler.reconcileDNSEntries sampleRuntime ⟨50, 50, ""⟩ twoRecordCluster
        (sampleIngress none [sampleRule "b.foo.io" ["web"]]) sampleOwner
      = some (none, twoRecordCluster) :=
  (reconcileDNSEntries_skips filteringReconciler sampleRuntime ⟨50, 50, ""⟩ twoRecordCluster
    (sampleIngress none [sampleRule "b.foo.io" ["web"]]) sampleOwner).2.2
    (Or.inl ⟨by decide, by decide⟩)

/-! ## The shape of the record -/

/-- The object returned by `newDnsEndpoint` in closed form, when the weight calculation does
not fail and the health check returns `hs` for the bound rules. -/
theorem newDnsEndpoint_eq (r : IngressReconciler) (rt : GoRuntime) (Store : StoreConfig)
    (dnsEndpoint : DNSEndpoint) (target : String) (ingress : Ingress) (owner : OwnerReference)
    (hs : List Bool)
    (hcalc : r.isIngressWeighted ingress = true →
      (r.calculateIngressWeight rt Store ingress).2 = none)
    (hhs : r.healthChecks ingress.ObjectMeta.Namespace rt
      (r.filterIngressRulesByHost ingress.Spec.Rules) = hs.map some) :
    r.newDnsEndpoint rt Store dnsEndpoint target ingress owner = some
      { ObjectMeta :=
          { dnsEndpoint.ObjectMeta with
            Name := ingress.ObjectMeta.Name
            Namespace := ingress.ObjectMeta.Namespace
            OwnerReferences := [owner]
            Annotations :=
              if r.isIngressWeighted ingress = true ∧ dnsEndpoint.ObjectMeta.Annotations.len = 0
              then some [] else dnsEndpoint.ObjectMeta.Annotations }
        Spec := ⟨List.zipWith
          (r.ruleEndpoint target (if Store.AWSHealthCheckID ≠ "" then
            some ⟨"aws/health-check-id", Store.AWSHealthCheckID⟩ else none))
          (r.filterIngressRulesByHost ingress.Spec.Rules)
          (runningWeights
            (if r.isIngressWeighted ingress = true then
              (r.calculateIngressWeight rt Store ingress).1
             else uintOfInt Store.DesiredWeight) hs)⟩ } := by
  unfold IngressReconciler.newDnsEndpoint
  by_cases hw : r.isIngressWeighted ingress = true
  · have hc := hcalc hw
    simp only [hw, if_true, true_and]
    rcases hcw : r.calculateIngressWeight rt Store ingress with ⟨w, err⟩
    rw [hcw] at hc
    simp only at hc
    subst hc
    simp only
    split <;> rename_i hlen <;>
      simp [endpointsLoop_eq r _ target _ _ rt hs _ [] hhs, hlen]
  · simp only [hw, Bool.false_eq_true, if_false, false_and]
    simp [endpointsLoop_eq r _ target _ _ rt hs _ [] hhs]

theorem runningWeights_mem (hs : List Bool) :
    ∀ (w x : Nat), x ∈ runningWeights w hs → x = 0 ∨ x = w := by
  induction hs with
  | nil => intro w x h; simp [runningWeights] at h
  | cons b bs ih =>
    intro w x h
    simp only [runningWeights, List.mem_cons] at h
    rcases h with h | h
    · cases b <;> simp_all
    · have := ih _ _ h
      cases b <;> simp_all

/-- C14: when the weight calculation does not fail and the health check returns for every
bound rule, `newDnsEndpoint` returns a record with the name and namespace of the route and
the owner reference passed in as its only one; it has exactly one entry per bound rule, in
rule order, and the entry of a rule has the host of the rule as `DNSName`, `[target]` as
targets, record type `"CNAME"`, the cluster name as set identifier, and as provider-specific
properties `aws/weight` with the decimal string of a weight (0 or the effective weight),
followed by `aws/health-check-id` exactly when the health-check identifier is not empty. -/
theorem newDnsEndpoint_shape (r : IngressReconciler) (rt : GoRuntime) (Store : StoreConfig)
    (dnsEndpoint : DNSEndpoint) (target : String) (ingress : Ingress) (owner : OwnerReference)
    (hcalc : r.isIngressWeighted ingress = true →
      (r.calculateIngressWeight rt Store ingress).2 = none)
    (hreturns : ∀ bound ∈ r.filterIngressRulesByHost ingress.Spec.Rules,
      (r.ingressRuleHasPods rt ingress.ObjectMeta.Namespace bound).isSome = true) :
    ∃ ep, r.newDnsEndpoint rt Store dnsEndpoint target ingress owner = some ep
      ∧ ep.ObjectMeta.Name = ingress.ObjectMeta.Name
      ∧ ep.ObjectMeta.Namespace = ingress.ObjectMeta.Namespace
      ∧ ep.ObjectMeta.OwnerReferences = [owner]
      ∧ ep.Spec.Endpoints.length = (r.filterIngressRulesByHost ingress.Spec.Rules).length
      ∧ ∀ (i : Nat) (rule : IngressRule),
          (r.filterIngressRulesByHost ingress.Spec.Rules)[i]? = some rule →
          ∃ (e : Endpoint) (w : Nat), ep.Spec.Endpoints[i]? = some e
            ∧ e.DNSName = rule.Host ∧ e.Targets = [target] ∧ e.RecordType = "CNAME"
            ∧ e.SetIdentifier = r.ClusterName
            ∧ (w = 0 ∨ w = (if r.isIngressWeighted ingress = true then
                  (r.calculateIngressWeight rt Store ingress).1
                else uintOfInt Store.DesiredWeight))
            ∧ e.ProviderSpecific =
                (if Store.AWSHealthCheckID ≠ "" then
                  [⟨"aws/weight", FormatUint w⟩,
                   ⟨"aws/health-check-id", Store.AWSHealthCheckID⟩]
                 else [⟨"aws/weight", FormatUint w⟩]) := by
  obtain ⟨hs, hhs⟩ := exists_healths_of_isSome r _ _ rt (fun j bound hj => by
    rw [ingressRuleHasPods_isSome r (rt.after j) rt]
    exact hreturns bound (List.mem_iff_getElem?.2 ⟨j, hj⟩))
  have hlen : hs.length = (r.filterIngressRulesByHost ingress.Spec.Rules).length := by
    have := congrArg List.length hhs
    simpa [healthChecks_length] using this.symm
  refine ⟨_, newDnsEndpoint_eq r rt Store dnsEndpoint target ingress owner hs hcalc hhs,
    rfl, rfl, rfl, ?_, ?_⟩
  · simp [List.length_zipWith, runningWeights_length, hlen]
  · intro i rule hrule
    have hi : i < (runningWeights
        (if r.isIngressWeighted ingress = true then (r.calculateIngressWeight rt Store ingress).1
          else uintOfInt Store.DesiredWeight) hs).length := by
      rw [runningWeights_length, hlen]
      exact (List.getElem?_eq_some.1 hrule).1
    obtain ⟨w, hw⟩ : ∃ w, (runningWeights
        (if r.isIngressWeighted ingress = true then (r.calculateIngressWeight rt Store ingress).1
          else uintOfInt Store.DesiredWeight) hs)[i]? = some w :=
      ⟨_, List.getElem?_eq_getElem hi⟩
    have hmem := runningWeights_mem hs _ w (List.mem_iff_getElem?.2 ⟨i, hw⟩)
    refine ⟨r.ruleEndpoint target (if Store.AWSHealthCheckID ≠ "" then
      some ⟨"aws/health-check-id", Store.AWSHealthCheckID⟩ else none) rule w, w, ?_, rfl, rfl,
      rfl, rfl, hmem, ?_⟩
    · simp only
      rw [List.getElem?_zipWith_eq_some]
      exact ⟨rule, w, hrule, hw, rfl⟩
    · by_cases hid : Store.AWSHealthCheckID = ""
      · simp [IngressReconciler.ruleEndpoint, hid]
      · simp [IngressReconciler.ruleEndpoint, hid]

/-- C14 at a route with two healthy bound rules and the health-check identifier
`one-healthcheck-id`. -/
theorem newDnsEndpoint_shape_witness :
    ∃ ep, sampleReconciler.newDnsEndpoint sampleRuntime ⟨50, 50, "one-healthcheck-id"⟩
        emptyDNSEndpoint "bar-celona"
        (sampleIngress none [sampleRule "a.foo.io" ["web"], sampleRule "b.foo.io" ["web"]])
        sampleOwner = some ep
      ∧ ep.ObjectMeta.Name = "bar" ∧ ep.ObjectMeta.Namespace = "tests"
      ∧ ep.ObjectMeta.OwnerReferences = [sampleOwner]
      ∧ ep.Spec.Endpoints.length = (sampleReconciler.filterIngressRulesByHost
          [sampleRule "a.foo.io" ["web"], sampleRule "b.foo.io" ["web"]]).length
      ∧ ∀ (i : Nat) (rule : IngressRule),
          (sampleReconciler.filterIngressRulesByHost
            [sampleRule "a.foo.io" ["web"], sampleRule "b.foo.io" ["web"]])[i]? = some rule →
          ∃ (e : Endpoint) (w : Nat), ep.Spec.Endpoints[i]? = some e
            ∧ e.DNSName = rule.Host ∧ e.Targets = ["bar-celona"] ∧ e.RecordType = "CNAME"
            ∧ e.SetIdentifier = "foolanito"
            ∧ (w = 0 ∨ w = (if sampleReconciler.isIngressWeighted (sampleIngress none
                    [sampleRule "a.foo.io" ["web"], sampleRule "b.foo.io" ["web"]]) = true then
                  (sampleReconciler.calculateIngressWeight sampleRuntime
                    ⟨50, 50, "one-healthcheck-id"⟩ (sampleIngress none
                    [sampleRule "a.foo.io" ["web"], sampleRule "b.foo.io" ["web"]])).1
                else uintOfInt 50))
            ∧ e.ProviderSpecific =
                (if "one-healthcheck-id" ≠ "" then
                  [⟨"aws/weight", FormatUint w⟩,
                   ⟨"aws/health-check-id", "one-healthcheck-id"⟩]
                 else [⟨"aws/weight", FormatUint w⟩]) :=
  newDnsEndpoint_shape sampleReconciler sampleRuntime ⟨50, 50, "one-healthcheck-id"⟩
    emptyDNSEndpoint "bar-celona"
    (sampleIngress none [sampleRule "a.foo.io" ["web"], sampleRule "b.foo.io" ["web"]])
    sampleOwner (by decide) (by decide)

/-! ## `filterIngressRulesByHost` -/

theorem isSuffixOf_iff_append (a b : String) :
    a.toList.isSuffixOf b.toList = true ↔ ∃ pre : String, b = pre ++ a := by
  rw [List.isSuffixOf_iff_suffix]
  constructor
  · rintro ⟨t, ht⟩
    refine ⟨⟨t⟩, ?_⟩
    apply String.ext
    exact ht.symm
  · rintro ⟨pre, rfl⟩
    exact ⟨pre.toList, by simp⟩

/-- C15: `filterIngressRulesByHost` returns a sublist of the rules (each rule unchanged, in
the original relative order) in which a rule whose host is `pre ++ BindingDomain` for some
string `pre` occurs as often as in the input, and any other rule does not occur. -/
theorem filterIngressRulesByHost_spec (r : IngressReconciler) (rules : List IngressRule) :
    (r.filterIngressRulesByHost rules).Sublist rules
    ∧ ∀ rule : IngressRule,
        ((∃ pre : String, rule.Host = pre ++ r.BindingDomain) →
          (r.filterIngressRulesByHost rules).count rule = rules.count rule)
        ∧ ((¬ ∃ pre : String, rule.Host = pre ++ r.BindingDomain) →
          rule ∉ r.filterIngressRulesByHost rules) := by
  unfold IngressReconciler.filterIngressRulesByHost
  refine ⟨List.filter_sublist _, fun rule => ⟨?_, ?_⟩⟩
  · intro h
    rw [List.count_filter]
    exact (isSuffixOf_iff_append _ _).2 h
  · intro h hmem
    exact h ((isSuffixOf_iff_append _ _).1 (List.mem_filter.1 hmem).2)

/-- C15 at the rule `zero.foo.io` and the binding domain `foo.io`. -/
theorem filterIngressRulesByHost_spec_witness :
    (sampleReconciler.filterIngressRulesByHost
        [sampleRule "zero.foo.io" [], sampleRule "hello.bar.com" []]).count
        (sampleRule "zero.foo.io" [])
      = [sampleRule "zero.foo.io" [], sampleRule "hello.bar.com" []].count
        (sampleRule "zero.foo.io" []) :=
  ((filterIngressRulesByHost_spec sampleReconciler
    [sampleRule "zero.foo.io" [], sampleRule "hello.bar.com" []]).2
    (sampleRule "zero.foo.io" [])).1 ⟨"zero.", by decide⟩

/-! ## The order of rounded values -/

theorem F64.scaled_pos (num den : Nat) (q : Int) (hden : 0 < den) :
    0 < (F64.scaled num den q).2 := by
  cases q with
  | ofNat k => exact Nat.mul_pos hden (Nat.pow_pos (by decide))
  | negSucc k => exact hden

theorem F64.scaled_val (num den : Nat) (q : Int) (hden : 0 < den) :
    ((F64.scaled num den q).1 : ℚ) / ((F64.scaled num den q).2 : ℚ)
      = (num : ℚ) / (den : ℚ) / (2 : ℚ) ^ q := by
  have hd : (den : ℚ) ≠ 0 := by exact_mod_cast hden.ne'
  cases q with
  | ofNat k =>
    simp only [F64.scaled, Int.ofNat_eq_coe, zpow_natCast]
    push_cast
    field_simp
  | negSucc k =>
    simp only [F64.scaled, zpow_negSucc]
    push_cast
    field_simp

theorem F64.roundHalfEven_cases (n d : Nat) :
    F64.roundHalfEven n d = n / d ∨ F64.roundHalfEven n d = n / d + 1 := by
  unfold F64.roundHalfEven
  dsimp only
  split <;> simp

theorem F64.div_add_mod_cast (n d : Nat) (hd : 0 < d) :
    (n : ℚ) / d = ((n / d : Nat) : ℚ) + ((n % d : Nat) : ℚ) / d := by
  have hd' : (d : ℚ) ≠ 0 := by exact_mod_cast hd.ne'
  have h := Nat.div_add_mod n d
  have h2 : (n : ℚ) = (d : ℚ) * ((n / d : Nat) : ℚ) + ((n % d : Nat) : ℚ) := by
    exact_mod_cast h.symm
  field_simp
  linarith

/-- The rounded integer is within one half of the quotient. -/
theorem F64.roundHalfEven_near (n d : Nat) (hd : 0 < d) :
    (n : ℚ) / d - 1 / 2 ≤ (F64.roundHalfEven n d : ℚ)
    ∧ (F64.roundHalfEven n d : ℚ) ≤ (n : ℚ) / d + 1 / 2 := by
  have hq := F64.div_add_mod_cast n d hd
  have hd' : (0 : ℚ) < d := by exact_mod_cast hd
  have hr0 : (0 : ℚ) ≤ ((n % d : Nat) : ℚ) / d := by positivity
  have hr1 : ((n % d : Nat) : ℚ) / d < 1 := by
    rw [div_lt_one hd']
    exact_mod_cast Nat.mod_lt n hd
  unfold F64.roundHalfEven
  dsimp only
  split
  · rename_i h
    have h2 : (d : ℚ) ≤ 2 * ((n % d : Nat) : ℚ) := by
      rcases h with h | ⟨h, _⟩
      · exact_mod_cast h.le
      · exact_mod_cast h.ge
    have h3 : (1 : ℚ) / 2 ≤ ((n % d : Nat) : ℚ) / d := by
      rw [le_div_iff₀ hd']
      linarith
    push_cast
    constructor <;> linarith
  · rename_i h
    have h2 : 2 * ((n % d : Nat) : ℚ) ≤ (d : ℚ) := by
      have : 2 * (n % d) ≤ d := by
        by_contra hc
        exact h (Or.inl (by omega))
      exact_mod_cast this
    have h3 : ((n % d : Nat) : ℚ) / d ≤ 1 / 2 := by
      rw [div_le_iff₀ hd']
      linarith
    constructor <;> linarith

/-- At a tie the rounded integer is the even neighbour. -/
theorem F64.roundHalfEven_tie (n d c : Nat) (hd : 0 < d)
    (hx : (n : ℚ) / d = (c : ℚ) + 1 / 2) :
    F64.roundHalfEven n d = if c % 2 = 1 then c + 1 else c := by
  have hq := F64.div_add_mod_cast n d hd
  have hd' : (0 : ℚ) < d := by exact_mod_cast hd
  have hr0 : (0 : ℚ) ≤ ((n % d : Nat) : ℚ) / d := by positivity
  have hr1 : ((n % d : Nat) : ℚ) / d < 1 := by
    rw [div_lt_one hd']
    exact_mod_cast Nat.mod_lt n hd
  have h1 : ((n / d : Nat) : ℚ) < (c : ℚ) + 1 := by linarith
  have h2 : (c : ℚ) < ((n / d : Nat) : ℚ) + 1 := by linarith
  have h1' : n / d < c + 1 := by exact_mod_cast h1
  have h2' : c < n / d + 1 := by exact_mod_cast h2
  have hc : n / d = c := by omega
  have hr : ((n % d : Nat) : ℚ) / d = 1 / 2 := by
    rw [hc] at hq
    linarith
  have hr' : 2 * (n % d) = d := by
    have : 2 * ((n % d : Nat) : ℚ) = (d : ℚ) := by
      field_simp at hr
      linarith
    exact_mod_cast this
  unfold F64.roundHalfEven
  dsimp only
  rw [hc]
  simp only [hr', lt_irrefl, false_or, true_and]

/-- Rounding to the nearest integer is monotone in the quotient. -/
theorem F64.roundHalfEven_mono (n1 d1 n2 d2 : Nat) (hd1 : 0 < d1) (hd2 : 0 < d2)
    (h : (n1 : ℚ) / d1 ≤ (n2 : ℚ) / d2) :
    F64.roundHalfEven n1 d1 ≤ F64.roundHalfEven n2 d2 := by
  by_contra hlt
  have hlt' : F64.roundHalfEven n2 d2 + 1 ≤ F64.roundHalfEven n1 d1 := by omega
  have hq : ((F64.roundHalfEven n2 d2 : Nat) : ℚ) + 1 ≤ (F64.roundHalfEven n1 d1 : ℚ) := by
    exact_mod_cast hlt'
  obtain ⟨_, hu1⟩ := F64.roundHalfEven_near n1 d1 hd1
  obtain ⟨hl2, _⟩ := F64.roundHalfEven_near n2 d2 hd2
  have hx2 : (n2 : ℚ) / d2 = (F64.roundHalfEven n2 d2 : ℚ) + 1 / 2 := by linarith
  have hx1 : (n1 : ℚ) / d1 = (F64.roundHalfEven n2 d2 : ℚ) + 1 / 2 := by linarith
  have hm1 : (F64.roundHalfEven n1 d1 : ℚ) = (F64.roundHalfEven n2 d2 : ℚ) + 1 := by linarith
  have hm1' : F64.roundHalfEven n1 d1 = F64.roundHalfEven n2 d2 + 1 := by exact_mod_cast hm1
  have t1 := F64.roundHalfEven_tie n1 d1 _ hd1 hx1
  have t2 := F64.roundHalfEven_tie n2 d2 _ hd2 hx2
  by_cases hodd : F64.roundHalfEven n2 d2 % 2 = 1
  · rw [if_pos hodd] at t2
    omega
  · rw [if_neg hodd] at t1
    omega

theorem F64.lt_two_pow_log2Fuel (fuel : Nat) :
    ∀ n, n ≤ fuel → n < 2 ^ (F64.log2Fuel fuel n + 1) := by
  induction fuel with
  | zero => intro n hn; simp [F64.log2Fuel]; omega
  | succ k ih =>
    intro n hn
    unfold F64.log2Fuel
    split
    · simp; omega
    · have h2 : n / 2 ≤ k := by omega
      have := ih (n / 2) h2
      rw [pow_succ]
      omega

theorem F64.ilog2_bounds (n : Nat) (hn : 1 ≤ n) :
    2 ^ F64.ilog2 n ≤ n ∧ n < 2 ^ (F64.ilog2 n + 1) :=
  ⟨F64.two_pow_log2Fuel_le n n hn, F64.lt_two_pow_log2Fuel n n (le_refl n)⟩

/-- The test of `floorLog2` compares the quotient with the power of two. -/
theorem F64.scaled_le_iff (num den : Nat) (q : Int) (hden : 0 < den) :
    (F64.scaled num den q).2 ≤ (F64.scaled num den q).1
      ↔ (2 : ℚ) ^ q ≤ (num : ℚ) / den := by
  have hpos := F64.scaled_pos num den q hden
  have hpos' : (0 : ℚ) < ((F64.scaled num den q).2 : ℚ) := by exact_mod_cast hpos
  have h2 : (0 : ℚ) < (2 : ℚ) ^ q := by positivity
  have hv := F64.scaled_val num den q hden
  constructor
  · intro h
    have h' : ((F64.scaled num den q).2 : ℚ) ≤ ((F64.scaled num den q).1 : ℚ) := by
      exact_mod_cast h
    have h1 : (1 : ℚ) ≤ ((F64.scaled num den q).1 : ℚ) / ((F64.scaled num den q).2 : ℚ) := by
      rw [le_div_iff₀ hpos']
      linarith
    rw [hv, le_div_iff₀ h2] at h1
    linarith
  · intro h
    have h1 : (1 : ℚ) ≤ ((F64.scaled num den q).1 : ℚ) / ((F64.scaled num den q).2 : ℚ) := by
      rw [hv, le_div_iff₀ h2]
      linarith
    rw [le_div_iff₀ hpos'] at h1
    have h' : ((F64.scaled num den q).2 : ℚ) ≤ ((F64.scaled num den q).1 : ℚ) := by linarith
    exact_mod_cast h'

/-- The exponent computed by `floorLog2` brackets the quotient. -/
theorem F64.floorLog2_bounds (num den : Nat) (hnum : 1 ≤ num) (hden : 1 ≤ den) :
    (2 : ℚ) ^ (F64.floorLog2 num den) ≤ (num : ℚ) / den
    ∧ (num : ℚ) / den < (2 : ℚ) ^ (F64.floorLog2 num den + 1) := by
  obtain ⟨ha1, ha2⟩ := F64.ilog2_bounds num hnum
  obtain ⟨hb1, hb2⟩ := F64.ilog2_bounds den hden
  have hdq : (0 : ℚ) < den := by exact_mod_cast hden
  have ha1' : (2 : ℚ) ^ (F64.ilog2 num) ≤ num := by exact_mod_cast ha1
  have ha2' : (num : ℚ) < (2 : ℚ) ^ (F64.ilog2 num + 1) := by exact_mod_cast ha2
  have hb1' : (2 : ℚ) ^ (F64.ilog2 den) ≤ den := by exact_mod_cast hb1
  have hb2' : (den : ℚ) < (2 : ℚ) ^ (F64.ilog2 den + 1) := by exact_mod_cast hb2
  have hpa : (0 : ℚ) < (2 : ℚ) ^ (F64.ilog2 num) := by positivity
  have hpb : (0 : ℚ) < (2 : ℚ) ^ (F64.ilog2 den) := by positivity
  have hk0 : (2 : ℚ) ^ ((F64.ilog2 num : Int) - (F64.ilog2 den : Int))
      = (2 : ℚ) ^ (F64.ilog2 num) / (2 : ℚ) ^ (F64.ilog2 den) := by
    rw [zpow_sub₀ (by norm_num : (2 : ℚ) ≠ 0), zpow_natCast, zpow_natCast]
  have hup : (num : ℚ) / den
      < (2 : ℚ) ^ ((F64.ilog2 num : Int) - (F64.ilog2 den : Int) + 1) := by
    rw [zpow_add_one₀ (by norm_num : (2 : ℚ) ≠ 0), hk0, div_lt_iff₀ hdq]
    rw [pow_succ] at ha2'
    calc (num : ℚ) < (2 : ℚ) ^ (F64.ilog2 num) * 2 := ha2'
      _ = (2 : ℚ) ^ (F64.ilog2 num) / (2 : ℚ) ^ (F64.ilog2 den) * 2
            * (2 : ℚ) ^ (F64.ilog2 den) := by field_simp
      _ ≤ (2 : ℚ) ^ (F64.ilog2 num) / (2 : ℚ) ^ (F64.ilog2 den) * 2 * den := by
            apply mul_le_mul_of_nonneg_left hb1'
            positivity
  have hlow : (2 : ℚ) ^ ((F64.ilog2 num : Int) - (F64.ilog2 den : Int) - 1)
      ≤ (num : ℚ) / den := by
    rw [zpow_sub_one₀ (by norm_num : (2 : ℚ) ≠ 0), hk0, le_div_iff₀ hdq]
    rw [pow_succ] at hb2'
    calc (2 : ℚ) ^ (F64.ilog2 num) / (2 : ℚ) ^ (F64.ilog2 den) * 2⁻¹ * den
        ≤ (2 : ℚ) ^ (F64.ilog2 num) / (2 : ℚ) ^ (F64.ilog2 den) * 2⁻¹
            * ((2 : ℚ) ^ (F64.ilog2 den) * 2) := by
            apply mul_le_mul_of_nonneg_left hb2'.le
            positivity
      _ = (2 : ℚ) ^ (F64.ilog2 num) := by field_simp
      _ ≤ num := ha1'
  unfold F64.floorLog2
  dsimp only
  split
  · rename_i ht
    exact ⟨(F64.scaled_le_iff num den _ hden).1 ht, hup⟩
  · rename_i ht
    have hlt : (num : ℚ) / den < (2 : ℚ) ^ ((F64.ilog2 num : Int) - (F64.ilog2 den : Int)) := by
      by_contra hc
      exact ht ((F64.scaled_le_iff num den _ hden).2 (not_lt.1 hc))
    refine ⟨hlow, ?_⟩
    simpa using hlt

theorem F64.two_zpow_pos (e : Int) : (0 : ℚ) < (2 : ℚ) ^ e := by positivity

theorem F64.rawMant_near (num den : Nat) (hden : 1 ≤ den) :
    (num : ℚ) / den / (2 : ℚ) ^ F64.rawExp num den - 1 / 2 ≤ (F64.rawMant num den : ℚ)
    ∧ (F64.rawMant num den : ℚ) ≤ (num : ℚ) / den / (2 : ℚ) ^ F64.rawExp num den + 1 / 2 := by
  have h := F64.roundHalfEven_near (F64.scaled num den (F64.rawExp num den)).1
    (F64.scaled num den (F64.rawExp num den)).2 (F64.scaled_pos num den _ hden)
  rw [F64.scaled_val num den _ hden] at h
  exact h

/-- The mantissa before normalisation is at most `2^53`. -/
theorem F64.rawMant_le (num den : Nat) (hnum : 1 ≤ num) (hden : 1 ≤ den) :
    F64.rawMant num den ≤ 2 ^ 53 := by
  obtain ⟨_, hup⟩ := F64.floorLog2_bounds num den hnum hden
  obtain ⟨_, hnear⟩ := F64.rawMant_near num den hden
  have hq : F64.floorLog2 num den + 1 ≤ F64.rawExp num den + 53 := by
    unfold F64.rawExp
    omega
  have hpow : (2 : ℚ) ^ (F64.floorLog2 num den + 1) ≤ (2 : ℚ) ^ (F64.rawExp num den + 53) :=
    zpow_le_zpow_right₀ (by norm_num) hq
  have hsplit : (2 : ℚ) ^ (F64.rawExp num den + 53)
      = (2 : ℚ) ^ F64.rawExp num den * (2 : ℚ) ^ (53 : Nat) := by
    rw [zpow_add₀ (by norm_num : (2 : ℚ) ≠ 0)]
    norm_num
  have hp := F64.two_zpow_pos (F64.rawExp num den)
  have hx : (num : ℚ) / den / (2 : ℚ) ^ F64.rawExp num den < (2 : ℚ) ^ (53 : Nat) := by
    rw [div_lt_iff₀ hp]
    calc (num : ℚ) / den < (2 : ℚ) ^ (F64.floorLog2 num den + 1) := hup
      _ ≤ (2 : ℚ) ^ (F64.rawExp num den + 53) := hpow
      _ = (2 : ℚ) ^ (53 : Nat) * (2 : ℚ) ^ F64.rawExp num den := by rw [hsplit]; ring
  have hlt : (F64.rawMant num den : ℚ) < (2 : ℚ) ^ (53 : Nat) + 1 := by linarith
  have hlt' : F64.rawMant num den < 2 ^ 53 + 1 := by exact_mod_cast hlt
  omega

/-- Above the subnormal range the mantissa before normalisation is at least `2^52`. -/
theorem F64.le_rawMant (num den : Nat) (hnum : 1 ≤ num) (hden : 1 ≤ den)
    (hq : -1074 < F64.rawExp num den) : 2 ^ 52 ≤ F64.rawMant num den := by
  obtain ⟨hlow, _⟩ := F64.floorLog2_bounds num den hnum hden
  obtain ⟨hnear, _⟩ := F64.rawMant_near num den hden
  have hk : F64.floorLog2 num den = F64.rawExp num den + 52 := by
    unfold F64.rawExp at hq ⊢
    omega
  have hsplit : (2 : ℚ) ^ (F64.rawExp num den + 52)
      = (2 : ℚ) ^ F64.rawExp num den * (2 : ℚ) ^ (52 : Nat) := by
    rw [zpow_add₀ (by norm_num : (2 : ℚ) ≠ 0)]
    norm_num
  have hp := F64.two_zpow_pos (F64.rawExp num den)
  have hx : (2 : ℚ) ^ (52 : Nat) ≤ (num : ℚ) / den / (2 : ℚ) ^ F64.rawExp num den := by
    rw [le_div_iff₀ hp]
    calc (2 : ℚ) ^ (52 : Nat) * (2 : ℚ) ^ F64.rawExp num den
        = (2 : ℚ) ^ (F64.rawExp num den + 52) := by rw [hsplit]; ring
      _ = (2 : ℚ) ^ (F64.floorLog2 num den) := by rw [hk]
      _ ≤ (num : ℚ) / den := hlow
  have hgt : (2 : ℚ) ^ (52 : Nat) - 1 < (F64.rawMant num den : ℚ) := by linarith
  have hgt' : (2 : ℚ) ^ (52 : Nat) < (F64.rawMant num den : ℚ) + 1 := by linarith
  have hgt'' : 2 ^ 52 < F64.rawMant num den + 1 := by exact_mod_cast hgt'
  omega

/-- The exponent of rounding is monotone in the quotient. -/
theorem F64.rawExp_mono (n1 d1 n2 d2 : Nat) (hn1 : 1 ≤ n1) (hd1 : 1 ≤ d1) (hn2 : 1 ≤ n2)
    (hd2 : 1 ≤ d2) (h : (n1 : ℚ) / d1 ≤ (n2 : ℚ) / d2) :
    F64.rawExp n1 d1 ≤ F64.rawExp n2 d2 := by
  obtain ⟨hl1, _⟩ := F64.floorLog2_bounds n1 d1 hn1 hd1
  obtain ⟨_, hu2⟩ := F64.floorLog2_bounds n2 d2 hn2 hd2
  have hlt : (2 : ℚ) ^ (F64.floorLog2 n1 d1) < (2 : ℚ) ^ (F64.floorLog2 n2 d2 + 1) := by
    linarith
  have hk := (zpow_lt_zpow_iff_right₀ (by norm_num : (1 : ℚ) < 2)).1 hlt
  unfold F64.rawExp
  omega

/-- The value before normalisation is monotone in the quotient. -/
theorem F64.rawVal_mono (n1 d1 n2 d2 : Nat) (hn1 : 1 ≤ n1) (hd1 : 1 ≤ d1) (hn2 : 1 ≤ n2)
    (hd2 : 1 ≤ d2) (h : (n1 : ℚ) / d1 ≤ (n2 : ℚ) / d2) :
    F64.dyadic (F64.rawMant n1 d1) (F64.rawExp n1 d1)
      ≤ F64.dyadic (F64.rawMant n2 d2) (F64.rawExp n2 d2) := by
  have hq := F64.rawExp_mono n1 d1 n2 d2 hn1 hd1 hn2 hd2 h
  unfold F64.dyadic
  rcases hq.lt_or_eq with hlt | heq
  · have hm1 := F64.rawMant_le n1 d1 hn1 hd1
    have hq2 : -1074 < F64.rawExp n2 d2 := by
      have : -1074 ≤ F64.rawExp n1 d1 := by unfold F64.rawExp; omega
      omega
    have hm2 := F64.le_rawMant n2 d2 hn2 hd2 hq2
    have hm1' : (F64.rawMant n1 d1 : ℚ) ≤ (2 : ℚ) ^ (53 : Nat) := by exact_mod_cast hm1
    have hm2' : (2 : ℚ) ^ (52 : Nat) ≤ (F64.rawMant n2 d2 : ℚ) := by exact_mod_cast hm2
    have hp1 := F64.two_zpow_pos (F64.rawExp n1 d1)
    have hp2 := F64.two_zpow_pos (F64.rawExp n2 d2)
    have hstep : (2 : ℚ) ^ (F64.rawExp n1 d1 + 1) ≤ (2 : ℚ) ^ (F64.rawExp n2 d2) :=
      zpow_le_zpow_right₀ (by norm_num) (by omega)
    rw [zpow_add_one₀ (by norm_num : (2 : ℚ) ≠ 0)] at hstep
    calc (F64.rawMant n1 d1 : ℚ) * (2 : ℚ) ^ F64.rawExp n1 d1
        ≤ (2 : ℚ) ^ (53 : Nat) * (2 : ℚ) ^ F64.rawExp n1 d1 :=
          mul_le_mul_of_nonneg_right hm1' hp1.le
      _ = (2 : ℚ) ^ (52 : Nat) * ((2 : ℚ) ^ F64.rawExp n1 d1 * 2) := by ring
      _ ≤ (2 : ℚ) ^ (52 : Nat) * (2 : ℚ) ^ F64.rawExp n2 d2 :=
          mul_le_mul_of_nonneg_left hstep (by positivity)
      _ ≤ (F64.rawMant n2 d2 : ℚ) * (2 : ℚ) ^ F64.rawExp n2 d2 :=
          mul_le_mul_of_nonneg_right hm2' hp2.le
  · have hp := F64.two_zpow_pos (F64.rawExp n2 d2)
    have hm : F64.rawMant n1 d1 ≤ F64.rawMant n2 d2 := by
      unfold F64.rawMant
      rw [heq]
      apply F64.roundHalfEven_mono _ _ _ _ (F64.scaled_pos _ _ _ hd1) (F64.scaled_pos _ _ _ hd2)
      rw [F64.scaled_val _ _ _ hd1, F64.scaled_val _ _ _ hd2]
      exact div_le_div_of_nonneg_right h hp.le
    rw [heq]
    exact mul_le_mul_of_nonneg_right (by exact_mod_cast hm) hp.le

theorem F64.roundPos_unfold (num den : Nat) (hnum : 1 ≤ num) :
    F64.roundPos num den =
      if 971 < (if F64.rawMant num den = 0 then ((0, 0) : Nat × Int)
          else if F64.rawMant num den = 2 ^ 53 then (2 ^ 52, F64.rawExp num den + 1)
          else (F64.rawMant num den, F64.rawExp num den)).2 then none
      else some (if F64.rawMant num den = 0 then ((0, 0) : Nat × Int)
          else if F64.rawMant num den = 2 ^ 53 then (2 ^ 52, F64.rawExp num den + 1)
          else (F64.rawMant num den, F64.rawExp num den)) := by
  have hn : num ≠ 0 := by omega
  unfold F64.roundPos
  simp only [hn, if_false]
  rfl

theorem F64.roundPos_of_zero (num den : Nat) (hnum : 1 ≤ num)
    (h0 : F64.rawMant num den = 0) : F64.roundPos num den = some (0, 0) := by
  rw [F64.roundPos_unfold num den hnum]
  simp only [h0, if_true]
  rfl

theorem F64.roundPos_of_top (num den : Nat) (hnum : 1 ≤ num)
    (h53 : F64.rawMant num den = 2 ^ 53) :
    F64.roundPos num den =
      if 971 < F64.rawExp num den + 1 then none else some (2 ^ 52, F64.rawExp num den + 1) := by
  have h0 : ¬ ((2 : Nat) ^ 53 = 0) := by decide
  rw [F64.roundPos_unfold num den hnum]
  simp only [h53, h0, if_false, if_true]

theorem F64.roundPos_of_mid (num den : Nat) (hnum : 1 ≤ num)
    (h0 : F64.rawMant num den ≠ 0) (h53 : F64.rawMant num den ≠ 2 ^ 53) :
    F64.roundPos num den =
      if 971 < F64.rawExp num den then none
      else some (F64.rawMant num den, F64.rawExp num den) := by
  rw [F64.roundPos_unfold num den hnum]
  simp only [h0, h53, if_false]

theorem F64.two_pow_1024 (a : Nat) (b : Int) (h : (a : Int) + b = 1024) :
    (2 : ℚ) ^ a * (2 : ℚ) ^ b = (2 : ℚ) ^ (1024 : Nat) := by
  rw [← zpow_natCast, ← zpow_natCast, ← zpow_add₀ (by norm_num : (2 : ℚ) ≠ 0), h]
  norm_num

/-- A finite result of `roundPos` has the value obtained before normalisation. -/
theorem F64.roundPos_some_val (num den m : Nat) (e : Int) (hnum : 1 ≤ num)
    (h : F64.roundPos num den = some (m, e)) :
    F64.dyadic m e = F64.dyadic (F64.rawMant num den) (F64.rawExp num den) := by
  by_cases h0 : F64.rawMant num den = 0
  · rw [F64.roundPos_of_zero num den hnum h0] at h
    simp only [Option.some.injEq, Prod.mk.injEq] at h
    obtain ⟨rfl, rfl⟩ := h
    simp [F64.dyadic, h0]
  · by_cases h53 : F64.rawMant num den = 2 ^ 53
    · rw [F64.roundPos_of_top num den hnum h53] at h
      by_cases hov : 971 < F64.rawExp num den + 1
      · simp [hov] at h
      · simp only [hov, if_false, Option.some.injEq, Prod.mk.injEq] at h
        obtain ⟨rfl, rfl⟩ := h
        unfold F64.dyadic
        rw [h53, zpow_add_one₀ (by norm_num : (2 : ℚ) ≠ 0)]
        push_cast
        ring
    · rw [F64.roundPos_of_mid num den hnum h0 h53] at h
      by_cases hov : 971 < F64.rawExp num den
      · simp [hov] at h
      · simp only [hov, if_false, Option.some.injEq, Prod.mk.injEq] at h
        obtain ⟨rfl, rfl⟩ := h
        rfl

/-- The rounding overflows exactly when the value before normalisation reaches `2^1024`. -/
theorem F64.roundPos_none_iff (num den : Nat) (hnum : 1 ≤ num) (hden : 1 ≤ den) :
    F64.roundPos num den = none
      ↔ (2 : ℚ) ^ (1024 : Nat) ≤ F64.dyadic (F64.rawMant num den) (F64.rawExp num den) := by
  have hle := F64.rawMant_le num den hnum hden
  have hle' : (F64.rawMant num den : ℚ) ≤ (2 : ℚ) ^ (53 : Nat) := by exact_mod_cast hle
  have hp := F64.two_zpow_pos (F64.rawExp num den)
  have hbig : (0 : ℚ) < (2 : ℚ) ^ (1024 : Nat) := by positivity
  unfold F64.dyadic
  by_cases h0 : F64.rawMant num den = 0
  · rw [F64.roundPos_of_zero num den hnum h0, h0]
    simp only [Nat.cast_zero, zero_mul]
    constructor
    · intro h; cases h
    · intro h; linarith
  · by_cases h53 : F64.rawMant num den = 2 ^ 53
    · rw [F64.roundPos_of_top num den hnum h53, h53]
      push_cast
      by_cases hov : 971 < F64.rawExp num den + 1
      · simp only [hov, if_true, true_iff]
        have hpow : (2 : ℚ) ^ (971 : Int) ≤ (2 : ℚ) ^ F64.rawExp num den :=
          zpow_le_zpow_right₀ (by norm_num) (by omega)
        calc (2 : ℚ) ^ (1024 : Nat) = (2 : ℚ) ^ (53 : Nat) * (2 : ℚ) ^ (971 : Int) :=
              (F64.two_pow_1024 53 971 (by norm_num)).symm
          _ ≤ (2 : ℚ) ^ (53 : Nat) * (2 : ℚ) ^ F64.rawExp num den :=
              mul_le_mul_of_nonneg_left hpow (by positivity)
      · simp only [hov, if_false]
        constructor
        · intro h; cases h
        · intro h
          exfalso
          have hpow : (2 : ℚ) ^ (F64.rawExp num den + 1) ≤ (2 : ℚ) ^ (971 : Int) :=
            zpow_le_zpow_right₀ (by norm_num) (by omega)
          rw [zpow_add_one₀ (by norm_num : (2 : ℚ) ≠ 0)] at hpow
          have h1024 := F64.two_pow_1024 53 971 (by norm_num)
          have h53pos : (0 : ℚ) < (2 : ℚ) ^ (53 : Nat) := by positivity
          nlinarith
    · rw [F64.roundPos_of_mid num den hnum h0 h53]
      have hlt : F64.rawMant num den < 2 ^ 53 := by omega
      have hlt' : (F64.rawMant num den : ℚ) < (2 : ℚ) ^ (53 : Nat) := by exact_mod_cast hlt
      by_cases hov : 971 < F64.rawExp num den
      · simp only [hov, if_true, true_iff]
        have hm := F64.le_rawMant num den hnum hden (by omega)
        have hm' : (2 : ℚ) ^ (52 : Nat) ≤ (F64.rawMant num den : ℚ) := by exact_mod_cast hm
        have hpow : (2 : ℚ) ^ (972 : Int) ≤ (2 : ℚ) ^ F64.rawExp num den :=
          zpow_le_zpow_right₀ (by norm_num) (by omega)
        calc (2 : ℚ) ^ (1024 : Nat) = (2 : ℚ) ^ (52 : Nat) * (2 : ℚ) ^ (972 : Int) :=
              (F64.two_pow_1024 52 972 (by norm_num)).symm
          _ ≤ (2 : ℚ) ^ (52 : Nat) * (2 : ℚ) ^ F64.rawExp num den :=
              mul_le_mul_of_nonneg_left hpow (by positivity)
          _ ≤ (F64.rawMant num den : ℚ) * (2 : ℚ) ^ F64.rawExp num den :=
              mul_le_mul_of_nonneg_right hm' hp.le
      · simp only [hov, if_false]
        constructor
        · intro h; cases h
        · intro h
          exfalso
          have hpow : (2 : ℚ) ^ F64.rawExp num den ≤ (2 : ℚ) ^ (971 : Int) :=
            zpow_le_zpow_right₀ (by norm_num) (by omega)
          have h1024 := F64.two_pow_1024 53 971 (by norm_num)
          have hlt2 : (F64.rawMant num den : ℚ) * (2 : ℚ) ^ F64.rawExp num den
              < (2 : ℚ) ^ (53 : Nat) * (2 : ℚ) ^ F64.rawExp num den :=
            mul_lt_mul_of_pos_right hlt' hp
          have hle2 : (2 : ℚ) ^ (53 : Nat) * (2 : ℚ) ^ F64.rawExp num den
              ≤ (2 : ℚ) ^ (53 : Nat) * (2 : ℚ) ^ (971 : Int) :=
            mul_le_mul_of_nonneg_left hpow (by positivity)
          linarith

theorem F64.dyadic_nonneg (m : Nat) (e : Int) : 0 ≤ F64.dyadic m e := by
  unfold F64.dyadic
  positivity

theorem F64.le_fin_fin (m n : Nat) (e f : Int) :
    F64.le (F64.fin false m e) (F64.fin false n f) ↔ F64.dyadic m e ≤ F64.dyadic n f :=
  Iff.rfl

/-- What lies below a finite non-negative value is finite and non-negative. -/
theorem F64.le_fin (x : F64) (n : Nat) (f : Int) (h : F64.le x (F64.fin false n f)) :
    ∃ m e, x = F64.fin false m e ∧ F64.dyadic m e ≤ F64.dyadic n f := by
  cases x with
  | nan => exact absurd h (by simp [F64.le])
  | inf a => cases a <;> exact absurd h (by simp [F64.le])
  | fin a m e =>
    cases a with
    | true => exact absurd h (by simp [F64.le])
    | false => exact ⟨m, e, rfl, h⟩

theorem F64.ofRat_cases (num den : Nat) :
    (∃ m e, F64.roundPos num den = some (m, e) ∧ F64.ofRat false num den = F64.fin false m e)
    ∨ (F64.roundPos num den = none ∧ F64.ofRat false num den = F64.inf false) := by
  unfold F64.ofRat
  cases h : F64.roundPos num den with
  | none => exact Or.inr ⟨rfl, rfl⟩
  | some p => exact Or.inl ⟨p.1, p.2, rfl, rfl⟩

theorem F64.roundPos_zero (den : Nat) : F64.roundPos 0 den = some (0, 0) := by
  simp [F64.roundPos]

/-- Rounding to binary64 is monotone in the quotient. -/
theorem F64.ofRat_mono (n1 d1 n2 d2 : Nat) (hd1 : 1 ≤ d1) (hd2 : 1 ≤ d2)
    (h : (n1 : ℚ) / d1 ≤ (n2 : ℚ) / d2) :
    F64.le (F64.ofRat false n1 d1) (F64.ofRat false n2 d2) := by
  have hd1' : (0 : ℚ) < d1 := by exact_mod_cast hd1
  have hd2' : (0 : ℚ) < d2 := by exact_mod_cast hd2
  rcases Nat.eq_zero_or_pos n1 with h0 | hpos
  · subst h0
    have hz : F64.ofRat false 0 d1 = F64.fin false 0 0 := by
      simp [F64.ofRat, F64.roundPos_zero]
    rw [hz]
    rcases F64.ofRat_cases n2 d2 with ⟨m, e, _, hr⟩ | ⟨_, hr⟩
    · rw [hr, F64.le_fin_fin]
      have := F64.dyadic_nonneg m e
      simpa [F64.dyadic] using this
    · rw [hr]
      trivial
  · have hn1 : 1 ≤ n1 := hpos
    have hn2 : 1 ≤ n2 := by
      by_contra hc
      have hz : n2 = 0 := by omega
      subst hz
      have hx1 : (0 : ℚ) < (n1 : ℚ) / d1 := by
        have : (0 : ℚ) < n1 := by exact_mod_cast hpos
        positivity
      simp at h
      linarith
    have hmono := F64.rawVal_mono n1 d1 n2 d2 hn1 hd1 hn2 hd2 h
    rcases F64.ofRat_cases n2 d2 with ⟨m2, e2, hs2, hr2⟩ | ⟨_, hr2⟩
    · have hfin2 : ¬ (2 : ℚ) ^ (1024 : Nat)
          ≤ F64.dyadic (F64.rawMant n2 d2) (F64.rawExp n2 d2) := by
        intro hc
        rw [(F64.roundPos_none_iff n2 d2 hn2 hd2).2 hc] at hs2
        cases hs2
      rcases F64.ofRat_cases n1 d1 with ⟨m1, e1, hs1, hr1⟩ | ⟨hn, _⟩
      · rw [hr1, hr2, F64.le_fin_fin, F64.roundPos_some_val n1 d1 m1 e1 hn1 hs1,
          F64.roundPos_some_val n2 d2 m2 e2 hn2 hs2]
        exact hmono
      · exfalso
        exact hfin2 (le_trans ((F64.roundPos_none_iff n1 d1 hn1 hd1).1 hn) hmono)
    · rw [hr2]
      rcases F64.ofRat_cases n1 d1 with ⟨m1, e1, _, hr1⟩ | ⟨_, hr1⟩
      · rw [hr1]; trivial
      · rw [hr1]; trivial

/-- The comparison of two finite non-negative values is the comparison of their values. -/
theorem F64.lt_fin_fin (m n : Nat) (e f : Int) :
    F64.lt (F64.fin false m e) (F64.fin false n f) = decide (F64.dyadic m e < F64.dyadic n f) := by
  have key : ∀ (m : Nat) (e f : Int),
      ((F64.signedAt false m e f : Int) : ℚ) = F64.dyadic m e / (2 : ℚ) ^ (min e f) := by
    intro m e f
    unfold F64.signedAt F64.dyadic
    have hnn : 0 ≤ e - min e f := by omega
    have he : (2 : ℚ) ^ e = (2 : ℚ) ^ ((e - min e f).toNat : Int) * (2 : ℚ) ^ (min e f) := by
      rw [← zpow_add₀ (by norm_num : (2 : ℚ) ≠ 0), Int.toNat_of_nonneg hnn]
      congr 1
      omega
    rw [he, zpow_natCast]
    have hp := F64.two_zpow_pos (min e f)
    field_simp
    ring
  have hp := F64.two_zpow_pos (min e f)
  have hiff : F64.signedAt false m e f < F64.signedAt false n f e
      ↔ F64.dyadic m e < F64.dyadic n f := by
    have h1 := key m e f
    have h2 := key n f e
    rw [min_comm f e] at h2
    rw [← Int.cast_lt (R := ℚ), h1, h2, div_lt_div_iff_of_pos_right hp]
  simp only [F64.lt, hiff]

theorem F64.le_refl_fin (m : Nat) (e : Int) : F64.le (F64.fin false m e) (F64.fin false m e) :=
  (F64.le_fin_fin m m e e).2 le_rfl

/-- A finite non-negative value is not above anything it is below. -/
theorem F64.lt_eq_false_of_le (x : F64) (n : Nat) (f : Int)
    (h : F64.le x (F64.fin false n f)) : F64.lt (F64.fin false n f) x = false := by
  obtain ⟨m, e, rfl, hv⟩ := F64.le_fin x n f h
  rw [F64.lt_fin_fin]
  exact decide_eq_false (not_lt.2 hv)

theorem F64.lt_zero_eq_false (m : Nat) (e : Int) :
    F64.lt (F64.fin false m e) (F64.fin false 0 0) = false := by
  rw [F64.lt_fin_fin]
  apply decide_eq_false
  have h := F64.dyadic_nonneg m e
  have h0 : F64.dyadic 0 0 = 0 := by simp [F64.dyadic]
  rw [h0]
  exact not_lt.2 h

/-- The product of finite non-negative values is monotone in both of them. -/
theorem F64.mul_mono (m1 n1 m2 n2 : Nat) (e1 f1 e2 f2 : Int)
    (hx : F64.dyadic m1 e1 ≤ F64.dyadic m2 e2) (hy : F64.dyadic n1 f1 ≤ F64.dyadic n2 f2) :
    F64.le (F64.mul (F64.fin false m1 e1) (F64.fin false n1 f1))
      (F64.mul (F64.fin false m2 e2) (F64.fin false n2 f2)) := by
  have hval : ∀ (m n : Nat) (e f : Int),
      ((F64.scaled (m * n) 1 (-(e + f))).1 : ℚ) / ((F64.scaled (m * n) 1 (-(e + f))).2 : ℚ)
        = F64.dyadic m e * F64.dyadic n f := by
    intro m n e f
    rw [F64.scaled_val (m * n) 1 _ Nat.one_pos]
    unfold F64.dyadic
    rw [zpow_neg, zpow_add₀ (by norm_num : (2 : ℚ) ≠ 0)]
    have h1 := F64.two_zpow_pos e
    have h2 := F64.two_zpow_pos f
    push_cast
    field_simp
    ring
  show F64.le (F64.ofRat false _ _) (F64.ofRat false _ _)
  apply F64.ofRat_mono _ _ _ _ (F64.scaled_pos _ _ _ Nat.one_pos) (F64.scaled_pos _ _ _ Nat.one_pos)
  rw [hval, hval]
  exact mul_le_mul hx hy (F64.dyadic_nonneg _ _) (F64.dyadic_nonneg _ _)

/-- The quotient by a fixed finite positive value is monotone in the dividend. -/
theorem F64.div_mono (m1 m2 n : Nat) (e1 e2 f : Int) (hn : n ≠ 0)
    (hx : F64.dyadic m1 e1 ≤ F64.dyadic m2 e2) :
    F64.le (F64.div (F64.fin false m1 e1) (F64.fin false n f))
      (F64.div (F64.fin false m2 e2) (F64.fin false n f)) := by
  have hn' : 0 < n := Nat.pos_of_ne_zero hn
  have hval : ∀ (m : Nat) (e : Int),
      ((F64.scaled m n (f - e)).1 : ℚ) / ((F64.scaled m n (f - e)).2 : ℚ)
        = F64.dyadic m e / F64.dyadic n f := by
    intro m e
    rw [F64.scaled_val m n _ hn']
    unfold F64.dyadic
    rw [zpow_sub₀ (by norm_num : (2 : ℚ) ≠ 0)]
    have h1 := F64.two_zpow_pos e
    have h2 := F64.two_zpow_pos f
    have h3 : (n : ℚ) ≠ 0 := by exact_mod_cast hn
    field_simp
  have hd : ∀ (m : Nat) (e : Int), F64.div (F64.fin false m e) (F64.fin false n f)
      = F64.ofRat false (F64.scaled m n (f - e)).1 (F64.scaled m n (f - e)).2 := by
    intro m e
    simp [F64.div, hn]
  rw [hd, hd]
  apply F64.ofRat_mono _ _ _ _ (F64.scaled_pos _ _ _ hn') (F64.scaled_pos _ _ _ hn')
  rw [hval, hval]
  have hpos : 0 < F64.dyadic n f := by
    unfold F64.dyadic
    have h2 := F64.two_zpow_pos f
    have h3 : (0 : ℚ) < n := by exact_mod_cast hn'
    positivity
  exact div_le_div_of_nonneg_right hx hpos.le

theorem F64.roundHalfEven_one (n : Nat) : F64.roundHalfEven n 1 = n := by
  simp [F64.roundHalfEven, Nat.mod_one]

/-- A natural number below `2^53` is a binary64. -/
theorem F64.ofRat_nat (n : Nat) (h : n < 2 ^ 53) :
    ∃ m e, F64.ofRat false n 1 = F64.fin false m e ∧ F64.dyadic m e = (n : ℚ) := by
  rcases Nat.eq_zero_or_pos n with h0 | hpos
  · subst h0
    exact ⟨0, 0, by simp [F64.ofRat, F64.roundPos_zero], by simp [F64.dyadic]⟩
  · have hn1 : 1 ≤ n := hpos
    obtain ⟨hlo, _⟩ := F64.floorLog2_bounds n 1 hn1 le_rfl
    have hlt : (2 : ℚ) ^ (F64.floorLog2 n 1) < (2 : ℚ) ^ ((53 : Nat) : Int) := by
      have hq : ((n : ℚ)) < (2 : ℚ) ^ (53 : Nat) := by exact_mod_cast h
      rw [zpow_natCast]
      simp only [Nat.cast_one, div_one] at hlo
      linarith
    have hk := (zpow_lt_zpow_iff_right₀ (by norm_num : (1 : ℚ) < 2)).1 hlt
    have hq0 : F64.rawExp n 1 ≤ 0 := by
      unfold F64.rawExp
      have : (((53 : Nat) : Int)) = 53 := rfl
      omega
    have hraw : F64.dyadic (F64.rawMant n 1) (F64.rawExp n 1) = (n : ℚ) := by
      unfold F64.rawMant F64.dyadic
      generalize F64.rawExp n 1 = q at hq0
      cases q with
      | ofNat k =>
        have hk0 : k = 0 := by
          have : (k : Int) ≤ 0 := hq0
          omega
        subst hk0
        simp [F64.scaled, F64.roundHalfEven_one]
      | negSucc k =>
        simp only [F64.scaled, F64.roundHalfEven_one, zpow_negSucc]
        push_cast
        field_simp
    rcases F64.ofRat_cases n 1 with ⟨m, e, hs, hr⟩ | ⟨hnone, _⟩
    · exact ⟨m, e, hr, by rw [F64.roundPos_some_val n 1 m e hn1 hs, hraw]⟩
    · exfalso
      have hbig := (F64.roundPos_none_iff n 1 hn1 le_rfl).1 hnone
      rw [hraw] at hbig
      have hq : ((n : ℚ)) < (2 : ℚ) ^ (53 : Nat) := by exact_mod_cast h
      have h2 : (2 : ℚ) ^ (53 : Nat) ≤ (2 : ℚ) ^ (1024 : Nat) :=
        pow_le_pow_right₀ (by norm_num) (by norm_num)
      linarith

/-- The ceiling of a finite non-negative value up to `2^52` is the ceiling of its value. -/
theorem F64.ceil_val (m : Nat) (e : Int) (h : F64.dyadic m e ≤ (2 : ℚ) ^ (52 : Nat)) :
    ∃ m2 e2, F64.ceil (F64.fin false m e) = F64.fin false m2 e2
      ∧ F64.dyadic m2 e2 = ((⌈F64.dyadic m e⌉₊ : Nat) : ℚ) := by
  cases e with
  | ofNat k =>
    refine ⟨m, Int.ofNat k, rfl, ?_⟩
    have hv : F64.dyadic m (Int.ofNat k) = ((m * 2 ^ k : Nat) : ℚ) := by
      simp [F64.dyadic]
    rw [hv, Nat.ceil_natCast]
  | negSucc k =>
    have hD : 0 < 2 ^ (k + 1) := Nat.pow_pos (by decide)
    have hDq : (0 : ℚ) < ((2 ^ (k + 1) : Nat) : ℚ) := by exact_mod_cast hD
    have hv : F64.dyadic m (Int.negSucc k) = (m : ℚ) / ((2 ^ (k + 1) : Nat) : ℚ) := by
      simp [F64.dyadic, zpow_negSucc, div_eq_mul_inv]
    have hc : ⌈F64.dyadic m (Int.negSucc k)⌉₊ = (m + 2 ^ (k + 1) - 1) / 2 ^ (k + 1) := by
      rw [hv]
      apply le_antisymm
      · rw [Nat.ceil_le, div_le_iff₀ hDq]
        have hnat : m ≤ (m + 2 ^ (k + 1) - 1) / 2 ^ (k + 1) * 2 ^ (k + 1) := by
          have h1 := Nat.div_add_mod (m + 2 ^ (k + 1) - 1) (2 ^ (k + 1))
          have h2 := Nat.mod_lt (m + 2 ^ (k + 1) - 1) hD
          rw [Nat.mul_comm] at h1
          omega
        exact_mod_cast hnat
      · rcases Nat.eq_zero_or_pos ((m + 2 ^ (k + 1) - 1) / 2 ^ (k + 1)) with hz | hp
        · rw [hz]; exact Nat.zero_le _
        · have hnat : ((m + 2 ^ (k + 1) - 1) / 2 ^ (k + 1) - 1) * 2 ^ (k + 1) < m := by
            have h1 := Nat.div_mul_le_self (m + 2 ^ (k + 1) - 1) (2 ^ (k + 1))
            have h3 : ((m + 2 ^ (k + 1) - 1) / 2 ^ (k + 1) - 1) * 2 ^ (k + 1)
                = (m + 2 ^ (k + 1) - 1) / 2 ^ (k + 1) * 2 ^ (k + 1) - 2 ^ (k + 1) := by
              rw [Nat.sub_mul, Nat.one_mul]
            have h4 := Nat.le_mul_of_pos_left (2 ^ (k + 1)) hp
            omega
          have hlt : (m + 2 ^ (k + 1) - 1) / 2 ^ (k + 1) - 1
              < ⌈(m : ℚ) / ((2 ^ (k + 1) : Nat) : ℚ)⌉₊ := by
            rw [Nat.lt_ceil, lt_div_iff₀ hDq]
            exact_mod_cast hnat
          omega
    have hle : (m + 2 ^ (k + 1) - 1) / 2 ^ (k + 1) < 2 ^ 53 := by
      rw [← hc]
      have h52 : ⌈F64.dyadic m (Int.negSucc k)⌉₊ ≤ 2 ^ 52 := by
        rw [Nat.ceil_le]
        exact_mod_cast h
      have : (2 : Nat) ^ 52 < 2 ^ 53 := by decide
      omega
    obtain ⟨m2, e2, hr, hval⟩ := F64.ofRat_nat _ hle
    refine ⟨m2, e2, ?_, ?_⟩
    · simp only [F64.ceil]
      exact hr
    · rw [hval, hc]

/-- The integer part of a value that is a natural number. -/
theorem F64.truncMag_val (m N : Nat) (e : Int) (h : F64.dyadic m e = (N : ℚ)) :
    F64.truncMag m e = N := by
  cases e with
  | ofNat k =>
    have hv : F64.dyadic m (Int.ofNat k) = ((m * 2 ^ k : Nat) : ℚ) := by
      simp [F64.dyadic]
    rw [hv] at h
    exact_mod_cast h
  | negSucc k =>
    have hD : 0 < 2 ^ (k + 1) := Nat.pow_pos (by decide)
    have hDq : (0 : ℚ) < ((2 ^ (k + 1) : Nat) : ℚ) := by exact_mod_cast hD
    have hv : F64.dyadic m (Int.negSucc k) = (m : ℚ) / ((2 ^ (k + 1) : Nat) : ℚ) := by
      simp [F64.dyadic, zpow_negSucc, div_eq_mul_inv]
    rw [hv, div_eq_iff hDq.ne'] at h
    have hm : m = N * 2 ^ (k + 1) := by exact_mod_cast h
    show m / 2 ^ (k + 1) = N
    rw [hm, Nat.mul_div_cancel _ hD]

theorem F64.toUint_val (undef : F64 → Nat) (m N : Nat) (e : Int)
    (h : F64.dyadic m e = (N : ℚ)) (hN : N < 2 ^ 64) :
    F64.toUint undef (F64.fin false m e) = N := by
  have ht := F64.truncMag_val m N e h
  simp only [F64.toUint, ht, Bool.false_and, if_pos hN]
  rfl

/-- The decimal numeral of a natural number up to 100 parses to its conversion. -/
theorem ParseFloat_repr (o : Nat) (h : o ≤ 100) :
    ParseFloat (Nat.repr o) = .ok (F64.ofInt o) := by
  interval_cases o <;> rfl

theorem F64.ofInt_nat (n : Nat) : F64.ofInt (n : Int) = F64.ofRat false n 1 := by
  have h : decide ((n : Int) < 0) = false := decide_eq_false (by omega)
  simp [F64.ofInt, h]

theorem F64.ofInt_hundred : F64.ofInt 100 = F64.fin false 7036874417766400 (-46) := by decide

theorem F64.dyadic_hundred : F64.dyadic 7036874417766400 (-46) = 100 := by
  unfold F64.dyadic
  norm_num [zpow_neg]

/-- The conversion of a natural number up to 100 is exact and not above `float64(100)`. -/
theorem F64.ofInt_small (n : Nat) (h : n ≤ 100) :
    ∃ m e, F64.ofInt (n : Int) = F64.fin false m e ∧ F64.dyadic m e = (n : ℚ) := by
  rw [F64.ofInt_nat]
  exact F64.ofRat_nat n (lt_of_le_of_lt h (by decide))

/-- The product before the ceiling is finite, at most 100, and monotone in both weights. -/
theorem weightProduct_mono (d1 d2 o1 o2 : Nat) (hd : d1 ≤ d2) (hd100 : d2 ≤ 100)
    (ho : o1 ≤ o2) (ho100 : o2 ≤ 100) :
    ∃ m1 e1 m2 e2, weightProduct d1 o1 = F64.fin false m1 e1
      ∧ weightProduct d2 o2 = F64.fin false m2 e2
      ∧ F64.dyadic m1 e1 ≤ F64.dyadic m2 e2 ∧ F64.dyadic m2 e2 ≤ 100 := by
  obtain ⟨a1, b1, hA1, hvA1⟩ := F64.ofInt_small d1 (le_trans hd hd100)
  obtain ⟨a2, b2, hA2, hvA2⟩ := F64.ofInt_small d2 hd100
  obtain ⟨u1, v1, hU1, hvU1⟩ := F64.ofInt_small o1 (le_trans ho ho100)
  obtain ⟨u2, v2, hU2, hvU2⟩ := F64.ofInt_small o2 ho100
  have hd12 : F64.dyadic a1 b1 ≤ F64.dyadic a2 b2 := by
    rw [hvA1, hvA2]; exact_mod_cast hd
  have hd2h : F64.dyadic a2 b2 ≤ F64.dyadic 7036874417766400 (-46) := by
    rw [hvA2, F64.dyadic_hundred]; exact_mod_cast hd100
  have ho12 : F64.dyadic u1 v1 ≤ F64.dyadic u2 v2 := by
    rw [hvU1, hvU2]; exact_mod_cast ho
  have ho2h : F64.dyadic u2 v2 ≤ F64.dyadic 7036874417766400 (-46) := by
    rw [hvU2, F64.dyadic_hundred]; exact_mod_cast ho100
  have hone : F64.div (F64.fin false 7036874417766400 (-46))
      (F64.fin false 7036874417766400 (-46)) = F64.fin false 4503599627370496 (-52) := by
    decide
  have htop : F64.mul (F64.fin false 4503599627370496 (-52))
      (F64.fin false 7036874417766400 (-46)) = F64.fin false 7036874417766400 (-46) := by
    decide
  have hB12 := F64.div_mono a1 a2 7036874417766400 b1 b2 (-46) (by decide) hd12
  have hB2h := F64.div_mono a2 7036874417766400 7036874417766400 b2 (-46) (-46) (by decide) hd2h
  rw [hone] at hB2h
  obtain ⟨p2, q2, hB2, hvB2⟩ := F64.le_fin _ _ _ hB2h
  rw [hB2] at hB12
  obtain ⟨p1, q1, hB1, hvB1⟩ := F64.le_fin _ _ _ hB12
  have hP12 := F64.mul_mono p1 u1 p2 u2 q1 v1 q2 v2 hvB1 ho12
  have hP2h := F64.mul_mono p2 u2 4503599627370496 7036874417766400 q2 v2 (-52) (-46) hvB2 ho2h
  rw [htop] at hP2h
  obtain ⟨m2, e2, hP2, hvP2⟩ := F64.le_fin _ _ _ hP2h
  rw [hP2] at hP12
  obtain ⟨m1, e1, hP1, hvP1⟩ := F64.le_fin _ _ _ hP12
  refine ⟨m1, e1, m2, e2, ?_, ?_, hvP1, ?_⟩
  · unfold weightProduct
    rw [hA1, F64.ofInt_hundred, hB1, hU1, hP1]
  · unfold weightProduct
    rw [hA2, F64.ofInt_hundred, hB2, hU2, hP2]
  · rw [← F64.dyadic_hundred]; exact hvP2

/-- For a backend weight and an override in `[0,100]` nothing is clamped and no error is
returned: the weight is the ceiling of the binary64 product. -/
theorem calculateIngressWeight_small (r : IngressReconciler) (rt : GoRuntime)
    (Store : StoreConfig) (ingress : Ingress) (d o m : Nat) (e : Int)
    (hd : Store.DesiredWeight = (d : Int)) (hd100 : d ≤ 100) (ho100 : o ≤ 100)
    (hann : ingress.ObjectMeta.Annotations.get (r.annotationKey "traffic-weight") = Nat.repr o)
    (hP : weightProduct d o = F64.fin false m e) (hv : F64.dyadic m e ≤ 100) :
    r.calculateIngressWeight rt Store ingress = (⌈F64.dyadic m e⌉₊, none) := by
  obtain ⟨a, b, hA, hvA⟩ := F64.ofInt_small d hd100
  obtain ⟨u, v, hU, hvU⟩ := F64.ofInt_small o ho100
  have hzero : F64.ofInt 0 = F64.fin false 0 0 := by decide
  have hAle : F64.le (F64.fin false a b) (F64.fin false 7036874417766400 (-46)) := by
    rw [F64.le_fin_fin, hvA, F64.dyadic_hundred]; exact_mod_cast hd100
  have hUle : F64.le (F64.fin false u v) (F64.fin false 7036874417766400 (-46)) := by
    rw [F64.le_fin_fin, hvU, F64.dyadic_hundred]; exact_mod_cast ho100
  have h52 : F64.dyadic m e ≤ (2 : ℚ) ^ (52 : Nat) := by
    refine le_trans hv ?_
    norm_num
  obtain ⟨m2, e2, hC, hvC⟩ := F64.ceil_val m e h52
  have hN : ⌈F64.dyadic m e⌉₊ < 2 ^ 64 := by
    have h100 : ⌈F64.dyadic m e⌉₊ ≤ 100 := by
      rw [Nat.ceil_le]; exact_mod_cast hv
    exact lt_of_le_of_lt h100 (by decide)
  unfold weightProduct at hP
  rw [hA, F64.ofInt_hundred, hU] at hP
  unfold IngressReconciler.calculateIngressWeight
  simp only [hd, hann, ParseFloat_repr o ho100, hA, hU, hzero, F64.ofInt_hundred,
    F64.lt_zero_eq_false, F64.lt_eq_false_of_le _ _ _ hAle, F64.lt_eq_false_of_le _ _ _ hUle,
    Bool.false_eq_true, if_false, hP, hC, F64.toUint_val rt.uintOfFloat m2 _ e2 hvC hN]

/-- What lies above a finite non-negative value is finite and non-negative, or `+Inf`. -/
theorem F64.fin_le (n : Nat) (f : Int) (x : F64) (h : F64.le (F64.fin false n f) x) :
    (∃ m e, x = F64.fin false m e ∧ F64.dyadic n f ≤ F64.dyadic m e) ∨ x = F64.inf false := by
  cases x with
  | nan => exact absurd h (by simp [F64.le])
  | inf a =>
    cases a with
    | true => exact absurd h (by simp [F64.le])
    | false => exact Or.inr rfl
  | fin a m e =>
    cases a with
    | true => exact absurd h (by simp [F64.le])
    | false => exact Or.inl ⟨m, e, rfl, h⟩

/-- The clamp `if x > 100 { x = 100 }` of a value not below a finite non-negative bound. -/
theorem F64.clamp_bounds (x : F64) (n : Nat) (f : Int) (h : F64.le (F64.fin false n f) x)
    (hn : F64.dyadic n f ≤ 100) :
    ∃ m e, (if F64.lt (F64.ofInt 100) x then F64.ofInt 100 else x) = F64.fin false m e
      ∧ F64.dyadic n f ≤ F64.dyadic m e ∧ F64.dyadic m e ≤ 100 := by
  rw [F64.ofInt_hundred]
  rcases F64.fin_le n f x h with ⟨m, e, rfl, hv⟩ | rfl
  · by_cases hlt : F64.lt (F64.fin false 7036874417766400 (-46)) (F64.fin false m e) = true
    · rw [if_pos hlt]
      exact ⟨_, _, rfl, by rw [F64.dyadic_hundred]; exact hn, by rw [F64.dyadic_hundred]⟩
    · rw [if_neg hlt]
      refine ⟨m, e, rfl, hv, ?_⟩
      rw [F64.lt_fin_fin, decide_eq_true_eq, F64.dyadic_hundred] at hlt
      exact not_lt.1 hlt
  · have hlt : F64.lt (F64.fin false 7036874417766400 (-46)) (F64.inf false) = true := rfl
    rw [if_pos hlt]
    exact ⟨_, _, rfl, by rw [F64.dyadic_hundred]; exact hn, by rw [F64.dyadic_hundred]⟩

/-- C16: for backend weights `d1 ≤ d2` and overrides `o1 ≤ o2`, all in `[0,100]` and the
overrides written as decimal numerals, `calculateIngressWeight` returns no error and the weight
for `(d1, o1)` is at most the weight for `(d2, o2)`. -/
theorem calculateIngressWeight_monotone (r : IngressReconciler) (rt : GoRuntime)
    (Store1 Store2 : StoreConfig) (ingress1 ingress2 : Ingress) (d1 d2 o1 o2 : Nat)
    (hS1 : Store1.DesiredWeight = (d1 : Int)) (hS2 : Store2.DesiredWeight = (d2 : Int))
    (hI1 : ingress1.ObjectMeta.Annotations.get (r.annotationKey "traffic-weight") = Nat.repr o1)
    (hI2 : ingress2.ObjectMeta.Annotations.get (r.annotationKey "traffic-weight") = Nat.repr o2)
    (hd : d1 ≤ d2) (hd100 : d2 ≤ 100) (ho : o1 ≤ o2) (ho100 : o2 ≤ 100) :
    (r.calculateIngressWeight rt Store1 ingress1).2 = none
    ∧ (r.calculateIngressWeight rt Store2 ingress2).2 = none
    ∧ (r.calculateIngressWeight rt Store1 ingress1).1
        ≤ (r.calculateIngressWeight rt Store2 ingress2).1 := by
  obtain ⟨m1, e1, m2, e2, hP1, hP2, hle, hv2⟩ := weightProduct_mono d1 d2 o1 o2 hd hd100 ho ho100
  rw [calculateIngressWeight_small r rt Store1 ingress1 d1 o1 m1 e1 hS1 (le_trans hd hd100)
      (le_trans ho ho100) hI1 hP1 (le_trans hle hv2),
    calculateIngressWeight_small r rt Store2 ingress2 d2 o2 m2 e2 hS2 hd100 ho100 hI2 hP2 hv2]
  exact ⟨rfl, rfl, Nat.ceil_mono hle⟩

theorem calculateIngressWeight_monotone_witness :
    (sampleReconciler.calculateIngressWeight sampleRuntime ⟨7, 0, ""⟩
        (sampleIngress (weightOverride "50") [])).2 = none
    ∧ (sampleReconciler.calculateIngressWeight sampleRuntime ⟨14, 0, ""⟩
        (sampleIngress (weightOverride "100") [])).2 = none
    ∧ (sampleReconciler.calculateIngressWeight sampleRuntime ⟨7, 0, ""⟩
        (sampleIngress (weightOverride "50") [])).1
      ≤ (sampleReconciler.calculateIngressWeight sampleRuntime ⟨14, 0, ""⟩
        (sampleIngress (weightOverride "100") [])).1 :=
  calculateIngressWeight_monotone sampleReconciler sampleRuntime ⟨7, 0, ""⟩ ⟨14, 0, ""⟩
    (sampleIngress (weightOverride "50") []) (sampleIngress (weightOverride "100") [])
    7 14 50 100 rfl rfl (by decide) (by decide) (by decide) (by decide) (by decide) (by decide)

/-! ## Errors and underflow in `calculateIngressWeight` -/

theorem F64.roundPos_valid (n d m : Nat) (e : Int) (h : F64.roundPos n d = some (m, e)) :
    (m = 0 ∧ e = 0) ∨ (1 ≤ m ∧ -1074 ≤ e) := by
  unfold F64.roundPos at h
  by_cases hn : n = 0
  · simp only [hn, if_true, Option.some.injEq, Prod.mk.injEq] at h
    exact Or.inl ⟨h.1.symm, h.2.symm⟩
  · simp only [hn, if_false] at h
    generalize hq : max (F64.floorLog2 n d - 52) (-1074) = q at h
    have hq1 : -1074 ≤ q := by rw [← hq]; exact le_max_right _ _
    generalize F64.roundHalfEven (F64.scaled n d q).1 (F64.scaled n d q).2 = m0 at h
    by_cases h0 : m0 = 0
    · simp only [h0, if_true] at h
      split_ifs at h
      simp only [Option.some.injEq, Prod.mk.injEq] at h
      exact Or.inl ⟨h.1.symm, h.2.symm⟩
    · simp only [h0, if_false] at h
      by_cases h53 : m0 = 2 ^ 53
      · simp only [h53, if_true] at h
        split_ifs at h
        simp only [Option.some.injEq, Prod.mk.injEq] at h
        refine Or.inr ⟨?_, ?_⟩
        · rw [← h.1]; exact Nat.one_le_two_pow
        · rw [← h.2]; omega
      · simp only [h53, if_false] at h
        split_ifs at h
        simp only [Option.some.injEq, Prod.mk.injEq] at h
        refine Or.inr ⟨?_, ?_⟩
        · rw [← h.1]; exact Nat.one_le_iff_ne_zero.2 h0
        · rw [← h.2]; exact hq1

theorem F64.ofRat_valid (neg : Bool) (n d : Nat) :
    F64.ofRat neg n d = F64.inf neg
    ∨ ∃ m e, F64.ofRat neg n d = F64.fin neg m e ∧ ((m = 0 ∧ e = 0) ∨ (1 ≤ m ∧ -1074 ≤ e)) := by
  unfold F64.ofRat
  cases h : F64.roundPos n d with
  | none => exact Or.inl rfl
  | some p =>
    obtain ⟨m, e⟩ := p
    exact Or.inr ⟨m, e, rfl, F64.roundPos_valid n d m e h⟩

theorem F64.ofInt_zero_le (d : Int) (hd : 0 ≤ d) :
    F64.le (F64.fin false 0 0) (F64.ofInt d) := by
  have h1 : F64.ofRat false 0 1 = F64.fin false 0 0 := by decide
  have hneg : decide (d < 0) = false := decide_eq_false (by omega)
  unfold F64.ofInt
  rw [hneg, ← h1]
  apply F64.ofRat_mono 0 1 d.natAbs 1 le_rfl le_rfl
  have hq : (0 : ℚ) ≤ (d.natAbs : ℚ) := by positivity
  simp

/-- The backend percentage of a backend weight that is not negative is finite and not
negative. -/
theorem backendPercentage_fin (d : Int) (hd : 0 ≤ d) :
    ∃ p q, F64.div (if F64.lt (F64.ofInt 100) (F64.ofInt d) then F64.ofInt 100 else F64.ofInt d)
      (F64.ofInt 100) = F64.fin false p q := by
  obtain ⟨a, b, hA, _, hA2⟩ := F64.clamp_bounds (F64.ofInt d) 0 0 (F64.ofInt_zero_le d hd)
    (by simp [F64.dyadic])
  rw [hA, F64.ofInt_hundred]
  rw [← F64.dyadic_hundred] at hA2
  have hone : F64.div (F64.fin false 7036874417766400 (-46))
      (F64.fin false 7036874417766400 (-46)) = F64.fin false 4503599627370496 (-52) := by
    decide
  have hB2 := F64.div_mono a 7036874417766400 7036874417766400 b (-46) (-46) (by decide) hA2
  rw [hone] at hB2
  obtain ⟨p, q, hB, _⟩ := F64.le_fin _ _ _ hB2
  exact ⟨p, q, hB⟩

theorem F64.mul_neg_zero (p : Nat) (q : Int) :
    F64.mul (F64.fin false p q) (F64.fin true 0 0) = F64.fin true 0 0 := by
  have hs : ∀ x : Int, (F64.scaled 0 1 x).1 = 0 := by
    intro x
    cases x <;> simp [F64.scaled]
  simp only [F64.mul, Nat.mul_zero, hs, F64.ofRat, F64.roundPos_zero, Bool.false_bne]

theorem F64.neg_lt_zero (m : Nat) (e : Int) (hm : 1 ≤ m) :
    F64.lt (F64.fin true m e) (F64.fin false 0 0) = true := by
  simp only [F64.lt, F64.signedAt, decide_eq_true_eq]
  have hp : (0 : Int) < ((m * 2 ^ (e - min e 0).toNat : Nat) : Int) := by
    have : 0 < m * 2 ^ (e - min e 0).toNat := Nat.mul_pos hm (Nat.two_pow_pos _)
    exact_mod_cast this
  simp only [if_true, Bool.false_eq_true, if_false, Nat.zero_mul, Int.ofNat_zero, mul_zero]
  omega

/-- For an override that `readFloat` reads as a literal with the sign `-`, and a backend
weight that is not negative: the weight is 0, and there is no error exactly when `ParseFloat`
rounds the literal to `-0`. -/
theorem calculateIngressWeight_negative_literal (r : IngressReconciler) (rt : GoRuntime)
    (Store : StoreConfig) (ingress : Ingress) (hex : Bool) (m : Nat) (e : Int)
    (hs : parseSpecial (ingress.ObjectMeta.Annotations.get
      (r.annotationKey "traffic-weight")).toList = none)
    (hr : readFloat (ingress.ObjectMeta.Annotations.get
      (r.annotationKey "traffic-weight")).toList = some (true, hex, m, e))
    (hd : 0 ≤ Store.DesiredWeight) :
    (r.calculateIngressWeight rt Store ingress).1 = 0
    ∧ ((r.calculateIngressWeight rt Store ingress).2 = none ↔
        ParseFloat (ingress.ObjectMeta.Annotations.get (r.annotationKey "traffic-weight"))
          = .ok (F64.fin true 0 0)) := by
  have hd0 : decide (Store.DesiredWeight < 0) = false := decide_eq_false (by omega)
  obtain ⟨p, q, hbp⟩ := backendPercentage_fin Store.DesiredWeight hd
  have hparse : ∀ v : F64,
      (v = F64.inf true
        ∨ ∃ m2 e2, v = F64.fin true m2 e2 ∧ ((m2 = 0 ∧ e2 = 0) ∨ (1 ≤ m2 ∧ -1074 ≤ e2))) →
      ParseFloat (ingress.ObjectMeta.Annotations.get (r.annotationKey "traffic-weight"))
        = (match v with
          | F64.inf _ => (Except.error NumError.errRange : Except NumError F64)
          | w => .ok w) →
      (r.calculateIngressWeight rt Store ingress).1 = 0
      ∧ ((r.calculateIngressWeight rt Store ingress).2 = none ↔
          ParseFloat (ingress.ObjectMeta.Annotations.get (r.annotationKey "traffic-weight"))
            = .ok (F64.fin true 0 0)) := by
    intro v hv hp
    rcases hv with rfl | ⟨m2, e2, rfl, ⟨rfl, rfl⟩ | ⟨hm2, _⟩⟩
    · simp only at hp
      unfold IngressReconciler.calculateIngressWeight
      simp only [F64.ofInt_lt_zero, hd0, hp, Bool.false_eq_true, if_false]
      simp
    · simp only at hp
      have h1 : F64.lt (F64.fin true 0 0) (F64.ofInt 0) = false := by decide
      have h2 : F64.lt (F64.ofInt 100) (F64.fin true 0 0) = false := by decide
      have h3 : F64.ceil (F64.fin true 0 0) = F64.fin true 0 0 := by decide
      unfold IngressReconciler.calculateIngressWeight
      simp only [F64.ofInt_lt_zero, hd0, hp, Bool.false_eq_true, if_false, h1, h2, hbp,
        F64.mul_neg_zero, h3]
      simp [F64.toUint, F64.truncMag]
    · simp only at hp
      have h1 : F64.lt (F64.fin true m2 e2) (F64.ofInt 0) = true := by
        rw [F64.ofInt_zero]; exact F64.neg_lt_zero m2 e2 hm2
      unfold IngressReconciler.calculateIngressWeight
      simp only [F64.ofInt_lt_zero, hd0, hp, Bool.false_eq_true, if_false, h1, if_true]
      simp
      omega
  have hpf : ParseFloat (ingress.ObjectMeta.Annotations.get (r.annotationKey "traffic-weight"))
      = (match (match e with
            | Int.ofNat k => F64.ofRat true (m * (if hex then 2 else 10) ^ k) 1
            | Int.negSucc k => F64.ofRat true m ((if hex then 2 else 10) ^ (k + 1))) with
          | F64.inf _ => (Except.error NumError.errRange : Except NumError F64)
          | w => .ok w) := by
    unfold ParseFloat
    rw [hs, hr]
  cases e with
  | ofNat k => exact hparse _ (F64.ofRat_valid _ _ _) hpf
  | negSucc k => exact hparse _ (F64.ofRat_valid _ _ _) hpf

/-- C6 (amended): `calculateIngressWeight` returns an error exactly when the desired weight is
negative, or `ParseFloat` rejects the annotation value, or the binary64 value `ParseFloat`
returns is below zero; every error comes with weight 0. For an override that is a literal with
the sign `-` and a desired weight that is not negative, the weight is 0, and there is no error
exactly when `ParseFloat` rounds the literal to `-0`. -/
theorem calculateIngressWeight_error_iff (r : IngressReconciler) (rt : GoRuntime)
    (Store : StoreConfig) (ingress : Ingress) :
    ((r.calculateIngressWeight rt Store ingress).2.isSome = true ↔
      (Store.DesiredWeight < 0
        ∨ (∃ e, ParseFloat (ingress.ObjectMeta.Annotations.get
              (r.annotationKey "traffic-weight")) = .error e)
        ∨ (∃ f, ParseFloat (ingress.ObjectMeta.Annotations.get
              (r.annotationKey "traffic-weight")) = .ok f
            ∧ F64.lt f (F64.ofInt 0) = true)))
    ∧ ((r.calculateIngressWeight rt Store ingress).2.isSome = true →
        (r.calculateIngressWeight rt Store ingress).1 = 0)
    ∧ (∀ (hex : Bool) (m : Nat) (e : Int),
        parseSpecial (ingress.ObjectMeta.Annotations.get
          (r.annotationKey "traffic-weight")).toList = none →
        readFloat (ingress.ObjectMeta.Annotations.get
          (r.annotationKey "traffic-weight")).toList = some (true, hex, m, e) →
        0 ≤ Store.DesiredWeight →
        (r.calculateIngressWeight rt Store ingress).1 = 0
        ∧ ((r.calculateIngressWeight rt Store ingress).2 = none ↔
            ParseFloat (ingress.ObjectMeta.Annotations.get (r.annotationKey "traffic-weight"))
              = .ok (F64.fin true 0 0))) := by
  have hmain : ((r.calculateIngressWeight rt Store ingress).2.isSome = true ↔
      (Store.DesiredWeight < 0
        ∨ (∃ e, ParseFloat (ingress.ObjectMeta.Annotations.get
              (r.annotationKey "traffic-weight")) = .error e)
        ∨ (∃ f, ParseFloat (ingress.ObjectMeta.Annotations.get
              (r.annotationKey "traffic-weight")) = .ok f
            ∧ F64.lt f (F64.ofInt 0) = true)))
    ∧ ((r.calculateIngressWeight rt Store ingress).2.isSome = true →
        (r.calculateIngressWeight rt Store ingress).1 = 0) := by
    unfold IngressReconciler.calculateIngressWeight
    simp only [F64.ofInt_lt_zero]
    by_cases hd : Store.DesiredWeight < 0
    · simp [hd]
    · simp only [hd, decide_False, Bool.false_eq_true, if_false, false_or]
      cases hp : ParseFloat (ingress.ObjectMeta.Annotations.get (r.annotationKey "traffic-weight")) with
      | error e => simp
      | ok f =>
        by_cases hf : F64.lt f (F64.ofInt 0) = true
        · simp [hf]
        · simp [hf]
  exact ⟨hmain.1, hmain.2, fun hex m e hs hr hd =>
    calculateIngressWeight_negative_literal r rt Store ingress hex m e hs hr hd⟩

/-- C6 at the override `-5` with `DesiredWeight = 50`: the weight is 0, and an error is
returned, as `-5` does not round to `-0`. -/
theorem calculateIngressWeight_error_iff_witness :
    (sampleReconciler.calculateIngressWeight sampleRuntime ⟨50, 50, ""⟩
        (sampleIngress (weightOverride "-5") [])).1 = 0
    ∧ ((sampleReconciler.calculateIngressWeight sampleRuntime ⟨50, 50, ""⟩
        (sampleIngress (weightOverride "-5") [])).2 = none ↔
      ParseFloat ((sampleIngress (weightOverride "-5") []).ObjectMeta.Annotations.get
        (sampleReconciler.annotationKey "traffic-weight")) = .ok (F64.fin true 0 0)) :=
  (calculateIngressWeight_error_iff sampleReconciler sampleRuntime ⟨50, 50, ""⟩
    (sampleIngress (weightOverride "-5") [])).2.2 false 5 0 (by decide) (by decide) (by decide)

/-- C6 (as stated, refuted): the override `-1e-400` is a negative number, which `readFloat`
reads with the sign `-`, the mantissa 1 and the exponent -400; `ParseFloat` rounds it to `-0`
without an error, and `calculateIngressWeight` returns weight 0 and no error. -/
theorem calculateIngressWeight_negative_underflow :
    readFloat "-1e-400".toList = some (true, false, 1, -400)
    ∧ ParseFloat ((sampleIngress (weightOverride "-1e-400") []).ObjectMeta.Annotations.get
        (sampleReconciler.annotationKey "traffic-weight")) = .ok (F64.fin true 0 0)
    ∧ sampleReconciler.calculateIngressWeight sampleRuntime ⟨50, 50, ""⟩
        (sampleIngress (weightOverride "-1e-400") []) = (0, none) :=
  ⟨by decide, by rfl, by decide!⟩

/-- The bound `50 * 2^-1074` cannot be lowered: at `DesiredWeight = 1` the product with
`49 * 2^-1074` is zero. -/
theorem calculatedWeight_below_bound :
    calculatedWeight 1 (F64.fin false 49 (-1074)) = F64.fin false 0 0
    ∧ calculatedWeight 1 (F64.fin false 50 (-1074)) = F64.fin false 1 (-1074) := by
  constructor <;> decide!

/-! ## The DynamoDB backend -/

theorem write_recorded {σ : Type} (b : dynamodbBackend σ) (update : Update) (s : σ)
    (log : List DynamoCall) :
    (b.recorded.write update (s, log)).state.2
      = log ++ [.TransactWriteItems ⟨[⟨some update⟩]⟩] := by
  unfold dynamodbBackend.write
  simp only [dynamodbBackend.recorded, DynamoDBAPI.recorded]
  cases h : (b.service.TransactWriteItems s ⟨[⟨some update⟩]⟩).1 with
  | none => rfl
  | some err => cases err <;> rfl

/-- C18: whatever the service answers, `OnWeightUpdate cfg` makes exactly one call of the
client, a `TransactWriteItems` whose input holds exactly one item, an update of the table keyed
by `ClusterName` = the cluster name with the expression `SET CurrentWeight = :c` and the single
expression value `:c` = the decimal string of `cfg.CurrentWeight`; the call, its outcome and
the state afterwards do not depend on `cfg.DesiredWeight`. -/
theorem OnWeightUpdate_single_write {σ : Type} (b : dynamodbBackend σ) (cfg : StoreConfig)
    (s : σ) (log : List DynamoCall) :
    (b.recorded.OnWeightUpdate cfg (s, log)).state.2
      = log ++ [.TransactWriteItems
          ⟨[⟨some
            { TableName := b.tableName
              ExpressionAttributeValues := [(":c", ⟨none, some (FormatInt cfg.CurrentWeight)⟩)]
              Key := [("ClusterName", ⟨some b.clusterName, none⟩)]
              UpdateExpression := "SET CurrentWeight = :c" }⟩]⟩]
    ∧ ∀ d : Int, b.recorded.OnWeightUpdate { cfg with DesiredWeight := d } (s, log)
        = b.recorded.OnWeightUpdate cfg (s, log) := by
  constructor
  · unfold dynamodbBackend.OnWeightUpdate
    exact write_recorded b _ s log
  · intro d
    rfl

theorem pathRequests_spec (ing : Ingress) (name : String) (paths : List HTTPIngressPath) :
    ∀ reqs : List NamespacedName,
    (∀ path ∈ paths, path.Backend.Service.isSome = true) →
    ∃ out, pathRequests ing name paths reqs = some out
      ∧ ∀ key, key ∈ out ↔ key ∈ reqs ∨ (key = ing.ObjectMeta.key
          ∧ ∃ path ∈ paths, ∃ svc, path.Backend.Service = some svc ∧ svc.Name = name) := by
  induction paths with
  | nil =>
    intro reqs _
    exact ⟨reqs, rfl, by simp⟩
  | cons path rest ih =>
    intro reqs hsvc
    have hp := hsvc path (List.mem_cons_self _ _)
    cases hs : path.Backend.Service with
    | none => rw [hs] at hp; cases hp
    | some svc =>
      obtain ⟨out, hout, hmem⟩ := ih
        (if svc.Name = name then reqs ++ [⟨ing.ObjectMeta.Namespace, ing.ObjectMeta.Name⟩]
         else reqs)
        (fun p hpm => hsvc p (List.mem_cons_of_mem _ hpm))
      refine ⟨out, by simp only [pathRequests, hs, hout], ?_⟩
      intro key
      rw [hmem key]
      by_cases hn : svc.Name = name
      · simp only [hn, if_true, List.mem_append, List.mem_singleton, List.mem_cons,
          List.not_mem_nil, or_false, ObjectMeta.key]
        constructor
        · rintro ((h | h) | ⟨h, p, hpm, svc2, h2, h3⟩)
          · exact Or.inl h
          · exact Or.inr ⟨h, path, Or.inl rfl, svc, hs, hn⟩
          · exact Or.inr ⟨h, p, Or.inr hpm, svc2, h2, h3⟩
        · rintro (h | ⟨h, p, hpm | hpm, svc2, h2, h3⟩)
          · exact Or.inl (Or.inl h)
          · exact Or.inl (Or.inr h)
          · exact Or.inr ⟨h, p, hpm, svc2, h2, h3⟩
      · simp only [hn, if_false, List.mem_cons]
        constructor
        · rintro (h | ⟨h, p, hpm, svc2, h2, h3⟩)
          · exact Or.inl h
          · exact Or.inr ⟨h, p, Or.inr hpm, svc2, h2, h3⟩
        · rintro (h | ⟨h, p, hpm | hpm, svc2, h2, h3⟩)
          · exact Or.inl h
          · subst hpm
            rw [hs] at h2
            cases h2
            exact absurd h3 hn
          · exact Or.inr ⟨h, p, hpm, svc2, h2, h3⟩

/-- Whether some path of some rule with an HTTP section names the service `name`. -/
theorem ruleRequests_spec (ing : Ingress) (name : String) (rules : List IngressRule) :
    ∀ reqs : List NamespacedName,
    (∀ rule ∈ rules, ∀ http, rule.HTTP = some http →
      ∀ path ∈ http.Paths, path.Backend.Service.isSome = true) →
    ∃ out, ruleRequests ing name rules reqs = some out
      ∧ ∀ key, key ∈ out ↔ key ∈ reqs ∨ (key = ing.ObjectMeta.key
          ∧ ∃ rule ∈ rules, ∃ http, rule.HTTP = some http
            ∧ ∃ path ∈ http.Paths, ∃ svc, path.Backend.Service = some svc ∧ svc.Name = name) := by
  induction rules with
  | nil =>
    intro reqs _
    exact ⟨reqs, rfl, by simp⟩
  | cons rule rest ih =>
    intro reqs hsvc
    have hrest : ∀ r ∈ rest, ∀ http, r.HTTP = some http →
        ∀ path ∈ http.Paths, path.Backend.Service.isSome = true :=
      fun r hr => hsvc r (List.mem_cons_of_mem _ hr)
    cases hh : rule.HTTP with
    | none =>
      obtain ⟨out, hout, hmem⟩ := ih reqs hrest
      refine ⟨out, by simp only [ruleRequests, hh, hout], ?_⟩
      intro key
      rw [hmem key]
      constructor
      · rintro (h | ⟨h, r, hr, http, h1, h2⟩)
        · exact Or.inl h
        · exact Or.inr ⟨h, r, List.mem_cons_of_mem _ hr, http, h1, h2⟩
      · rintro (h | ⟨h, r, hr, http, h1, h2⟩)
        · exact Or.inl h
        · rcases List.mem_cons.1 hr with hr | hr
          · subst hr
            rw [hh] at h1
            cases h1
          · exact Or.inr ⟨h, r, hr, http, h1, h2⟩
    | some http =>
      obtain ⟨mid, hmid, hmemMid⟩ := pathRequests_spec ing name http.Paths reqs
        (hsvc rule (List.mem_cons_self _ _) http hh)
      obtain ⟨out, hout, hmem⟩ := ih mid hrest
      refine ⟨out, by simp only [ruleRequests, hh, hmid, hout], ?_⟩
      intro key
      rw [hmem key, hmemMid key]
      constructor
      · rintro ((h | ⟨h, h2⟩) | ⟨h, r, hr, http2, h1, h2⟩)
        · exact Or.inl h
        · exact Or.inr ⟨h, rule, List.mem_cons_self _ _, http, hh, h2⟩
        · exact Or.inr ⟨h, r, List.mem_cons_of_mem _ hr, http2, h1, h2⟩
      · rintro (h | ⟨h, r, hr, http2, h1, h2⟩)
        · exact Or.inl (Or.inl h)
        · rcases List.mem_cons.1 hr with hr | hr
          · subst hr
            rw [hh] at h1
            cases h1
            exact Or.inl (Or.inr ⟨h, h2⟩)
          · exact Or.inr ⟨h, r, hr, http2, h1, h2⟩

theorem ingressRequests_spec (name : String) (items : List Ingress) :
    ∀ reqs : List NamespacedName,
    (∀ ing ∈ items, ∀ rule ∈ ing.Spec.Rules, ∀ http, rule.HTTP = some http →
      ∀ path ∈ http.Paths, path.Backend.Service.isSome = true) →
    ∃ out, ingressRequests name items reqs = some out
      ∧ ∀ key, key ∈ out ↔ key ∈ reqs ∨ ∃ ing ∈ items, key = ing.ObjectMeta.key
          ∧ ∃ rule ∈ ing.Spec.Rules, ∃ http, rule.HTTP = some http
            ∧ ∃ path ∈ http.Paths, ∃ svc, path.Backend.Service = some svc ∧ svc.Name = name := by
  induction items with
  | nil =>
    intro reqs _
    exact ⟨reqs, rfl, by simp⟩
  | cons ing rest ih =>
    intro reqs hsvc
    obtain ⟨mid, hmid, hmemMid⟩ := ruleRequests_spec ing name ing.Spec.Rules reqs
      (hsvc ing (List.mem_cons_self _ _))
    obtain ⟨out, hout, hmem⟩ := ih mid (fun i hi => hsvc i (List.mem_cons_of_mem _ hi))
    refine ⟨out, by simp only [ingressRequests, hmid, hout], ?_⟩
    intro key
    rw [hmem key, hmemMid key]
    constructor
    · rintro ((h | ⟨h, h2⟩) | ⟨i, hi, h, h2⟩)
      · exact Or.inl h
      · exact Or.inr ⟨ing, List.mem_cons_self _ _, h, h2⟩
      · exact Or.inr ⟨i, List.mem_cons_of_mem _ hi, h, h2⟩
    · rintro (h | ⟨i, hi, h, h2⟩)
      · exact Or.inl (Or.inl h)
      · rcases List.mem_cons.1 hi with hi | hi
        · subst hi
          exact Or.inl (Or.inr ⟨h, h2⟩)
        · exact Or.inr ⟨i, hi, h, h2⟩

/-- C20: for an object with a namespace, on a server where every path of the routes of that
namespace has a service backend: when listing the routes fails `mapToIngressRequests` returns
no request, and otherwise it returns the request of a route exactly when the route is in the
namespace of the object and some path of some rule with an HTTP section has a service backend
named as the object. -/
theorem mapToIngressRequests_spec (c : Cluster) (object : Endpoints)
    (hns : object.ObjectMeta.Namespace ≠ "")
    (hsvc : ∀ ing ∈ c.ingresses, ing.ObjectMeta.Namespace = object.ObjectMeta.Namespace →
      ∀ rule ∈ ing.Spec.Rules, ∀ http, rule.HTTP = some http →
        ∀ path ∈ http.Paths, path.Backend.Service.isSome = true) :
    ((∃ err, c.listIngresses object.ObjectMeta.Namespace = .error err) →
      mapToIngressRequests c object = some [])
    ∧ ((∃ items, c.listIngresses object.ObjectMeta.Namespace = .ok items) →
      ∃ reqs, mapToIngressRequests c object = some reqs
        ∧ ∀ key, key ∈ reqs ↔ ∃ ing ∈ c.ingresses, key = ing.ObjectMeta.key
            ∧ ing.ObjectMeta.Namespace = object.ObjectMeta.Namespace
            ∧ ∃ rule ∈ ing.Spec.Rules, ∃ http, rule.HTTP = some http
              ∧ ∃ path ∈ http.Paths, ∃ svc, path.Backend.Service = some svc
                ∧ svc.Name = object.ObjectMeta.Name) := by
  constructor
  · rintro ⟨err, herr⟩
    simp only [mapToIngressRequests, herr]
  · rintro ⟨items, hitems⟩
    have hlist : items
        = c.ingresses.filter (fun ing => ing.ObjectMeta.Namespace = object.ObjectMeta.Namespace) := by
      unfold Cluster.listIngresses at hitems
      cases hf : c.fault .listIngresses with
      | some msg => rw [hf] at hitems; cases hitems
      | none =>
        rw [hf] at hitems
        simp only [hns, if_false] at hitems
        cases hitems
        rfl
    obtain ⟨out, hout, hmem⟩ := ingressRequests_spec object.ObjectMeta.Name items []
      (by
        intro ing hing
        rw [hlist] at hing
        have h := List.mem_filter.1 hing
        exact hsvc ing h.1 (by simpa using h.2))
    refine ⟨out, by simp only [mapToIngressRequests, hitems, hout], ?_⟩
    intro key
    rw [hmem key, hlist]
    simp only [List.not_mem_nil, false_or, List.mem_filter, decide_eq_true_eq]
    constructor
    · rintro ⟨ing, ⟨h1, h2⟩, h3, h4⟩
      exact ⟨ing, h1, h3, h2, h4⟩
    · rintro ⟨ing, h1, h3, h2, h4⟩
      exact ⟨ing, ⟨h1, h2⟩, h3, h4⟩

/-- C20 at a server with routes in two namespaces: only `tests/my-ingress` is requested for
the object `tests/web`. -/
theorem mapToIngressRequests_spec_witness :
    ∃ reqs, mapToIngressRequests mapperCluster (sampleEndpoints "web" []) = some reqs
      ∧ ∀ key, key ∈ reqs ↔ ∃ ing ∈ mapperCluster.ingresses, key = ing.ObjectMeta.key
          ∧ ing.ObjectMeta.Namespace = (sampleEndpoints "web" []).ObjectMeta.Namespace
          ∧ ∃ rule ∈ ing.Spec.Rules, ∃ http, rule.HTTP = some http
            ∧ ∃ path ∈ http.Paths, ∃ svc, path.Backend.Service = some svc
              ∧ svc.Name = (sampleEndpoints "web" []).ObjectMeta.Name :=
  (mapToIngressRequests_spec mapperCluster (sampleEndpoints "web" []) (by decide)
    (by
      intro ing hing _ rule hrule http hhttp path hpath
      simp only [mapperCluster, routeIn, sampleRule, List.mem_cons, List.mem_singleton,
        List.not_mem_nil, or_false] at hing
      rcases hing with rfl | rfl | rfl | rfl <;>
        simp only [List.mem_singleton] at hrule <;> subst hrule <;>
        simp only [Option.some.injEq, reduceCtorEq] at hhttp <;>
        (try subst hhttp) <;>
        simp only [List.map_cons, List.map_nil, List.mem_singleton] at hpath <;>
        subst hpath <;> rfl)).2 ⟨_, rfl⟩

/-! ## Failures in the weight reconcile loop -/

/-- C21 (the code diverges): at current weight 50, a store holding 80 and an `OnWeightUpdate`
that fails, the first `doReconcile` sends the two events, calls `OnWeightUpdate` once and
returns its error, leaving `Store.CurrentWeight = 80`; the next `doReconcile`, the store still
holding 80, returns nil, sends no event and does not call `OnWeightUpdate`. -/
theorem doReconcile_failed_update_not_retried :
    (doReconcile testBackend sampleCache failingUpdateState).1 = some "assert.AnError"
    ∧ (doReconcile testBackend sampleCache failingUpdateState).2.events.length = 2
    ∧ (doReconcile testBackend sampleCache failingUpdateState).2.updates = [⟨80, 80, ""⟩]
    ∧ (doReconcile testBackend sampleCache failingUpdateState).2.backend
        = ⟨80, 1, some "assert.AnError"⟩
    ∧ (doReconcile testBackend sampleCache failingUpdateState).2.Store.CurrentWeight = 80
    ∧ doReconcile testBackend sampleCache
        (doReconcile testBackend sampleCache failingUpdateState).2
      = (none, (doReconcile testBackend sampleCache failingUpdateState).2) := by
  refine ⟨by decide, by decide, by decide, by decide, by decide, by rfl⟩

/-- C25: when `ReadWeight` returns a weight `w` different from `Store.CurrentWeight` and listing
the routes fails with `err`, `doReconcile` returns `err`, sends no event, does not call
`OnWeightUpdate` and leaves `Store.CurrentWeight` as it was (`Store.DesiredWeight` is `w`). A
following `doReconcile` for which `ReadWeight` returns `w` again and the listing succeeds
sends one event per item and calls `OnWeightUpdate` with `CurrentWeight = w`. -/
theorem doReconcile_enumeration_fails {σ : Type} (backend : TrafficWeightBackend σ) (c : Cache)
    (s : LoopState σ) (w : Int) (err : Error) (st : σ)
    (hread : backend.ReadWeight s.backend s.Store = ((w, none), st))
    (hne : w ≠ s.Store.CurrentWeight)
    (hlist : c.List = .error err) :
    doReconcile backend c s
      = (some err, { s with Store := { s.Store with DesiredWeight := w }, backend := st })
    ∧ (doReconcile backend c s).2.updates = s.updates
    ∧ (doReconcile backend c s).2.events = s.events
    ∧ (doReconcile backend c s).2.Store.CurrentWeight = s.Store.CurrentWeight
    ∧ ∀ (c2 : Cache) (items : List Ingress) (st2 : σ), c2.List = .ok items →
        backend.ReadWeight st { s.Store with DesiredWeight := w } = ((w, none), st2) →
        (∃ sent, (doReconcile backend c2 (doReconcile backend c s).2).2.events = s.events ++ sent
          ∧ sent.length = items.length)
        ∧ ∃ cfg, (doReconcile backend c2 (doReconcile backend c s).2).2.updates
              = s.updates ++ [cfg] ∧ cfg.CurrentWeight = w := by
  have hne' : s.Store.CurrentWeight ≠ w := fun h => hne h.symm
  have h1 : doReconcile backend c s
      = (some err, { s with Store := { s.Store with DesiredWeight := w }, backend := st }) := by
    unfold doReconcile
    simp only [hread, hne', ne_eq, not_false_eq_true, if_true, enqueueReconcileEvents, hlist]
  refine ⟨h1, by rw [h1], by rw [h1], by rw [h1], ?_⟩
  intro c2 items st2 hlist2 hread2
  rw [h1]
  obtain ⟨sent, hs, hl, _⟩ := enqueueReconcileEvents_ok s.events c2 items hlist2
  unfold doReconcile
  simp only [hread2, hne', ne_eq, not_false_eq_true, if_true, hs]
  exact ⟨⟨sent, rfl, hl⟩, ⟨_, rfl, rfl⟩⟩

/-- C25 at current weight 50, a store holding 80 and a cache whose `List` fails, followed by a
call with a cache listing two routes. -/
theorem doReconcile_enumeration_fails_witness :
    doReconcile testBackend failingCache (sampleLoopState 80)
      = (some "cache not started",
          { sampleLoopState 80 with Store := ⟨80, 50, ""⟩, backend := ⟨80, 0, none⟩ })
    ∧ (doReconcile testBackend failingCache (sampleLoopState 80)).2.updates = []
    ∧ (doReconcile testBackend failingCache (sampleLoopState 80)).2.events = []
    ∧ (doReconcile testBackend failingCache (sampleLoopState 80)).2.Store.CurrentWeight = 50
    ∧ ∀ (c2 : Cache) (items : List Ingress) (st2 : TestBackendState), c2.List = .ok items →
        testBackend.ReadWeight ⟨80, 0, none⟩ ⟨80, 50, ""⟩ = ((80, none), st2) →
        (∃ sent, (doReconcile testBackend c2
              (doReconcile testBackend failingCache (sampleLoopState 80)).2).2.events
            = [] ++ sent ∧ sent.length = items.length)
        ∧ ∃ cfg, (doReconcile testBackend c2
              (doReconcile testBackend failingCache (sampleLoopState 80)).2).2.updates
              = [] ++ [cfg] ∧ cfg.CurrentWeight = 80 :=
  doReconcile_enumeration_fails testBackend failingCache (sampleLoopState 80) 80
    "cache not started" ⟨80, 0, none⟩ rfl (by decide) rfl

/-! ## The health check of a rule with one service -/

theorem servicesName_single (name : String) (paths : List HTTPIngressPath)
    (hsingle : ∀ p ∈ paths, ∃ svc, p.Backend.Service = some svc ∧ svc.Name = name) :
    servicesName paths [name] = some [name]
    ∧ (paths ≠ [] → servicesName paths [] = some [name]) := by
  induction paths with
  | nil => exact ⟨rfl, fun h => absurd rfl h⟩
  | cons p rest ih =>
    obtain ⟨svc, hs, hn⟩ := hsingle p (List.mem_cons_self _ _)
    have ih' := (ih (fun q hq => hsingle q (List.mem_cons_of_mem _ hq))).1
    constructor
    · simp only [servicesName, hs, hn, List.mem_singleton, if_true]
      exact ih'
    · intro _
      simp only [servicesName, hs, hn, List.not_mem_nil, if_false, List.nil_append]
      exact ih'

/-- C26: for a rule with an HTTP section whose paths, at least one, all reference the service
`name`: when fetching the `Endpoints` of `name` fails with not-found `ingressRuleHasPods`
returns false, and when it fails with any other error `ingressRuleHasPods` returns true. -/
theorem ingressRuleHasPods_fetch_error (r : IngressReconciler) (rt : GoRuntime) (ns : String)
    (rule : IngressRule) (http : HTTPIngressRuleValue) (name : String) (hrt : rt.WellFormed)
    (hhttp : rule.HTTP = some http) (hpaths : http.Paths ≠ [])
    (hsingle : ∀ p ∈ http.Paths, ∃ svc, p.Backend.Service = some svc ∧ svc.Name = name) :
    (r.Client.getEndpoints ⟨ns, name⟩ = .error .notFound →
      r.ingressRuleHasPods rt ns rule = some false)
    ∧ (∀ msg, r.Client.getEndpoints ⟨ns, name⟩ = .error (.other msg) →
      r.ingressRuleHasPods rt ns rule = some true) := by
  have hkeys := (servicesName_single name http.Paths hsingle).2 hpaths
  have horder : rt.rangeOrder 0 [name] = [name] :=
    List.perm_singleton.1 (hrt 0 [name] (List.nodup_singleton name))
  constructor
  · intro herr
    simp only [IngressReconciler.ingressRuleHasPods, hhttp, hkeys, horder,
      IngressReconciler.servicesHavePods, herr, ApiError.IsNotFound, if_true]
  · intro msg herr
    simp only [IngressReconciler.ingressRuleHasPods, hhttp, hkeys, horder,
      IngressReconciler.servicesHavePods, herr, ApiError.IsNotFound, Bool.false_eq_true,
      if_false]

/-- C26 at a rule whose two paths reference the absent service `ghost`, and at a rule
referencing `flaky`, whose fetch fails with a server error. -/
theorem ingressRuleHasPods_fetch_error_witness :
    sampleReconciler.ingressRuleHasPods sampleRuntime "tests"
        (sampleRule "a.foo.io" ["ghost", "ghost"]) = some false
    ∧ sampleReconciler.ingressRuleHasPods sampleRuntime "tests"
        (sampleRule "a.foo.io" ["flaky"]) = some true :=
  ⟨(ingressRuleHasPods_fetch_error sampleReconciler sampleRuntime "tests"
      (sampleRule "a.foo.io" ["ghost", "ghost"]) _ "ghost" sampleRuntime_wellFormed rfl
      (by decide) (by decide)).1 rfl,
   (ingressRuleHasPods_fetch_error sampleReconciler sampleRuntime "tests"
      (sampleRule "a.foo.io" ["flaky"]) _ "flaky" sampleRuntime_wellFormed rfl
      (by decide) (by decide)).2 _ rfl⟩

/-! ## Weight errors in `newDnsEndpoint` and `reconcileDNSEntries` -/

/-- C23 (the code diverges): with `Store.DesiredWeight = -1`, for a route without the override
annotation and one healthy bound rule `newDnsEndpoint` writes an entry with `aws/weight`
`18446744073709551615`, the conversion `uint(-1)`; for the same route with the override `100`
the weight calculation fails and the entries stay as they were. -/
theorem newDnsEndpoint_negative_desired :
    (sampleReconciler.newDnsEndpoint sampleRuntime ⟨-1, 0, ""⟩ emptyDNSEndpoint "bar-celona"
        (sampleIngress none [sampleRule "a.foo.io" ["web"]]) sampleOwner).map
      (fun ep => ep.Spec.Endpoints.map
        (fun e => (e.DNSName, e.awsWeight))) = some [("a.foo.io", some "18446744073709551615")]
    ∧ (sampleReconciler.calculateIngressWeight sampleRuntime ⟨-1, 0, ""⟩
        (sampleIngress (weightOverride "100") [sampleRule "a.foo.io" ["web"]])).2
      = some .negativeBackendWeight
    ∧ (sampleReconciler.newDnsEndpoint sampleRuntime ⟨-1, 0, ""⟩ emptyDNSEndpoint "bar-celona"
        (sampleIngress (weightOverride "100") [sampleRule "a.foo.io" ["web"]]) sampleOwner).map
      (fun ep => ep.Spec.Endpoints) = some emptyDNSEndpoint.Spec.Endpoints := by
  refine ⟨by decide, by decide, by decide⟩

/-- C24 (the code diverges): for the route `tests/bar` with the unparsable override `abc`, on a
server that holds no record, the weight calculation fails and `reconcileDNSEntries` returns
nil after it has created the record `tests/bar`, owned by the route and without entries. -/
theorem reconcileDNSEntries_creates_on_weight_error :
    (sampleReconciler.calculateIngressWeight sampleRuntime ⟨50, 50, ""⟩
        (sampleIngress (weightOverride "abc") [sampleRule "a.foo.io" ["web"]])).2
      = some (.cannotParse "dns.adevinta.com/traffic-weight" "abc")
    ∧ (routesOnly [sampleIngress (weightOverride "abc")
        [sampleRule "a.foo.io" ["web"]]]).dnsEndpoints = []
    ∧ (sampleReconciler.reconcileDNSEntries sampleRuntime ⟨50, 50, ""⟩
        (routesOnly [sampleIngress (weightOverride "abc") [sampleRule "a.foo.io" ["web"]]])
        (sampleIngress (weightOverride "abc") [sampleRule "a.foo.io" ["web"]]) sampleOwner).map
      (fun res => (res.1, res.2.dnsEndpoints, res.2.writes))
      = some (none,
          [{ ObjectMeta :=
               { Name := "bar", Namespace := "tests", UID := "", Annotations := none,
                 DeletionTimestamp := none, OwnerReferences := [sampleOwner] }
             Spec := ⟨[]⟩ }],
          [(.createDNSEndpoint, ⟨"tests", "bar"⟩)]) := by
  refine ⟨by decide, by decide, by decide⟩

/-- C30 (the code diverges): for a rule with an HTTP section whose path has a resource backend
(a nil `Service`), `ingressRuleHasPods` dereferences nil and returns nothing, and so does
`mapToIngressRequests` on a server holding a route with that rule. -/
theorem resource_backend_panics :
    (resourceRule "a.foo.io").HTTP.isSome = true
    ∧ sampleReconciler.ingressRuleHasPods sampleRuntime "tests" (resourceRule "a.foo.io") = none
    ∧ mapToIngressRequests (routesOnly [sampleIngress none [resourceRule "a.foo.io"]])
        (sampleEndpoints "web" []) = none := by
  refine ⟨by decide, by decide, by decide⟩

/-! ## Running the synthesizer twice -/

/-- What `newDnsEndpoint` writes into the metadata before it computes a weight. -/
theorem newDnsEndpoint_cases (r : IngressReconciler) (rt : GoRuntime) (Store : StoreConfig)
    (dnsEndpoint : DNSEndpoint) (target : String) (ingress : Ingress) (owner : OwnerReference)
    (res : DNSEndpoint)
    (h : r.newDnsEndpoint rt Store dnsEndpoint target ingress owner = some res) :
    (r.isIngressWeighted ingress = true
      ∧ (r.calculateIngressWeight rt Store ingress).2 ≠ none
      ∧ res = { dnsEndpoint with
          ObjectMeta :=
            { dnsEndpoint.ObjectMeta with
              Name := ingress.ObjectMeta.Name
              Namespace := ingress.ObjectMeta.Namespace
              OwnerReferences := [owner] } })
    ∨ ((r.isIngressWeighted ingress = true →
          (r.calculateIngressWeight rt Store ingress).2 = none)
      ∧ ∃ hs : List Bool, r.healthChecks ingress.ObjectMeta.Namespace rt
          (r.filterIngressRulesByHost ingress.Spec.Rules) = hs.map some) := by
  unfold IngressReconciler.newDnsEndpoint at h
  by_cases hw : r.isIngressWeighted ingress = true
  · simp only [hw, if_true] at h
    rcases hcw : r.calculateIngressWeight rt Store ingress with ⟨w, err⟩
    rw [hcw] at h
    cases err with
    | some e =>
      simp only [Option.some.injEq] at h
      exact Or.inl ⟨hw, by simp, h.symm⟩
    | none =>
      right
      refine ⟨fun _ => rfl, ?_⟩
      simp only at h
      split at h
      · obtain ⟨eps, heps, _⟩ := Option.map_eq_some'.1 h
        exact endpointsLoop_some r _ target _ _ rt _ _ _ heps
      · obtain ⟨eps, heps, _⟩ := Option.map_eq_some'.1 h
        exact endpointsLoop_some r _ target _ _ rt _ _ _ heps
  · right
    refine ⟨fun hw' => absurd hw' hw, ?_⟩
    simp only [hw, Bool.false_eq_true, if_false] at h
    obtain ⟨eps, heps, _⟩ := Option.map_eq_some'.1 h
    exact endpointsLoop_some r _ target _ _ rt _ _ _ heps

/-- Applying `newDnsEndpoint` to its own result, with the same inputs and the same runtime, that
is with ranges that visit the services in the same orders, returns that result. -/
theorem newDnsEndpoint_idem (r : IngressReconciler) (rt : GoRuntime) (Store : StoreConfig)
    (dnsEndpoint : DNSEndpoint) (target : String) (ingress : Ingress) (owner : OwnerReference)
    (res : DNSEndpoint)
    (h : r.newDnsEndpoint rt Store dnsEndpoint target ingress owner = some res) :
    r.newDnsEndpoint rt Store res target ingress owner = some res := by
  rcases newDnsEndpoint_cases r rt Store dnsEndpoint target ingress owner res h with
    ⟨hw, herr, hres⟩ | ⟨hcalc, hs, hhs⟩
  · subst hres
    unfold IngressReconciler.newDnsEndpoint
    simp only [hw, if_true]
    rcases hcw : r.calculateIngressWeight rt Store ingress with ⟨w, err⟩
    rw [hcw] at herr
    cases err with
    | none => exact absurd rfl herr
    | some e => rfl
  · have h1 := newDnsEndpoint_eq r rt Store dnsEndpoint target ingress owner hs hcalc hhs
    rw [h1] at h
    rw [newDnsEndpoint_eq r rt Store res target ingress owner hs hcalc hhs]
    simp only [Option.some.injEq] at h
    subst h
    by_cases hc : r.isIngressWeighted ingress = true
        ∧ dnsEndpoint.ObjectMeta.Annotations.len = 0
    · simp only [hc, and_self, if_true, ite_self]
    · simp only [hc, if_false]

theorem getDNSEndpoint_notFound (c : Cluster) (key : NamespacedName)
    (h : c.getDNSEndpoint key = .error .notFound) :
    c.fault .getDNSEndpoint = none
      ∧ c.dnsEndpoints.find? (fun ep => ep.ObjectMeta.key = key) = none := by
  unfold Cluster.getDNSEndpoint at h
  cases hf : c.fault .getDNSEndpoint with
  | some msg => rw [hf] at h; cases h
  | none =>
    rw [hf] at h
    cases hfind : c.dnsEndpoints.find? (fun ep => ep.ObjectMeta.key = key) with
    | some ep => rw [hfind] at h; cases h
    | none => exact ⟨rfl, rfl⟩

theorem getDNSEndpoint_ok (c : Cluster) (key : NamespacedName) (ep : DNSEndpoint) :
    c.getDNSEndpoint key = .ok ep ↔
      c.fault .getDNSEndpoint = none
        ∧ c.dnsEndpoints.find? (fun ep => ep.ObjectMeta.key = key) = some ep := by
  unfold Cluster.getDNSEndpoint
  cases hf : c.fault .getDNSEndpoint with
  | some msg => simp
  | none =>
    cases hfind : c.dnsEndpoints.find? (fun ep => ep.ObjectMeta.key = key) with
    | some ep2 => simp
    | none => simp

theorem createDNSEndpoint_ok (c c1 : Cluster) (obj : DNSEndpoint)
    (h : c.createDNSEndpoint obj = (none, c1)) :
    c1 = { c with
      dnsEndpoints := c.dnsEndpoints ++ [obj]
      writes := c.writes ++ [(.createDNSEndpoint, obj.ObjectMeta.key)] } := by
  unfold Cluster.createDNSEndpoint at h
  cases hf : c.fault .createDNSEndpoint with
  | some msg => rw [hf] at h; cases h
  | none =>
    rw [hf] at h
    simp only at h
    split at h
    · cases h
    · cases h
      rfl

theorem updateDNSEndpoint_ok (c c1 : Cluster) (obj : DNSEndpoint)
    (h : c.updateDNSEndpoint obj = (none, c1)) :
    c1 = { c with
      dnsEndpoints := c.dnsEndpoints.map
        (fun ep => if ep.ObjectMeta.key = obj.ObjectMeta.key then obj else ep)
      writes := c.writes ++ [(.updateDNSEndpoint, obj.ObjectMeta.key)] } := by
  unfold Cluster.updateDNSEndpoint at h
  cases hf : c.fault .updateDNSEndpoint with
  | some msg => rw [hf] at h; cases h
  | none =>
    rw [hf] at h
    simp only at h
    split at h
    · cases h
      rfl
    · cases h

theorem find?_replaced (l : List DNSEndpoint) (m e : DNSEndpoint)
    (h : l.find? (fun ep => ep.ObjectMeta.key = m.ObjectMeta.key) = some e) :
    (l.map (fun ep => if ep.ObjectMeta.key = m.ObjectMeta.key then m else ep)).find?
      (fun ep => ep.ObjectMeta.key = m.ObjectMeta.key) = some m := by
  induction l with
  | nil => simp at h
  | cons x xs ih =>
    by_cases hx : x.ObjectMeta.key = m.ObjectMeta.key
    · simp [List.find?, hx]
    · simp only [List.find?, hx, decide_False] at h
      simp only [List.map_cons, hx, if_false, List.find?, decide_False]
      exact ih h

/-- A second `CreateOrUpdate` with an idempotent mutate function changes nothing. -/
theorem CreateOrUpdate_twice (c c1 : Cluster) (obj : DNSEndpoint)
    (f : DNSEndpoint → Option DNSEndpoint)
    (hidem : ∀ x y, f x = some y → f y = some y)
    (h : CreateOrUpdate c obj f = some (none, c1)) :
    CreateOrUpdate c1 obj f = some (none, c1) := by
  unfold CreateOrUpdate at h
  cases hg : c.getDNSEndpoint obj.ObjectMeta.key with
  | error err =>
    rw [hg] at h
    cases err with
    | other msg => simp [ApiError.IsNotFound] at h
    | notFound =>
      obtain ⟨hfault, hfind⟩ := getDNSEndpoint_notFound c _ hg
      simp only [ApiError.IsNotFound, Bool.not_true, Bool.false_eq_true, if_false] at h
      cases hf : f obj with
      | none => rw [hf] at h; cases h
      | some m =>
        rw [hf] at h
        simp only at h
        by_cases hk : m.ObjectMeta.key = obj.ObjectMeta.key
        · simp only [hk, ne_eq, not_true_eq_false, if_false, Option.some.injEq] at h
          have hc1 := createDNSEndpoint_ok c c1 m h
          have hget : c1.getDNSEndpoint obj.ObjectMeta.key = .ok m := by
            rw [getDNSEndpoint_ok, hc1]
            refine ⟨hfault, ?_⟩
            simp only [List.find?_append, hfind, Option.none_or, List.find?, hk, decide_True]
          unfold CreateOrUpdate
          simp only [hget, hidem obj m hf, hk, ne_eq, not_true_eq_false, if_false, if_true]
        · simp [hk] at h
  | ok existing =>
    rw [hg] at h
    simp only at h
    cases hf : f existing with
    | none => rw [hf] at h; cases h
    | some m =>
      rw [hf] at h
      simp only at h
      by_cases hk : m.ObjectMeta.key = obj.ObjectMeta.key
      · simp only [hk, ne_eq, not_true_eq_false, if_false] at h
        by_cases hsem : existing.semantic = m.semantic
        · simp only [hsem, if_true, Option.some.injEq, Prod.mk.injEq, true_and] at h
          subst h
          unfold CreateOrUpdate
          simp only [hg, hf, hk, ne_eq, not_true_eq_false, if_false, hsem, if_true]
        · simp only [hsem, if_false, Option.some.injEq] at h
          have hc1 := updateDNSEndpoint_ok c c1 m h
          obtain ⟨hfault, hfind⟩ := (getDNSEndpoint_ok c _ existing).1 hg
          have hget : c1.getDNSEndpoint obj.ObjectMeta.key = .ok m := by
            rw [getDNSEndpoint_ok, hc1]
            refine ⟨hfault, ?_⟩
            rw [← hk] at hfind ⊢
            exact find?_replaced _ m existing hfind
          unfold CreateOrUpdate
          simp only [hget, hidem existing m hf, hk, ne_eq, not_true_eq_false, if_false, if_true]
      · simp [hk] at h

/-- A second `reconcileDNSEntries` with the same runtime, right after one that returned nil,
changes nothing. -/
theorem reconcileDNSEntries_twice (r : IngressReconciler) (rt : GoRuntime) (Store : StoreConfig)
    (c c1 : Cluster) (ingress : Ingress) (ownerRef : OwnerReference)
    (h : r.reconcileDNSEntries rt Store c ingress ownerRef = some (none, c1)) :
    r.reconcileDNSEntries rt Store c1 ingress ownerRef = some (none, c1) := by
  unfold IngressReconciler.reconcileDNSEntries at h ⊢
  by_cases hfilter : r.ingressAnnotationMatchFilter ingress = true
  · simp only [hfilter, Bool.not_true, Bool.false_eq_true, if_false] at h ⊢
    rcases ht : r.getTargetFromIngress ingress with ⟨target, err⟩
    rw [ht] at h
    cases err with
    | some e =>
      simp only [Option.some.injEq, Prod.mk.injEq, true_and] at h
      subst h
      rfl
    | none =>
      simp only at h ⊢
      exact CreateOrUpdate_twice c c1 _ _
        (fun x y hxy => newDnsEndpoint_idem r rt Store x target ingress ownerRef y hxy) h
  · simp only [hfilter, Bool.not_false, if_true, Option.some.injEq, Prod.mk.injEq,
      true_and] at h ⊢

theorem alternatingRuntime_wellFormed : alternatingRuntime.WellFormed := by
  intro n keys _
  unfold alternatingRuntime
  by_cases h : n % 2 = 0
  · simp only [h, if_true]
    exact List.Perm.refl keys
  · simp only [h, if_false]
    exact List.reverse_perm keys

theorem calculateIngressWeight_congr (r : IngressReconciler) (rt1 rt2 : GoRuntime)
    (Store : StoreConfig) (ingress : Ingress) (huint : rt2.uintOfFloat = rt1.uintOfFloat) :
    r.calculateIngressWeight rt2 Store ingress = r.calculateIngressWeight rt1 Store ingress := by
  unfold IngressReconciler.calculateIngressWeight
  rw [huint]

theorem endpointsLoop_congr (r : IngressReconciler) (ns target : String)
    (hc : Option ProviderSpecificProperty) (rules : List IngressRule) :
    ∀ (rt1 rt2 : GoRuntime) (w : Nat) (acc : List Endpoint),
      r.healthChecks ns rt2 rules = r.healthChecks ns rt1 rules →
      r.endpointsLoop ns target hc rt2 rules w acc
        = r.endpointsLoop ns target hc rt1 rules w acc := by
  induction rules with
  | nil => intro _ _ _ _ _; rfl
  | cons rule rest ih =>
    intro rt1 rt2 w acc h
    simp only [IngressReconciler.healthChecks, List.cons.injEq] at h
    unfold IngressReconciler.endpointsLoop
    rw [h.1]
    cases r.ingressRuleHasPods rt1 ns rule with
    | none => rfl
    | some b => exact ih rt1.next rt2.next _ _ h.2

/-- The record `newDnsEndpoint` returns depends on the runtime only through the conversion
`uint(x)` and the results of the health checks of the bound rules. -/
theorem newDnsEndpoint_congr (r : IngressReconciler) (rt1 rt2 : GoRuntime)
    (Store : StoreConfig) (dnsEndpoint : DNSEndpoint) (target : String) (ingress : Ingress)
    (owner : OwnerReference) (huint : rt2.uintOfFloat = rt1.uintOfFloat)
    (hsame : r.healthChecks ingress.ObjectMeta.Namespace rt2
        (r.filterIngressRulesByHost ingress.Spec.Rules)
      = r.healthChecks ingress.ObjectMeta.Namespace rt1
        (r.filterIngressRulesByHost ingress.Spec.Rules)) :
    r.newDnsEndpoint rt2 Store dnsEndpoint target ingress owner
      = r.newDnsEndpoint rt1 Store dnsEndpoint target ingress owner := by
  unfold IngressReconciler.newDnsEndpoint
  simp only [calculateIngressWeight_congr r rt1 rt2 Store ingress huint,
    endpointsLoop_congr r _ target _ _ rt1 rt2 _ _ hsame]

/-- A second `reconcileDNSEntries` whose health checks give the results of the first, right
after a first one that returned nil, changes nothing. -/
theorem reconcileDNSEntries_same_health (r : IngressReconciler) (rt1 rt2 : GoRuntime)
    (Store : StoreConfig) (c c1 : Cluster) (ingress : Ingress) (ownerRef : OwnerReference)
    (huint : rt2.uintOfFloat = rt1.uintOfFloat)
    (hsame : r.healthChecks ingress.ObjectMeta.Namespace rt2
        (r.filterIngressRulesByHost ingress.Spec.Rules)
      = r.healthChecks ingress.ObjectMeta.Namespace rt1
        (r.filterIngressRulesByHost ingress.Spec.Rules))
    (h : r.reconcileDNSEntries rt1 Store c ingress ownerRef = some (none, c1)) :
    r.reconcileDNSEntries rt2 Store c1 ingress ownerRef = some (none, c1) := by
  have hfun : ∀ target : String,
      (fun dnsEndpoint => r.newDnsEndpoint rt2 Store dnsEndpoint target ingress ownerRef)
        = (fun dnsEndpoint => r.newDnsEndpoint rt1 Store dnsEndpoint target ingress ownerRef) :=
    fun target => funext fun dnsEndpoint =>
      newDnsEndpoint_congr r rt1 rt2 Store dnsEndpoint target ingress ownerRef huint hsame
  have heq : r.reconcileDNSEntries rt2 Store c1 ingress ownerRef
      = r.reconcileDNSEntries rt1 Store c1 ingress ownerRef := by
    unfold IngressReconciler.reconcileDNSEntries
    simp only [hfun]
  rw [heq]
  exact reconcileDNSEntries_twice r rt1 Store c c1 ingress ownerRef h

/-- C27 (the code diverges): the route `tests/bar` has one bound rule, whose paths reference
the services `flaky`, whose fetch fails with a server error, and `empty`, which has no pods;
nothing changes between the two runs. The first run visits `flaky` first and returns a record
with `aws/weight` `50`; the second run, applied to that record, visits `empty` first and returns
a record with `aws/weight` `0`. So the second `reconcileDNSEntries` updates the record the first
one created. Every range of the runtime visits each key once. -/
theorem newDnsEndpoint_second_run_differs :
    alternatingRuntime.WellFormed
    ∧ (∃ res1 res2,
      sampleReconciler.newDnsEndpoint alternatingRuntime ⟨50, 50, ""⟩ emptyDNSEndpoint
          "bar-celona" (sampleIngress none [sampleRule "a.foo.io" ["flaky", "empty"]])
          sampleOwner = some res1
      ∧ res1.Spec.Endpoints.map (fun e => (e.DNSName, e.awsWeight)) = [("a.foo.io", some "50")]
      ∧ sampleReconciler.newDnsEndpoint (alternatingRuntime.after 1) ⟨50, 50, ""⟩ res1
          "bar-celona" (sampleIngress none [sampleRule "a.foo.io" ["flaky", "empty"]])
          sampleOwner = some res2
      ∧ res2.Spec.Endpoints.map (fun e => (e.DNSName, e.awsWeight)) = [("a.foo.io", some "0")])
    ∧ (∃ c1 c2,
      sampleReconciler.reconcileDNSEntries alternatingRuntime ⟨50, 50, ""⟩
          (routesOnly [sampleIngress none [sampleRule "a.foo.io" ["flaky", "empty"]]])
          (sampleIngress none [sampleRule "a.foo.io" ["flaky", "empty"]]) sampleOwner
        = some (none, c1)
      ∧ c1.writes = [(.createDNSEndpoint, ⟨"tests", "bar"⟩)]
      ∧ sampleReconciler.reconcileDNSEntries (alternatingRuntime.after 1) ⟨50, 50, ""⟩ c1
          (sampleIngress none [sampleRule "a.foo.io" ["flaky", "empty"]]) sampleOwner
        = some (none, c2)
      ∧ c2.writes = [(.createDNSEndpoint, ⟨"tests", "bar"⟩),
          (.updateDNSEndpoint, ⟨"tests", "bar"⟩)]) :=
  ⟨alternatingRuntime_wellFormed, ⟨_, _, rfl, by decide, rfl, by decide⟩,
    ⟨_, _, rfl, by decide, rfl, by decide⟩⟩

/-! ## The annotation filter -/

theorem splitChar_length (sep : Char) (l : List Char) :
    (splitChar sep l).length = l.count sep + 1 := by
  induction l with
  | nil => rfl
  | cons c cs ih =>
    unfold splitChar
    by_cases hc : c = sep
    · subst hc
      simp [ih]
    · simp only [hc, if_false]
      have hcount : List.count sep (c :: cs) = List.count sep cs := by
        simp [List.count_cons, hc]
      rw [hcount]
      cases hs : splitChar sep cs with
      | nil => rw [hs] at ih; simp at ih
      | cons piece pieces => rw [hs] at ih; simpa using ih

theorem splitChar_of_not_mem (sep : Char) (l : List Char) (h : sep ∉ l) :
    splitChar sep l = [l] := by
  induction l with
  | nil => rfl
  | cons c cs ih =>
    have hc : ¬ c = sep := fun hc => h (by simp [hc])
    have hcs : sep ∉ cs := fun hm => h (List.mem_cons_of_mem _ hm)
    unfold splitChar
    simp only [hc, if_false, ih hcs]

theorem splitChar_pair (sep : Char) (k v : List Char) (hk : sep ∉ k) (hv : sep ∉ v) :
    splitChar sep (k ++ sep :: v) = [k, v] := by
  induction k with
  | nil =>
    simp only [List.nil_append, splitChar, if_true, splitChar_of_not_mem sep v hv]
  | cons c cs ih =>
    have hc : ¬ c = sep := fun hc => hk (by simp [hc])
    have hcs : sep ∉ cs := fun hm => hk (List.mem_cons_of_mem _ hm)
    have ih' := ih hcs
    show splitChar sep (c :: (cs ++ sep :: v)) = [c :: cs, v]
    unfold splitChar
    simp only [hc, if_false, ih']

/-- C28: a filter string that does not hold exactly one `=` (it does not split into two
parts) gives the empty filter, and with the empty filter every route is accepted; a string
`key=value`, neither part holding a `=`, gives the filter of that key and value, and with a
filter whose key or value is not empty a route is accepted exactly when its annotations hold
that key with that value. -/
theorem NewAnnotationFilter_spec :
    (∀ s : String, s.toList.count '=' ≠ 1 → NewAnnotationFilter s = ⟨"", ""⟩)
    ∧ (∀ (r : IngressReconciler) (ingress : Ingress), r.AnnotationFilter = ⟨"", ""⟩ →
        r.ingressAnnotationMatchFilter ingress = true)
    ∧ (∀ key value : String, '=' ∉ key.toList → '=' ∉ value.toList →
        NewAnnotationFilter (key ++ "=" ++ value) = ⟨key, value⟩)
    ∧ (∀ (r : IngressReconciler) (ingress : Ingress),
        (r.AnnotationFilter.key ≠ "" ∨ r.AnnotationFilter.value ≠ "") →
        (r.ingressAnnotationMatchFilter ingress = true ↔
          (r.AnnotationFilter.key, r.AnnotationFilter.value)
            ∈ ingress.ObjectMeta.Annotations.getD [])) := by
  refine ⟨?_, ?_, ?_, ?_⟩
  · intro s hs
    have hlen := splitChar_length '=' s.toList
    unfold NewAnnotationFilter
    split
    · rename_i key value heq
      rw [heq] at hlen
      simp only [List.length_cons, List.length_nil] at hlen
      omega
    · rfl
  · intro r ingress h
    simp [IngressReconciler.ingressAnnotationMatchFilter, h]
  · intro key value hk hv
    unfold NewAnnotationFilter
    have hl : (key ++ "=" ++ value).toList = key.toList ++ '=' :: value.toList := by
      simp [String.toList]
    rw [hl, splitChar_pair '=' _ _ hk hv]
    rfl
  · intro r ingress hne
    have hne' : ¬ (⟨"", ""⟩ : annotationFilter) = r.AnnotationFilter := by
      intro heq
      rw [← heq] at hne
      simp at hne
    simp only [IngressReconciler.ingressAnnotationMatchFilter, hne', if_false,
      IngressReconciler.ingressHasAnnotationKeyValue, List.any_eq_true, Bool.and_eq_true,
      beq_iff_eq]
    constructor
    · rintro ⟨⟨k, v⟩, hmem, hk, hv⟩
      simp only at hk hv
      subst hk hv
      exact hmem
    · intro hmem
      exact ⟨_, hmem, rfl, rfl⟩

/-- C28 at the strings of the tests: the empty string, a string without `=`, a string with two
`=`, and `foo=bar`. -/
theorem NewAnnotationFilter_spec_witness :
    NewAnnotationFilter "" = ⟨"", ""⟩ ∧ NewAnnotationFilter "foo" = ⟨"", ""⟩
    ∧ NewAnnotationFilter "a=b=c" = ⟨"", ""⟩
    ∧ NewAnnotationFilter "foo=bar" = ⟨"foo", "bar"⟩
    ∧ (filteringReconciler.ingressAnnotationMatchFilter
          (sampleIngress (some [("foo", "notbar")]) []) = true
        ↔ (filteringReconciler.AnnotationFilter.key, filteringReconciler.AnnotationFilter.value)
            ∈ (sampleIngress (some [("foo", "notbar")]) []).ObjectMeta.Annotations.getD []) :=
  ⟨NewAnnotationFilter_spec.1 "" (by decide), NewAnnotationFilter_spec.1 "foo" (by decide),
   NewAnnotationFilter_spec.1 "a=b=c" (by decide),
   NewAnnotationFilter_spec.2.2.1 "foo" "bar" (by decide) (by decide),
   NewAnnotationFilter_spec.2.2.2 filteringReconciler _ (Or.inl (by decide))⟩

/-! ## Failing writes and the seeding of the row -/

/-- C22 (as stated, refuted): when the transactional write fails with an error that is neither
a `TableAlreadyExistsException` nor a `TransactionCanceledException`, here a throttling
error, `OnWeightUpdate` does not return: `log.Fatalf` ends the process. -/
theorem OnWeightUpdate_fatal :
    ((failingDynamoBackend (.other "ThrottlingException")).service.TransactWriteItems ()
        ⟨[⟨some
          { TableName := "traffic-controller"
            ExpressionAttributeValues := [(":c", ⟨none, some "50"⟩)]
            Key := [("ClusterName", ⟨some "lolo", none⟩)]
            UpdateExpression := "SET CurrentWeight = :c" }⟩]⟩).1
      = some (.other "ThrottlingException")
    ∧ (failingDynamoBackend (.other "ThrottlingException")).OnWeightUpdate ⟨50, 50, ""⟩ ()
      = .exited ()
    ∧ ∀ err st, (failingDynamoBackend (.other "ThrottlingException")).OnWeightUpdate
        ⟨50, 50, ""⟩ () ≠ .returned err st := by
  refine ⟨rfl, rfl, ?_⟩
  intro err st h
  cases h

/-- C22 (amended): `OnWeightUpdate` returns nil when the transactional write succeeds, and
returns the error of the write, the process running on, when it is a
`TableAlreadyExistsException` or a `TransactionCanceledException`; on any other error of the
write it does not return, `log.Fatalf` ends the process. -/
theorem OnWeightUpdate_outcome {σ : Type} (b : dynamodbBackend σ) (cfg : StoreConfig) (s : σ) :
    (∀ st, b.service.TransactWriteItems s
          ⟨[⟨some
            { TableName := b.tableName
              ExpressionAttributeValues := [(":c", ⟨none, some (FormatInt cfg.CurrentWeight)⟩)]
              Key := [("ClusterName", ⟨some b.clusterName, none⟩)]
              UpdateExpression := "SET CurrentWeight = :c" }⟩]⟩ = (none, st) →
        b.OnWeightUpdate cfg s = .returned none st)
    ∧ (∀ err st, b.service.TransactWriteItems s
          ⟨[⟨some
            { TableName := b.tableName
              ExpressionAttributeValues := [(":c", ⟨none, some (FormatInt cfg.CurrentWeight)⟩)]
              Key := [("ClusterName", ⟨some b.clusterName, none⟩)]
              UpdateExpression := "SET CurrentWeight = :c" }⟩]⟩ = (some err, st) →
        ((∃ msg, err = .TableAlreadyExistsException msg
            ∨ err = .TransactionCanceledException msg) →
          b.OnWeightUpdate cfg s = .returned (some err) st)
        ∧ ((∃ msg, err = .other msg) → b.OnWeightUpdate cfg s = .exited st)) := by
  constructor
  · intro st h
    simp only [dynamodbBackend.OnWeightUpdate, dynamodbBackend.write, h]
  · intro err st h
    constructor
    · rintro ⟨msg, rfl | rfl⟩ <;>
        simp only [dynamodbBackend.OnWeightUpdate, dynamodbBackend.write, h]
    · rintro ⟨msg, rfl⟩
      simp only [dynamodbBackend.OnWeightUpdate, dynamodbBackend.write, h]

/-- C22 (amended) at a write that fails with a cancelled transaction. -/
theorem OnWeightUpdate_outcome_witness :
    (failingDynamoBackend (.TransactionCanceledException "conflict")).OnWeightUpdate
        ⟨50, 50, ""⟩ ()
      = .returned (some (.TransactionCanceledException "conflict")) () :=
  ((OnWeightUpdate_outcome (failingDynamoBackend (.TransactionCanceledException "conflict"))
      ⟨50, 50, ""⟩ ()).2 _ () rfl).1 ⟨"conflict", Or.inr rfl⟩

theorem initializeClusterRow_recorded {σ : Type} (b : dynamodbBackend σ) (Store : StoreConfig)
    (s : σ) (log : List DynamoCall) :
    (b.recorded.initializeClusterRow Store (s, log)).state.2
      = log ++ [.TransactWriteItems
          ⟨[⟨some
            { TableName := b.tableName
              ExpressionAttributeValues :=
                [(":d", ⟨none, some (FormatInt Store.DesiredWeight)⟩),
                 (":c", ⟨none, some (FormatInt Store.CurrentWeight)⟩)]
              Key := [("ClusterName", ⟨some b.clusterName, none⟩)]
              UpdateExpression := "SET DesiredWeight = :d, CurrentWeight = :c" }⟩]⟩] := by
  unfold dynamodbBackend.initializeClusterRow
  exact write_recorded b _ s log

/-- C29: `initializeRowIfNotExist` first reads the row. When the read succeeds with an empty
item it makes exactly one more call, a transactional write of one update that sets both
`DesiredWeight` and `CurrentWeight`, to the values of the package variable `Store`. In every
other case, a row that exists or a read that fails, it returns after the read without any
write: the service is in the state the read left. -/
theorem initializeRowIfNotExist_spec {σ : Type} (b : dynamodbBackend σ)
    (UnmarshalMap : AttributeMap → Except Error Item) (Store store : StoreConfig) (s : σ)
    (log : List DynamoCall) :
    (∀ st, b.service.GetItem s ⟨b.tableName, [("ClusterName", ⟨some b.clusterName, none⟩)]⟩
          = (.ok ⟨[]⟩, st) →
        (b.recorded.initializeRowIfNotExist UnmarshalMap Store store (s, log)).state.2
          = log ++ [.GetItem ⟨b.tableName, [("ClusterName", ⟨some b.clusterName, none⟩)]⟩,
              .TransactWriteItems
                ⟨[⟨some
                  { TableName := b.tableName
                    ExpressionAttributeValues :=
                      [(":d", ⟨none, some (FormatInt Store.DesiredWeight)⟩),
                       (":c", ⟨none, some (FormatInt Store.CurrentWeight)⟩)]
                    Key := [("ClusterName", ⟨some b.clusterName, none⟩)]
                    UpdateExpression := "SET DesiredWeight = :d, CurrentWeight = :c" }⟩]⟩])
    ∧ (∀ res st, b.service.GetItem s
            ⟨b.tableName, [("ClusterName", ⟨some b.clusterName, none⟩)]⟩ = (res, st) →
        (∀ out, res = .ok out → out.Item ≠ []) →
        b.recorded.initializeRowIfNotExist UnmarshalMap Store store (s, log)
          = .returned ()
              (st, log ++ [.GetItem
                ⟨b.tableName, [("ClusterName", ⟨some b.clusterName, none⟩)]⟩])) := by
  constructor
  · intro st hg
    have hread : b.recorded.ReadWeight UnmarshalMap (s, log)
        = ((0, some (.DynamoNoResultsError "Item not found")),
            (st, log ++ [.GetItem
              ⟨b.tableName, [("ClusterName", ⟨some b.clusterName, none⟩)]⟩])) := by
      simp [dynamodbBackend.ReadWeight, dynamodbBackend.ReadItem, dynamodbBackend.recorded,
        DynamoDBAPI.recorded, hg]
    unfold dynamodbBackend.initializeRowIfNotExist
    rw [hread]
    simp only
    have hrow := initializeClusterRow_recorded b Store st
      (log ++ [.GetItem ⟨b.tableName, [("ClusterName", ⟨some b.clusterName, none⟩)]⟩])
    cases hw : b.recorded.initializeClusterRow Store
        (st, log ++ [.GetItem ⟨b.tableName, [("ClusterName", ⟨some b.clusterName, none⟩)]⟩])
      with
    | returned a st2 =>
      rw [hw] at hrow
      simp only [Outcome.state] at hrow ⊢
      rw [hrow]
      simp
    | exited st2 =>
      rw [hw] at hrow
      simp only [Outcome.state] at hrow ⊢
      rw [hrow]
      simp
  · intro res st hg hrow
    unfold dynamodbBackend.initializeRowIfNotExist
    cases res with
    | error err =>
      simp [dynamodbBackend.ReadWeight, dynamodbBackend.ReadItem, dynamodbBackend.recorded,
        DynamoDBAPI.recorded, hg]
    | ok out =>
      have hne := hrow out rfl
      have hlen : ¬ out.Item.length = 0 := by
        intro h0
        exact hne (List.length_eq_zero.1 h0)
      cases hu : UnmarshalMap out.Item with
      | error e =>
        simp [dynamodbBackend.ReadWeight, dynamodbBackend.ReadItem, dynamodbBackend.recorded,
          DynamoDBAPI.recorded, hg, hlen, hu]
      | ok item =>
        simp [dynamodbBackend.ReadWeight, dynamodbBackend.ReadItem, dynamodbBackend.recorded,
          DynamoDBAPI.recorded, hg, hlen, hu]

/-- C29 at the mock client: on the empty store the call reads and writes the row with
`DesiredWeight = 50`; a second call, the package variable now holding 100, reads and returns,
the mock is as the first call left it and `ReadWeight` still returns 50. -/
theorem initializeRowIfNotExist_spec_witness :
    (sampleDynamoBackend.recorded.initializeRowIfNotExist sampleUnmarshalMap ⟨50, 35, ""⟩
        ⟨50, 35, ""⟩ (⟨none, none, none⟩, [])).state.2
      = [] ++ [.GetItem ⟨"traffic-controller", [("ClusterName", ⟨some "lolo", none⟩)]⟩,
          .TransactWriteItems
            ⟨[⟨some
              { TableName := "traffic-controller"
                ExpressionAttributeValues :=
                  [(":d", ⟨none, some (FormatInt 50)⟩), (":c", ⟨none, some (FormatInt 35)⟩)]
                Key := [("ClusterName", ⟨some "lolo", none⟩)]
                UpdateExpression := "SET DesiredWeight = :d, CurrentWeight = :c" }⟩]⟩]
    ∧ (sampleDynamoBackend.initializeRowIfNotExist sampleUnmarshalMap ⟨50, 35, ""⟩
        ⟨50, 35, ""⟩ ⟨none, none, none⟩).state = seededMock
    ∧ sampleDynamoBackend.recorded.initializeRowIfNotExist sampleUnmarshalMap ⟨100, 35, ""⟩
        ⟨100, 35, ""⟩ (seededMock, [])
      = .returned () (seededMock,
          [] ++ [.GetItem ⟨"traffic-controller", [("ClusterName", ⟨some "lolo", none⟩)]⟩])
    ∧ (sampleDynamoBackend.ReadWeight sampleUnmarshalMap seededMock).1 = (50, none) :=
  ⟨(initializeRowIfNotExist_spec sampleDynamoBackend sampleUnmarshalMap ⟨50, 35, ""⟩
      ⟨50, 35, ""⟩ ⟨none, none, none⟩ []).1 _ rfl,
   rfl,
   (initializeRowIfNotExist_spec sampleDynamoBackend sampleUnmarshalMap ⟨100, 35, ""⟩
      ⟨100, 35, ""⟩ seededMock []).2 _ seededMock rfl (by
        intro out hout
        cases hout
        simp),
   rfl⟩

end TrafficController
